import Mathlib

/-!
# Compound-document streams (`lib/comdoc/stream.go`)

A shallow embedding of the stream reader (`ReadStream`, `streamReader.Read`)
and of the stream writer (`addStream`) of the compound-document engine,
followed by the properties proved about them.  The health check of the
server (`server/view_health.go`) has a model of its own in the namespace
`Server`.

Conventions of the embedding

* A Go slice of bytes is a `List Byte`; `len`, `s[:n]` and `s[n:]` are
  `List.length`, `List.take` and `List.drop`.
* `uint32` values are natural numbers, the wrap-around of `-=` is written
  out with `% 2^32`.
* A Go call ends by returning or by a run-time panic; both are recorded in
  the result together with the state reached, so nothing is a partial
  function.
* The sector store (`readSector`, `writeSector`, ...), the allocator
  (`makeFreeSectors`) and the constants `DirStream` and `SecIDEndOfChain`
  are declared outside `stream.go`; they are parameters of the embedding.
  The sector-read functions act on the backing store and the allocator on
  the whole container.  The sector-write functions act on the backing store
  and on the allocation table of the other mode (the short sectors live in
  the short-stream container, a regular stream, which the short-sector
  writer extends through the SAT); they are read as leaving alone the header
  fields and the table that `addStream` is linking, which `addStream` holds
  in its slice `sat`.  The directory is not part of the embedding.
* Sector sizes are natural numbers (`int` values that are never negative in
  a container); a sector size of zero is covered: it makes `addStream`
  divide by zero and can make the loop of `Read` run for ever.
* The lists `fetched` and `writes` of the results record the calls of the
  sector functions in the order in which the code issues them.
-/

namespace Comdoc

/-! ## Data model -/

/-- One byte of a Go `[]byte`. -/
abbrev Byte := Fin 256

/-- Sector identifier: a signed integer (`stream.go` compares it with `0`
and uses it as a slice index). -/
abbrev SecID := Int

/-- Error values that `stream.go` returns or passes on. -/
inductive Error where
  /-- The value `io.EOF`. -/
  | EOF
  /-- The value of `errors.New("not a stream")`. -/
  | notAStream
  /-- The value of `errors.New("unexpected end to stream")`. -/
  | unexpectedEnd
  /-- Any other error value handed back by the sector store. -/
  | sector (code : Nat)
  deriving DecidableEq

/-- Run-time panics that `stream.go` can raise. -/
inductive Panic where
  /-- Slice index out of range (`sat[i]` with `i < 0` or `i >= len(sat)`). -/
  | indexOutOfRange
  /-- Slice bounds out of range (`buf[n:]` with `n > len(buf)`). -/
  | sliceBounds
  /-- Integer division by zero. -/
  | divideByZero
  /-- The explicit `panic("didn't allocate enough sectors")`. -/
  | notEnoughSectors
  deriving DecidableEq

/-- Conversion `uint32(n)` of a non-negative `int`. -/
def uint32 (n : Nat) : Nat := n % 4294967296

/-- The statement `a -= uint32(n)` on a `uint32` variable. -/
def subU32 (a n : Nat) : Nat := (a + 4294967296 - uint32 n) % 4294967296

/-- Type of `readSector func(SecID, []byte) error`: the callee receives the
contents of the slice and leaves new contents and an error value. -/
abbrev ReadFn := SecID → List Byte → List Byte × Option Error

/-- A call `f(id, b)`: the callee can overwrite the elements of `b` but
cannot change its length. -/
def callSector (f : ReadFn) (id : SecID) (b : List Byte) : List Byte × Option Error :=
  (((f id b).1 ++ b.drop (f id b).1.length).take b.length, (f id b).2)

/-- The struct `streamReader`.  `saved` is a sub-slice of `buf` in the
source; it is only read while no sector is being read into `buf`, so it is
kept as a list of its own. -/
structure streamReader where
  remaining : Nat
  nextSector : SecID
  sat : List SecID
  sectorSize : Nat
  readSector : ReadFn
  buf : List Byte
  saved : List Byte

/-- The fields of `DirEnt` that `ReadStream` uses. -/
structure DirEnt where
  Type_ : Nat
  StreamSize : Nat
  NextSector : SecID

/-- The fields of `ComDoc` that `stream.go` uses; `File` stands for the
backing store that the sector functions read and write. -/
structure ComDoc (σ : Type) where
  MinStdStreamSize : Nat
  SectorSize : Nat
  ShortSectorSize : Nat
  SAT : List SecID
  SSAT : List SecID
  File : σ

/-- What the methods `writeSector` and `writeShortSector` work on while
`addStream` links a chain: the backing store and `other`, the allocation
table of the mode that is not being linked (the SAT while a short stream is
stored, the SSAT otherwise). -/
structure Medium (σ : Type) where
  other : List SecID
  File : σ

/-- The methods of `ComDoc` that `stream.go` calls and that are declared
elsewhere. -/
structure Externals (σ : Type) where
  readSector : σ → ReadFn
  readShortSector : σ → ReadFn
  writeSector : Medium σ → SecID → List Byte → Medium σ × Option Error
  writeShortSector : Medium σ → SecID → List Byte → Medium σ × Option Error
  makeFreeSectors : ComDoc σ → Nat → Bool → ComDoc σ × List SecID

/-! ## `ReadStream` -/

/-- The method `ComDoc.ReadStream`. -/
def ReadStream {σ : Type} (ext : Externals σ) (DirStream : Nat) (r : ComDoc σ) (e : DirEnt) :
    Except Error streamReader :=
  if e.Type_ ≠ DirStream then
    .error .notAStream
  else if e.StreamSize < r.MinStdStreamSize then
    .ok { remaining := e.StreamSize, nextSector := e.NextSector,
          sectorSize := r.ShortSectorSize, sat := r.SSAT,
          readSector := ext.readShortSector r.File,
          buf := List.replicate r.ShortSectorSize 0, saved := [] }
  else
    .ok { remaining := e.StreamSize, nextSector := e.NextSector,
          sectorSize := r.SectorSize, sat := r.SAT,
          readSector := ext.readSector r.File,
          buf := List.replicate r.SectorSize 0, saved := [] }

/-! ## `streamReader.Read` -/

/-- The local state of one `Read` call: the reader, the counter `copied`,
the part `out` of the caller's buffer that lies in front of the slice `d`,
the slice `d` itself, and the sector reads issued so far with their
results. -/
structure Cursor where
  sr : streamReader
  copied : Nat
  out : List Byte
  d : List Byte
  fetched : List (SecID × Option Error)

/-- How a block of statements of `Read` ends. -/
inductive Flow where
  /-- Control reaches the statement after the block. -/
  | go (c : Cursor)
  /-- The statement `return copied, err`. -/
  | ret (c : Cursor) (err : Option Error)
  /-- A run-time panic. -/
  | panic (c : Cursor) (p : Panic)
  /-- The iteration bound of the embedding was reached. -/
  | outOfFuel (c : Cursor)

/-- Lines 65-75: serve bytes from the previously buffered sector. -/
def savedPhase (c : Cursor) : Cursor :=
  if 0 < c.sr.saved.length then
    let n := if c.d.length < c.sr.saved.length then c.d.length else c.sr.saved.length
    { sr := { c.sr with saved := c.sr.saved.drop n, remaining := subU32 c.sr.remaining n },
      copied := c.copied + n,
      out := c.out ++ c.sr.saved.take n,
      d := c.d.drop n,
      fetched := c.fetched }
  else c

/-- Lines 77-89: the loop `for len(d) >= n` reading whole sectors. -/
def wholeSectors : Nat → Cursor → Flow
  | 0, c => .outOfFuel c
  | fuel + 1, c =>
    if c.sr.sectorSize ≤ c.d.length then
      if c.sr.nextSector < 0 then
        .ret c (some .unexpectedEnd)
      else
        let res := callSector c.sr.readSector c.sr.nextSector (c.d.take c.sr.sectorSize)
        match res.2 with
        | some e =>
          .ret { c with d := res.1 ++ c.d.drop c.sr.sectorSize,
                        fetched := c.fetched ++ [(c.sr.nextSector, some e)] } (some e)
        | none =>
          let c1 : Cursor :=
            { sr := { c.sr with remaining := subU32 c.sr.remaining c.sr.sectorSize },
              copied := c.copied + c.sr.sectorSize,
              out := c.out ++ res.1,
              d := c.d.drop c.sr.sectorSize,
              fetched := c.fetched ++ [(c.sr.nextSector, none)] }
          match c.sr.sat.get? c.sr.nextSector.toNat with
          | none => .panic c1 .indexOutOfRange
          | some nxt => wholeSectors fuel { c1 with sr := { c1.sr with nextSector := nxt } }
    else .go c

/-- Lines 91-104: read one sector into `buf`, hand out its front and keep
the rest in `saved`. -/
def tailSector (c : Cursor) : Flow :=
  if 0 < c.d.length then
    if c.sr.nextSector < 0 then
      .ret c (some .unexpectedEnd)
    else
      let res := callSector c.sr.readSector c.sr.nextSector c.sr.buf
      match res.2 with
      | some e =>
        .ret { c with sr := { c.sr with buf := res.1 },
                      fetched := c.fetched ++ [(c.sr.nextSector, some e)] } (some e)
      | none =>
        let c1 : Cursor :=
          { sr := { c.sr with buf := res.1, remaining := subU32 c.sr.remaining c.d.length },
            copied := c.copied + c.d.length,
            out := c.out ++ (res.1.take c.d.length ++ c.d.drop res.1.length),
            d := [],
            fetched := c.fetched ++ [(c.sr.nextSector, none)] }
        if res.1.length < c.d.length then
          .panic c1 .sliceBounds
        else
          let c2 : Cursor := { c1 with sr := { c1.sr with saved := res.1.drop c.d.length } }
          match c.sr.sat.get? c.sr.nextSector.toNat with
          | none => .panic c2 .indexOutOfRange
          | some nxt => .go { c2 with sr := { c2.sr with nextSector := nxt } }
  else .go c

/-- How a call ends: with `return copied, err` or with a panic. -/
inductive Ending where
  | returned (copied : Nat) (err : Option Error)
  | panicked (p : Panic)
  | outOfFuel
  deriving DecidableEq

/-- Result of one `Read` call: how it ended, the contents of the caller's
buffer, the reader afterwards and the sector reads issued, in order. -/
structure ReadRun where
  ending : Ending
  d : List Byte
  sr : streamReader
  fetched : List (SecID × Option Error)

/-- Assemble the result of `Read`; `rest` is the part of the caller's
buffer beyond the clamp `d = d[:remaining]`. -/
def finish (rest : List Byte) : Flow → ReadRun
  | .go c => ⟨.returned c.copied none, c.out ++ c.d ++ rest, c.sr, c.fetched⟩
  | .ret c err => ⟨.returned c.copied err, c.out ++ c.d ++ rest, c.sr, c.fetched⟩
  | .panic c p => ⟨.panicked p, c.out ++ c.d ++ rest, c.sr, c.fetched⟩
  | .outOfFuel c => ⟨.outOfFuel, c.out ++ c.d ++ rest, c.sr, c.fetched⟩

/-- Sequencing of two blocks of statements. -/
def Flow.andThen (f : Flow) (k : Cursor → Flow) : Flow :=
  match f with
  | .go c => k c
  | other => other

/-- The method `streamReader.Read`.  The loop over whole sectors gets
`len(d) + 1` iterations, which is enough whenever `sectorSize >= 1`
(`Read_returns_or_panics`). -/
def Read (sr : streamReader) (d : List Byte) : ReadRun :=
  if sr.remaining = 0 then
    ⟨.returned 0 (some .EOF), d, sr, []⟩
  else if d.length = 0 then
    ⟨.returned 0 none, d, sr, []⟩
  else
    let lim := if sr.remaining < d.length then sr.remaining else d.length
    let c1 := savedPhase ⟨sr, 0, [], d.take lim, []⟩
    finish (d.drop lim) ((wholeSectors (c1.d.length + 1) c1).andThen tailSector)

/-- Why a sequence of `Read` calls stopped. -/
inductive Stop where
  /-- Every buffer of the sequence was used and no call failed. -/
  | exhausted
  /-- A call returned this error. -/
  | error (e : Error)
  /-- A call panicked. -/
  | panicked (p : Panic)
  /-- A call reached the iteration bound of the embedding. -/
  | outOfFuel
  deriving DecidableEq

/-- Result of a sequence of `Read` calls. -/
structure Drained where
  data : List Byte
  stop : Stop
  sr : streamReader
  fetched : List (SecID × Option Error)

/-- A caller that reads with the given buffers one after the other,
collects `d[:copied]` of every call and stops at the first call that
returns an error (`io.EOF` included) or panics. -/
def readAll : streamReader → List (List Byte) → Drained
  | sr, [] => ⟨[], .exhausted, sr, []⟩
  | sr, d :: ds =>
    match (Read sr d).ending with
    | .returned n none =>
      let rest := readAll (Read sr d).sr ds
      ⟨(Read sr d).d.take n ++ rest.data, rest.stop, rest.sr, (Read sr d).fetched ++ rest.fetched⟩
    | .returned n (some e) => ⟨(Read sr d).d.take n, .error e, (Read sr d).sr, (Read sr d).fetched⟩
    | .panicked p => ⟨[], .panicked p, (Read sr d).sr, (Read sr d).fetched⟩
    | .outOfFuel => ⟨[], .outOfFuel, (Read sr d).sr, (Read sr d).fetched⟩

/-! ## `addStream` -/

/-- The assignment `sat[i] = v`; `none` stands for the index-out-of-range
panic. -/
def setSat (sat : List SecID) (i v : SecID) : Option (List SecID) :=
  if 0 ≤ i ∧ i.toNat < sat.length then some (sat.set i.toNat v) else none

/-- The local state of `addStream` inside its loop, with the sector writes
issued so far and their results; `file` is what the sector writes work on
(in `addStream`, a `Medium`). -/
structure Writer (σ : Type) where
  sat : List SecID
  file : σ
  first : SecID
  previous : SecID
  contents : List Byte
  writes : List (SecID × List Byte × Option Error)

/-- How the loop of `addStream` ends. -/
inductive WFlow (σ : Type) where
  /-- The loop ran to its end. -/
  | go (w : Writer σ)
  /-- The statement `return 0, err`. -/
  | ret (w : Writer σ) (err : Error)
  /-- A run-time panic. -/
  | panic (w : Writer σ) (p : Panic)

/-- Lines 126-148: the loop `for _, i := range freeList`. -/
def linkSectors {σ : Type} (SecIDEndOfChain : SecID)
    (write : σ → SecID → List Byte → σ × Option Error) (sectorSize : Nat) :
    List SecID → Writer σ → WFlow σ
  | [], w => .go w
  | i :: freeList, w =>
    let linked : Option (Writer σ) :=
      if w.previous = SecIDEndOfChain then some { w with first := i }
      else (setSat w.sat w.previous i).map (fun sat => { w with sat := sat })
    match linked with
    | none => .panic w .indexOutOfRange
    | some w1 =>
      let n := if w1.contents.length < sectorSize then w1.contents.length else sectorSize
      let res := write w1.file i (w1.contents.take n)
      let w2 : Writer σ :=
        { w1 with previous := i, file := res.1,
                  writes := w1.writes ++ [(i, w1.contents.take n, res.2)] }
      match res.2 with
      | some e => .ret w2 e
      | none => linkSectors SecIDEndOfChain write sectorSize freeList
                  { w2 with contents := w2.contents.drop n }

/-- How a call of `addStream` ends. -/
inductive AddEnding where
  | returned (first : SecID) (err : Option Error)
  | panicked (p : Panic)
  deriving DecidableEq

/-- Result of `addStream`: how it ended, the container afterwards and the
sector writes issued, in order. -/
structure AddRun (σ : Type) where
  ending : AddEnding
  r : ComDoc σ
  writes : List (SecID × List Byte × Option Error)

/-- What the sector-write methods are handed when `addStream` starts to
link in the container `r`: the table of the other mode and the backing
store. -/
def mediumOf {σ : Type} (r : ComDoc σ) (short : Bool) : Medium σ :=
  ⟨if short then r.SAT else r.SSAT, r.File⟩

/-- The container when `addStream` ends: `sat` aliases `r.SSAT` when `short`
is set and `r.SAT` otherwise, so the table of the mode is what `addStream`
made of `sat`; the table of the other mode and the backing store are what
the sector writes left. -/
def storeBack {σ : Type} (r : ComDoc σ) (short : Bool) (sat : List SecID) (m : Medium σ) :
    ComDoc σ :=
  if short then { r with SSAT := sat, SAT := m.other, File := m.File }
  else { r with SAT := sat, SSAT := m.other, File := m.File }

/-- The method `ComDoc.addStream`. -/
def addStream {σ : Type} (ext : Externals σ) (SecIDEndOfChain : SecID) (r : ComDoc σ)
    (contents : List Byte) (short : Bool) : AddRun σ :=
  let sectorSize := if short then r.ShortSectorSize else r.SectorSize
  if sectorSize = 0 then
    ⟨.panicked .divideByZero, r, []⟩
  else
    let needSectors := (contents.length + sectorSize - 1) / sectorSize
    let alloc := ext.makeFreeSectors r needSectors short
    let r1 := alloc.1
    let sat := if short then r1.SSAT else r1.SAT
    let write := if short then ext.writeShortSector else ext.writeSector
    match linkSectors SecIDEndOfChain write sectorSize alloc.2
            ⟨sat, mediumOf r1 short, SecIDEndOfChain, SecIDEndOfChain, contents, []⟩ with
    | .panic w p => ⟨.panicked p, storeBack r1 short w.sat w.file, w.writes⟩
    | .ret w e => ⟨.returned 0 (some e), storeBack r1 short w.sat w.file, w.writes⟩
    | .go w =>
      match setSat w.sat w.previous SecIDEndOfChain with
      | none => ⟨.panicked .indexOutOfRange, storeBack r1 short w.sat w.file, w.writes⟩
      | some sat1 =>
        if 0 < w.contents.length then
          ⟨.panicked .notEnoughSectors, storeBack r1 short sat1 w.file, w.writes⟩
        else
          ⟨.returned w.first none, storeBack r1 short sat1 w.file, w.writes⟩

/-! ## Chains of an allocation table -/

/-- The sector ids `ids` are met, in this order, when the table is followed
from `start`: every one of them is an index of the table and the entry of
each is the next one.  `last` is the entry of the last of them (`start`
itself when `ids` is empty). -/
def Follows (sat : List SecID) : SecID → List SecID → SecID → Prop
  | cur, [], last => cur = last
  | cur, id :: ids, last =>
    cur = id ∧ 0 ≤ id ∧ ∃ nxt, sat.get? id.toNat = some nxt ∧ Follows sat nxt ids last

/-- Follow the table from `start` up to the terminator: the ids met on the
way, or `none` when the walk leaves the table or takes more than `fuel`
steps. -/
def chain (sat : List SecID) (SecIDEndOfChain : SecID) : Nat → SecID → Option (List SecID)
  | 0, _ => none
  | fuel + 1, cur =>
    if cur = SecIDEndOfChain then some []
    else if cur < 0 then none
    else
      match sat.get? cur.toNat with
      | none => none
      | some nxt => (chain sat SecIDEndOfChain fuel nxt).map (fun ids => cur :: ids)

/-- The slices `contents[j*s : min((j+1)*s, len)]`, one per sector. -/
def chunks (s : Nat) : Nat → List Byte → List (List Byte)
  | 0, _ => []
  | k + 1, contents => contents.take s :: chunks s k (contents.drop s)

/-! ## Notions used in the statements -/

/-- The bytes of the sectors `ids`, one after the other, when sector `id`
holds `data id`. -/
def chainBytes (data : SecID → List Byte) : List SecID → List Byte
  | [] => []
  | id :: ids => data id ++ chainBytes data ids

/-- Cursor after the loop over whole sectors has served the sectors `ids`
and moved the chain pointer to `nxt`. -/
def Cursor.served (c : Cursor) (data : SecID → List Byte) (ids : List SecID) (nxt : SecID) : Cursor :=
  { sr := { c.sr with remaining := c.sr.remaining - c.sr.sectorSize * ids.length, nextSector := nxt },
    copied := c.copied + c.sr.sectorSize * ids.length,
    out := c.out ++ chainBytes data ids,
    d := c.d.drop (c.sr.sectorSize * ids.length),
    fetched := c.fetched ++ ids.map (fun id => (id, none)) }

/-- Cursor after the tail of the request was served from one more sector. -/
def Cursor.tailServed (c : Cursor) (bytes : List Byte) (nxt : SecID) : Cursor :=
  { sr := { c.sr with buf := bytes, remaining := c.sr.remaining - c.d.length,
                      saved := bytes.drop c.d.length, nextSector := nxt },
    copied := c.copied + c.d.length,
    out := c.out ++ bytes.take c.d.length,
    d := [],
    fetched := c.fetched ++ [(c.sr.nextSector, none)] }

/-- What the proofs need to know about a reader: the next `ids` of its chain
are indices of its table, and reading any of them succeeds and yields the
`sectorSize` bytes `data id`. -/
structure Sound (data : SecID → List Byte) (sr : streamReader) (ids : List SecID)
    (last : SecID) : Prop where
  size_pos : 1 ≤ sr.sectorSize
  buf_len : sr.buf.length = sr.sectorSize
  rem_lt : sr.remaining < 4294967296
  follows : Follows sr.sat sr.nextSector ids last
  reads : ∀ id ∈ ids, ∀ b : List Byte, b.length = sr.sectorSize →
    sr.readSector id b = (data id, none)
  data_len : ∀ id ∈ ids, (data id).length = sr.sectorSize

/-- The table in which `addStream` links the sectors. -/
def tableOf {σ : Type} (r : ComDoc σ) (short : Bool) : List SecID :=
  if short then r.SSAT else r.SAT

/-- The table `sat` after `prev` was linked to the first of `ids`, every id
to the one after it, and the last one to the terminator. -/
def linked (SecIDEndOfChain : SecID) : List SecID → SecID → List SecID → List SecID
  | sat, prev, [] => sat.set prev.toNat SecIDEndOfChain
  | sat, prev, i :: ids => linked SecIDEndOfChain (sat.set prev.toNat i) i ids

/-- Every sector access of the log succeeded. -/
def Clean (log : List (SecID × Option Error)) : Prop := ∀ x ∈ log, x.2 = none

/-- Cursor `c` is reached from `c0` by sector reads that all succeeded. -/
def Progress (c0 c : Cursor) : Prop :=
  ∃ new, c.fetched = c0.fetched ++ new ∧ Clean new

/-- Cursor `c` is reached from `c0` by whole-sector reads that succeeded,
followed by a read of sector `c.sr.nextSector` that failed with `e`. -/
def FailedAt (c0 c : Cursor) (e : Error) : Prop :=
  ∃ new, c.fetched = c0.fetched ++ new ++ [(c.sr.nextSector, some e)] ∧ Clean new ∧
    c.copied = c0.copied + c0.sr.sectorSize * new.length ∧
    c.copied + c.sr.remaining = c0.copied + c0.sr.remaining

/-- What a block of `Read` does to the log of sector reads. -/
def Traced (c0 : Cursor) : Flow → Prop
  | .go c => c.sr.sectorSize = c0.sr.sectorSize ∧
      c.d.length ≤ c.sr.remaining ∧ c.sr.remaining < 4294967296 ∧
      c.copied + c.sr.remaining = c0.copied + c0.sr.remaining ∧
      ∃ new, c.fetched = c0.fetched ++ new ∧ Clean new ∧
        c.copied = c0.copied + c0.sr.sectorSize * new.length
  | .ret c err => (err = some .unexpectedEnd ∧ Progress c0 c) ∨ ∃ e, err = some e ∧ FailedAt c0 c e
  | .panic c _ => Progress c0 c
  | .outOfFuel c => Progress c0 c

/-- What `tailSector` does to the log of sector reads. -/
def TracedTail (c0 : Cursor) : Flow → Prop
  | .go c => Progress c0 c
  | .ret c err => (err = some .unexpectedEnd ∧ Progress c0 c) ∨
      ∃ e, err = some e ∧ c.fetched = c0.fetched ++ [(c.sr.nextSector, some e)] ∧
        c.copied = c0.copied ∧ c.sr.remaining = c0.sr.remaining
  | .panic c _ => Progress c0 c
  | .outOfFuel c => Progress c0 c

/-- Every sector write of the log succeeded. -/
def CleanW (log : List (SecID × List Byte × Option Error)) : Prop := ∀ x ∈ log, x.2.2 = none

/-- What the loop of `addStream` does to the log of sector writes. -/
def WTraced {σ : Type} (w0 : Writer σ) : WFlow σ → Prop
  | .go w => ∃ new, w.writes = w0.writes ++ new ∧ CleanW new
  | .panic w _ => ∃ new, w.writes = w0.writes ++ new ∧ CleanW new
  | .ret w e => ∃ new id bs, w.writes = w0.writes ++ new ++ [(id, bs, some e)] ∧ CleanW new

/-- Two reader states agree in everything but `remaining` and the chain
pointer. -/
def SameReader (a b : streamReader) : Prop :=
  a.sat = b.sat ∧ a.sectorSize = b.sectorSize ∧ a.readSector = b.readSector ∧
    a.buf = b.buf ∧ a.saved = b.saved

/-- What the loop over whole sectors does, whatever the table and the
sector store hold: `ids` are the sectors read with success, in order. -/
def Swept (c0 : Cursor) : Flow → Prop
  | .go c => ∃ ids, c.fetched = c0.fetched ++ ids.map (fun id => (id, none)) ∧
      Follows c0.sr.sat c0.sr.nextSector ids c.sr.nextSector ∧
      c.d.length + c0.sr.sectorSize * ids.length = c0.d.length ∧
      c.d.length < c0.sr.sectorSize ∧
      c.copied = c0.copied + c0.sr.sectorSize * ids.length ∧
      c.sr.remaining + c0.sr.sectorSize * ids.length = c0.sr.remaining ∧
      SameReader c0.sr c.sr
  | .ret c err => ∃ ids,
      Follows c0.sr.sat c0.sr.nextSector ids c.sr.nextSector ∧
      c0.sr.sectorSize * ids.length + c0.sr.sectorSize ≤ c0.d.length ∧
      c.copied = c0.copied + c0.sr.sectorSize * ids.length ∧
      c.sr.remaining + c0.sr.sectorSize * ids.length = c0.sr.remaining ∧
      SameReader c0.sr c.sr ∧
      ((err = some .unexpectedEnd ∧ c.sr.nextSector < 0 ∧
          c.fetched = c0.fetched ++ ids.map (fun id => (id, none))) ∨
        ∃ e, err = some e ∧ 0 ≤ c.sr.nextSector ∧
          c.fetched = c0.fetched ++ ids.map (fun id => (id, none))
            ++ [(c.sr.nextSector, some e)])
  | .panic c _ => ∃ pre x,
      Follows c0.sr.sat c0.sr.nextSector pre x ∧ 0 ≤ x ∧ c.sr.nextSector = x ∧
      c0.sr.sectorSize * pre.length + c0.sr.sectorSize ≤ c0.d.length ∧
      c.fetched = c0.fetched ++ (pre ++ [x]).map (fun id => (id, none)) ∧
      c.sr.remaining ≤ c0.sr.remaining ∧ SameReader c0.sr c.sr
  | .outOfFuel _ => False

/-- What one `Read` call with `remaining > 0` and a non-empty buffer does,
whatever the table and the sector store hold: `ids` are the sectors read
with success, in order, and `tail` is the log entry of a failed sector read,
if there was one. -/
structure ReadFacts (sr : streamReader) (d : List Byte) (ids : List SecID)
    (tail : List (SecID × Option Error)) : Prop where
  fetched_eq : (Read sr d).fetched = ids.map (fun id => (id, none)) ++ tail
  sat_eq : (Read sr d).sr.sat = sr.sat
  size_eq : (Read sr d).sr.sectorSize = sr.sectorSize
  read_eq : (Read sr d).sr.readSector = sr.readSector
  buf_len : (Read sr d).sr.buf.length = sr.buf.length
  rem_le : (Read sr d).sr.remaining ≤ sr.remaining
  ok : ∀ n, (Read sr d).ending = .returned n none →
    tail = [] ∧ n = min d.length sr.remaining ∧
    (Read sr d).sr.remaining + min d.length sr.remaining = sr.remaining ∧
    Follows sr.sat sr.nextSector ids (Read sr d).sr.nextSector ∧
    sr.sectorSize * ids.length < min d.length sr.remaining
      - min (min d.length sr.remaining) sr.saved.length + sr.sectorSize ∧
    (sr.buf.length = sr.sectorSize →
      (Read sr d).sr.saved.length
          + (min d.length sr.remaining - min (min d.length sr.remaining) sr.saved.length)
        = sr.sectorSize * ids.length
          + (sr.saved.length - min (min d.length sr.remaining) sr.saved.length))
  err : ∀ n e, (Read sr d).ending = .returned n (some e) →
    n = min (min d.length sr.remaining) sr.saved.length + sr.sectorSize * ids.length ∧
    (Read sr d).sr.remaining + n = sr.remaining ∧
    Follows sr.sat sr.nextSector ids (Read sr d).sr.nextSector ∧
    sr.sectorSize * ids.length < min d.length sr.remaining
      - min (min d.length sr.remaining) sr.saved.length ∧
    (Read sr d).sr.saved = sr.saved.drop (min (min d.length sr.remaining) sr.saved.length) ∧
    ((tail = [] ∧ e = .unexpectedEnd ∧ (Read sr d).sr.nextSector < 0) ∨
      (tail = [((Read sr d).sr.nextSector, some e)] ∧ 0 ≤ (Read sr d).sr.nextSector))
  panic : ∀ p, (Read sr d).ending = .panicked p →
    tail = [] ∧ ∃ pre x, ids = pre ++ [x] ∧ Follows sr.sat sr.nextSector pre x ∧ 0 ≤ x ∧
      (Read sr d).sr.nextSector = x ∧
      sr.sectorSize * pre.length < min d.length sr.remaining
        - min (min d.length sr.remaining) sr.saved.length
  fuel : (Read sr d).ending ≠ .outOfFuel

/-- The part of `Read` after the saved bytes were served: the loop over
whole sectors followed by the tail block, and the return. -/
def phases (rest : List Byte) (c1 : Cursor) : ReadRun :=
  finish rest ((wholeSectors (c1.d.length + 1) c1).andThen tailSector)

/-- Result of an arbitrary sequence of `Read` calls on one reader: the
sector reads issued, the reader at the end, and whether a call panicked. -/
structure Session where
  fetched : List (SecID × Option Error)
  sr : streamReader
  panicked : Bool

/-- A caller that issues one `Read` call per buffer, whatever the calls
return; only a panic ends the sequence early. -/
def readEach : streamReader → List (List Byte) → Session
  | sr, [] => ⟨[], sr, false⟩
  | sr, d :: ds =>
    match (Read sr d).ending with
    | .returned _ _ =>
      ⟨(Read sr d).fetched ++ (readEach (Read sr d).sr ds).fetched,
        (readEach (Read sr d).sr ds).sr, (readEach (Read sr d).sr ds).panicked⟩
    | _ => ⟨(Read sr d).fetched, (Read sr d).sr, true⟩

/-- The first `n` sector ids of the sequence `start`, `sat[start]`,
`sat[sat[start]]`, ...; the sequence ends at a negative id and after an id
that is not an index of the table. -/
def walk (sat : List SecID) : Nat → SecID → List SecID
  | 0, _ => []
  | n + 1, cur =>
    if cur < 0 then []
    else cur :: (match sat.get? cur.toNat with
      | some nxt => walk sat n nxt
      | none => [])

/-- Number of sector reads of a log that succeeded. -/
def successes (log : List (SecID × Option Error)) : Nat :=
  log.countP (fun x => x.2.isNone)

/-- Number of sectors that a reader still has to read to serve all its
remaining bytes, `ceil((remaining - len(saved)) / sectorSize)`. -/
def sectorsLeft (sr : streamReader) : Nat :=
  (sr.remaining - sr.saved.length + sr.sectorSize - 1) / sr.sectorSize

/-- The table `sat` after the loop of `addStream` has gone through the ids
`ids` with `previous = prev` at the start: every id is linked from the one
before it, the last one is not linked to anything yet.  As in the loop,
`prev = SecIDEndOfChain` stands for "no sector yet" and links nothing. -/
def linkedOpen (SecIDEndOfChain : SecID) : List SecID → SecID → List SecID → List SecID
  | sat, _, [] => sat
  | sat, prev, i :: ids =>
    linkedOpen SecIDEndOfChain (if prev = SecIDEndOfChain then sat else sat.set prev.toNat i) i ids

/-- The first statement of the loop body of `addStream` (lines 127-131):
make `i` the head or link it from `previous`. -/
def linkTo {σ : Type} (SecIDEndOfChain : SecID) (w : Writer σ) (i : SecID) : Option (Writer σ) :=
  if w.previous = SecIDEndOfChain then some { w with first := i }
  else (setSat w.sat w.previous i).map (fun sat => { w with sat := sat })

/-- The writer that a block of `addStream` ends with. -/
def WFlow.writer {σ : Type} : WFlow σ → Writer σ
  | .go w => w
  | .ret w _ => w
  | .panic w _ => w

/-- The tables `a` and `b` have the same entries at every index that is not
one of `ids`. -/
def SameOutside (ids : List SecID) (a b : List SecID) : Prop :=
  b.length = a.length ∧ ∀ j : Nat, (j : SecID) ∉ ids → b.get? j = a.get? j

/-! ## A sector store for examples -/

/-- Backing store of the examples: the sectors written so far, newest
first, each padded with zeroes to the sector size. -/
abbrev MemFile := List (SecID × List Byte)

/-- Read a sector of a `MemFile`; a sector never written is an error. -/
def memRead (f : MemFile) : ReadFn := fun id b =>
  match f.lookup id with
  | some bytes => (bytes, none)
  | none => (b, some (.sector 1))

/-- Write a sector of a `MemFile`, padded with zeroes to `s` bytes; the
table of the other mode is left alone. -/
def memWrite (s : Nat) (m : Medium MemFile) (id : SecID) (bytes : List Byte) :
    Medium MemFile × Option Error :=
  ({ m with File := (id, bytes ++ List.replicate (s - bytes.length) 0) :: m.File }, none)

/-- Allocator of the examples: it hands out the given ids and leaves the
container alone. -/
def memAlloc (ids : List SecID) (r : ComDoc MemFile) (_n : Nat) (_short : Bool) :
    ComDoc MemFile × List SecID := (r, ids)

/-- The externals of the examples, for sector size `s`, short sector size
`t` and an allocator that hands out `ids`. -/
def memExt (s t : Nat) (ids : List SecID) : Externals MemFile :=
  { readSector := memRead, readShortSector := memRead,
    writeSector := memWrite s, writeShortSector := memWrite t,
    makeFreeSectors := memAlloc ids }

/-- A sector write that fails with an error of the store on sector `bad`
and behaves as `memWrite` on every other sector. -/
def memWriteFailing (bad : SecID) (s : Nat) (m : Medium MemFile) (id : SecID)
    (bytes : List Byte) : Medium MemFile × Option Error :=
  if id = bad then (m, some (.sector 2)) else memWrite s m id bytes

/-- Container of the examples: sectors of 4 bytes, short sectors of 2
bytes, threshold 8, four unused entries in the SAT and three in the
SSAT, nothing written yet. -/
def emptyDoc : ComDoc MemFile :=
  { MinStdStreamSize := 8, SectorSize := 4, ShortSectorSize := 2,
    SAT := [-1, -1, -1, -1], SSAT := [-1, -1, -1], File := [] }

/-- Payload of ten bytes, two and a half sectors of `emptyDoc`. -/
def tenBytes : List Byte := [1, 2, 3, 4, 5, 6, 7, 8, 9, 10]

/-- A container whose regular chain 1, 2, 0 holds the bytes 1..30 in
sectors of 10 bytes. -/
def threeSectors : ComDoc MemFile :=
  { MinStdStreamSize := 8, SectorSize := 10, ShortSectorSize := 4,
    SAT := [-2, 2, 0], SSAT := [],
    File := [(1, [1, 2, 3, 4, 5, 6, 7, 8, 9, 10]), (2, [11, 12, 13, 14, 15, 16, 17, 18, 19, 20]),
             (0, [21, 22, 23, 24, 25, 26, 27, 28, 29, 30])] }

/-- The reader that `ReadStream` returns for a stream of `size` bytes that
starts at sector `start` of the regular chain of `r`. -/
def regularReader (r : ComDoc MemFile) (size : Nat) (start : SecID) : streamReader :=
  { remaining := size, nextSector := start, sectorSize := r.SectorSize, sat := r.SAT,
    readSector := memRead r.File, buf := List.replicate r.SectorSize 0, saved := [] }

/-- A container whose chain ends after one sector of 4 bytes. -/
def oneSector : ComDoc MemFile :=
  { MinStdStreamSize := 8, SectorSize := 4, ShortSectorSize := 2,
    SAT := [-2], SSAT := [], File := [(0, [1, 2, 3, 4]), (5, [9, 9, 9, 9])] }

/-- A container whose only table entry points to itself. -/
def selfLoop : ComDoc MemFile :=
  { MinStdStreamSize := 1, SectorSize := 2, ShortSectorSize := 1,
    SAT := [0], SSAT := [], File := [(0, [1, 2])] }

/-- The container `threeSectors` with the sectors 2 and 0 missing from the
backing store. -/
def brokenStore : ComDoc MemFile :=
  { threeSectors with File := [(1, [1, 2, 3, 4, 5, 6, 7, 8, 9, 10])] }

/-- A container whose only table entry leads to sector 5, which is not an
index of the table; both sectors can be read. -/
def offTable : ComDoc MemFile :=
  { MinStdStreamSize := 1, SectorSize := 2, ShortSectorSize := 1,
    SAT := [5], SSAT := [], File := [(0, [1, 2]), (5, [3, 4])] }

/-- Read a sector of a `MemFile` as a file does: a sector that lies beyond
the end of the file answers `io.EOF`. -/
def memReadEOF (f : MemFile) : ReadFn := fun id b =>
  match f.lookup id with
  | some bytes => (bytes, none)
  | none => (b, some .EOF)

/-- A container whose chain 0, 1 ends after two sectors of 4 bytes, in a
file that holds sector 0 only. -/
def shortFile : ComDoc MemFile :=
  { MinStdStreamSize := 8, SectorSize := 4, ShortSectorSize := 2,
    SAT := [1, -2], SSAT := [], File := [(0, [1, 2, 3, 4])] }

/-- Modelled from the spec: `writeShortSector` is declared outside
`stream.go`.  The short sectors are packed into the short-stream container,
a regular stream whose chain is kept in the SAT.  This stand-in writes the
short sector as `memWrite` does and, as a writer that has to make room in
the container, links one more regular sector to the chain of the container:
sector 0 gets the successor 1 and sector 1 ends the chain. -/
def memWriteShortGrowing (t : Nat) (m : Medium MemFile) (id : SecID) (bytes : List Byte) :
    Medium MemFile × Option Error :=
  ({ other := (m.other.set 0 1).set 1 (-2),
     File := (id, bytes ++ List.replicate (t - bytes.length) 0) :: m.File }, none)

/-- A container whose short-stream container is the regular sector 0. -/
def shortHost : ComDoc MemFile :=
  { MinStdStreamSize := 8, SectorSize := 4, ShortSectorSize := 2,
    SAT := [-2, -1, -1, -1], SSAT := [-1, -1, -1], File := [] }

end Comdoc

/-!
# Health check of the server (`server/view_health.go`)

The status that `healthCheck` maintains and `Healthy` reports.  The ping of
a token (`pingOne`, which runs a subprocess) and the clock are inputs of a
check; times and durations are integers (nanoseconds).  The log messages
have no effect on the status and are left out.
-/

namespace Server

/-- The constant `HealthCheckInterval`, 60 seconds. -/
def HealthCheckInterval : Int := 60 * 1000000000

/-- The constant `HealthCheckMaxFailures`. -/
def HealthCheckMaxFailures : Int := 2

/-- The fields of a key configuration that `healthCheck` uses. -/
structure KeyConfig where
  Token : String
  Roles : List String

/-- The field of the server section of the configuration that
`healthCheck` uses. -/
structure ServerConfig where
  Disabled : Bool

/-- The fields of the configuration that `healthCheck` uses. -/
structure Config where
  Keys : List KeyConfig
  Server : ServerConfig

/-- The package variables `healthStatus` and `healthLastPing`. -/
structure Health where
  healthStatus : Int
  healthLastPing : Int

/-- The values of the package variables when the program starts; the zero
time stamp is 0. -/
def startHealth : Health := ⟨HealthCheckMaxFailures, 0⟩

/-- Lines 66-78 of `healthCheck`: ping every token that has a name and a
role, once, and stop at the first ping that fails.  `saw` is the map
`sawToken`. -/
def pingTokens (pingOne : String → Bool) : List KeyConfig → List String → Bool
  | [], _ => true
  | keyConf :: keys, saw =>
    if keyConf.Token = "" ∨ keyConf.Roles.length = 0 ∨ keyConf.Token ∈ saw then
      pingTokens pingOne keys saw
    else if !pingOne keyConf.Token then false
    else pingTokens pingOne keys (keyConf.Token :: saw)

/-- The method `Server.healthCheck`: the new values of the package
variables and the result. -/
def healthCheck (cfg : Config) (pingOne : String → Bool) (now : Int) (h : Health) :
    Health × Bool :=
  let last := h.healthStatus
  let ok := pingTokens pingOne cfg.Keys []
  let next :=
    if cfg.Server.Disabled then 0
    else if ok then HealthCheckMaxFailures
    else if last > 0 then last - 1
    else last
  (⟨next, now⟩, ok)

/-- The method `Server.Healthy`. -/
def Healthy (now : Int) (h : Health) : Bool :=
  if now - h.healthLastPing > 3 * HealthCheckInterval then false
  else decide (h.healthStatus > 0)

/-- A sequence of calls of `healthCheck`, each with the ping results and
the time of that call. -/
def runChecks (cfg : Config) : List ((String → Bool) × Int) → Health → Health
  | [], h => h
  | c :: cs, h => runChecks cfg cs (healthCheck cfg c.1 c.2 h).1

/-- A check in which a ping fails. -/
def Fails (cfg : Config) (c : (String → Bool) × Int) : Prop :=
  pingTokens c.1 cfg.Keys [] = false

/-- A configuration with one key, for the examples. -/
def oneKey : Config := ⟨[⟨"token", ["signer"]⟩], ⟨false⟩⟩

end Server

namespace Comdoc

/-! ## The reader -/

/-- No wrap-around: subtracting at most `a` from a `uint32` value `a`. -/
theorem subU32_eq {a n : Nat} (h : n ≤ a) (ha : a < 4294967296) : subU32 a n = a - n := by
  unfold subU32 uint32
  omega

theorem callSector_ok {f : ReadFn} {id : SecID} {b bytes : List Byte}
    (h : f id b = (bytes, none)) (hl : bytes.length = b.length) :
    callSector f id b = (bytes, none) := by
  simp [callSector, h, hl]

theorem served_nil (c : Cursor) (data : SecID → List Byte) :
    c.served data [] c.sr.nextSector = c := by
  simp [Cursor.served, chainBytes]

/-- The loop over whole sectors, run along a chain `ids` whose sectors can
all be read and fit into the rest of the buffer: one iteration per id. -/
theorem wholeSectors_steps (data : SecID → List Byte) (last : SecID) :
    ∀ (ids : List SecID) (fuel : Nat) (c : Cursor),
      c.d.length ≤ c.sr.remaining → c.sr.remaining < 4294967296 →
      Follows c.sr.sat c.sr.nextSector ids last →
      (∀ id ∈ ids, ∀ b : List Byte, b.length = c.sr.sectorSize →
        c.sr.readSector id b = (data id, none)) →
      (∀ id ∈ ids, (data id).length = c.sr.sectorSize) →
      c.sr.sectorSize * ids.length ≤ c.d.length →
      wholeSectors (fuel + ids.length) c = wholeSectors fuel (c.served data ids last)
  | [], fuel, c, _, _, hfol, _, _, _ => by
    have hlast : c.sr.nextSector = last := hfol
    rw [← hlast, served_nil]
    rfl
  | id :: ids, fuel, c, hrem, hlt, hfol, hread, hlen, hq => by
    obtain ⟨hcur, hid, nxt, hnxt, hrest⟩ := hfol
    have hmul : c.sr.sectorSize * (ids.length + 1) = c.sr.sectorSize * ids.length + c.sr.sectorSize :=
      Nat.mul_succ _ _
    simp only [List.length_cons] at hq
    have hsd : c.sr.sectorSize ≤ c.d.length := by omega
    have htake : (c.d.take c.sr.sectorSize).length = c.sr.sectorSize := by
      simp [List.length_take, hsd]
    have hcall : callSector c.sr.readSector c.sr.nextSector (c.d.take c.sr.sectorSize)
        = (data id, none) := by
      rw [hcur]
      exact callSector_ok (hread id (List.mem_cons_self _ _) _ htake)
        (by rw [htake]; exact hlen id (List.mem_cons_self _ _))
    have hneg : ¬ c.sr.nextSector < 0 := by rw [hcur]; exact not_lt.mpr hid
    have hsub : subU32 c.sr.remaining c.sr.sectorSize = c.sr.remaining - c.sr.sectorSize :=
      subU32_eq (by omega) hlt
    have hnxt2 : c.sr.sat.get? c.sr.nextSector.toNat = some nxt := by rw [hcur]; exact hnxt
    have hfuel : fuel + (id :: ids).length = (fuel + ids.length) + 1 := by
      simp [Nat.add_assoc]
    rw [hfuel, wholeSectors, if_pos hsd, if_neg hneg]
    simp only [hcall, hnxt2]
    rw [wholeSectors_steps data last ids fuel _
      (by simp [hsub]; omega) (by simp [hsub]; omega) (by simpa using hrest)
      (fun i hi b hb => by simpa using hread i (List.mem_cons_of_mem _ hi) b (by simpa using hb))
      (fun i hi => by simpa using hlen i (List.mem_cons_of_mem _ hi))
      (by simp; omega)]
    simp [Cursor.served, chainBytes, hsub, hmul, hcur, Nat.sub_sub, Nat.add_assoc, Nat.add_comm]

theorem wholeSectors_stop (fuel : Nat) (c : Cursor) (h : c.d.length < c.sr.sectorSize) :
    wholeSectors (fuel + 1) c = .go c := by
  rw [wholeSectors, if_neg (by omega)]

theorem wholeSectors_end (fuel : Nat) (c : Cursor) (h : c.sr.sectorSize ≤ c.d.length)
    (hneg : c.sr.nextSector < 0) :
    wholeSectors (fuel + 1) c = .ret c (some .unexpectedEnd) := by
  rw [wholeSectors, if_pos h, if_pos hneg]

theorem chainBytes_append (data : SecID → List Byte) (a b : List SecID) :
    chainBytes data (a ++ b) = chainBytes data a ++ chainBytes data b := by
  induction a with
  | nil => rfl
  | cons x xs ih => simp [chainBytes, ih]

theorem chainBytes_length (data : SecID → List Byte) (s : Nat) :
    ∀ ids : List SecID, (∀ id ∈ ids, (data id).length = s) →
      (chainBytes data ids).length = s * ids.length
  | [], _ => by simp [chainBytes]
  | id :: ids, h => by
    have h1 := h id (List.mem_cons_self _ _)
    have h2 := chainBytes_length data s ids (fun i hi => h i (List.mem_cons_of_mem _ hi))
    simp [chainBytes, h1, h2, Nat.mul_succ, Nat.add_comm]

theorem Follows_append (sat : List SecID) (last : SecID) :
    ∀ (a b : List SecID) (cur : SecID), Follows sat cur (a ++ b) last →
      ∃ mid, Follows sat cur a mid ∧ Follows sat mid b last
  | [], b, cur, h => ⟨cur, rfl, h⟩
  | x :: a, b, cur, h => by
    obtain ⟨hcur, hx, nxt, hnxt, hrest⟩ := h
    obtain ⟨mid, h1, h2⟩ := Follows_append sat last a b nxt hrest
    exact ⟨mid, ⟨hcur, hx, nxt, hnxt, h1⟩, h2⟩

theorem tailSector_nil (c : Cursor) (h : c.d.length = 0) : tailSector c = .go c := by
  rw [tailSector, if_neg (by omega)]

theorem tailSector_end (c : Cursor) (h : 0 < c.d.length) (hneg : c.sr.nextSector < 0) :
    tailSector c = .ret c (some .unexpectedEnd) := by
  rw [tailSector, if_pos h, if_pos hneg]

theorem tailSector_ok (data : SecID → List Byte) (c : Cursor) (id nxt : SecID)
    (hpos : 0 < c.d.length) (hlt : c.d.length < c.sr.sectorSize)
    (hbuf : c.sr.buf.length = c.sr.sectorSize)
    (hrem : c.d.length ≤ c.sr.remaining) (hr32 : c.sr.remaining < 4294967296)
    (hcur : c.sr.nextSector = id) (hid : 0 ≤ id) (hnxt : c.sr.sat.get? id.toNat = some nxt)
    (hread : ∀ b : List Byte, b.length = c.sr.sectorSize → c.sr.readSector id b = (data id, none))
    (hlen : (data id).length = c.sr.sectorSize) :
    tailSector c = .go (c.tailServed (data id) nxt) := by
  have hcall : callSector c.sr.readSector c.sr.nextSector c.sr.buf = (data id, none) := by
    rw [hcur]
    exact callSector_ok (hread _ hbuf) (by rw [hbuf]; exact hlen)
  have hneg : ¬ c.sr.nextSector < 0 := by rw [hcur]; exact not_lt.mpr hid
  have hnxt2 : c.sr.sat.get? c.sr.nextSector.toNat = some nxt := by rw [hcur]; exact hnxt
  have hsub : subU32 c.sr.remaining c.d.length = c.sr.remaining - c.d.length :=
    subU32_eq hrem hr32
  have hdrop : c.d.drop (data id).length = [] := List.drop_of_length_le (by omega)
  rw [tailSector, if_pos hpos, if_neg hneg]
  simp only [hcall, hnxt2]
  rw [if_neg (by omega)]
  simp [Cursor.tailServed, hsub, hdrop]

/-- The loop over whole sectors followed by the tail block, when the chain
holds at least as many bytes as the buffer asks for: the buffer is filled
with the bytes of the chain and the unused rest of the last sector is kept
in `saved`. -/
theorem sectors_ok (data : SecID → List Byte) (last : SecID) (ids : List SecID) (c : Cursor)
    (hs : 1 ≤ c.sr.sectorSize) (hbuf : c.sr.buf.length = c.sr.sectorSize)
    (hrem : c.d.length ≤ c.sr.remaining) (hr32 : c.sr.remaining < 4294967296)
    (hsaved : c.sr.saved = [])
    (hfol : Follows c.sr.sat c.sr.nextSector ids last)
    (hread : ∀ id ∈ ids, ∀ b : List Byte, b.length = c.sr.sectorSize →
      c.sr.readSector id b = (data id, none))
    (hlen : ∀ id ∈ ids, (data id).length = c.sr.sectorSize)
    (hav : c.d.length ≤ c.sr.sectorSize * ids.length) :
    ∃ (c' : Cursor) (pre ids' : List SecID),
      (wholeSectors (c.d.length + 1) c).andThen tailSector = .go c' ∧
      ids = pre ++ ids' ∧
      c'.copied = c.copied + c.d.length ∧
      c'.out = c.out ++ (chainBytes data ids).take c.d.length ∧
      c'.d = [] ∧
      c'.fetched = c.fetched ++ pre.map (fun id => (id, none)) ∧
      c'.sr.remaining = c.sr.remaining - c.d.length ∧
      c'.sr.sat = c.sr.sat ∧ c'.sr.sectorSize = c.sr.sectorSize ∧
      c'.sr.readSector = c.sr.readSector ∧ c'.sr.buf.length = c.sr.sectorSize ∧
      Follows c.sr.sat c'.sr.nextSector ids' last ∧
      c'.sr.saved ++ chainBytes data ids' = (chainBytes data ids).drop c.d.length := by
  have hq : c.d.length / c.sr.sectorSize ≤ ids.length := Nat.div_le_of_le_mul hav
  have hm := Nat.div_add_mod c.d.length c.sr.sectorSize
  have ht : c.d.length % c.sr.sectorSize < c.sr.sectorSize := Nat.mod_lt _ (by omega)
  generalize hqdef : c.d.length / c.sr.sectorSize = q at hq hm
  generalize htdef : c.d.length % c.sr.sectorSize = t at ht hm
  have hsplit : ids = ids.take q ++ ids.drop q := (List.take_append_drop q ids).symm
  have hprelen : (ids.take q).length = q := by simp [List.length_take, hq]
  obtain ⟨mid, hf1, hf2⟩ := Follows_append c.sr.sat last (ids.take q) (ids.drop q)
    c.sr.nextSector (by rw [← hsplit]; exact hfol)
  have hread1 : ∀ id ∈ ids.take q, ∀ b : List Byte, b.length = c.sr.sectorSize →
      c.sr.readSector id b = (data id, none) := fun id hi => hread id (List.mem_of_mem_take hi)
  have hlen1 : ∀ id ∈ ids.take q, (data id).length = c.sr.sectorSize :=
    fun id hi => hlen id (List.mem_of_mem_take hi)
  have hlen2 : ∀ id ∈ ids.drop q, (data id).length = c.sr.sectorSize :=
    fun id hi => hlen id (List.mem_of_mem_drop hi)
  have hbytes1 : (chainBytes data (ids.take q)).length = c.sr.sectorSize * q := by
    rw [chainBytes_length data c.sr.sectorSize _ hlen1, hprelen]
  have hqle : q ≤ c.d.length := by
    calc q = 1 * q := (Nat.one_mul q).symm
      _ ≤ c.sr.sectorSize * q := Nat.mul_le_mul_right q hs
      _ ≤ c.d.length := by omega
  have hfuel : c.d.length + 1 = (c.d.length - q + 1) + (ids.take q).length := by
    rw [hprelen]; omega
  have hsteps := wholeSectors_steps data mid (ids.take q) (c.d.length - q + 1) c hrem hr32 hf1
    hread1 hlen1 (by rw [hprelen]; omega)
  have hdlen : (c.served data (ids.take q) mid).d.length = t := by
    simp [Cursor.served, hprelen]; omega
  rw [hfuel, hsteps, wholeSectors_stop _ _ (by rw [hdlen]; simpa [Cursor.served] using ht)]
  simp only [Flow.andThen]
  have hall : chainBytes data ids
      = chainBytes data (ids.take q) ++ chainBytes data (ids.drop q) := by
    rw [← chainBytes_append, ← hsplit]
  rcases Nat.eq_zero_or_pos t with ht0 | htpos
  · -- the request ends on a sector boundary
    refine ⟨c.served data (ids.take q) mid, ids.take q, ids.drop q,
      tailSector_nil _ (by rw [hdlen, ht0]), hsplit, ?_, ?_, ?_, ?_, ?_, rfl, rfl, rfl, hbuf,
      hf2, ?_⟩
    · simp [Cursor.served, hprelen]; omega
    · have : c.d.length = (chainBytes data (ids.take q)).length := by rw [hbytes1]; omega
      simp only [Cursor.served]
      rw [hall, this, List.take_append_of_le_length (le_refl _), List.take_length]
    · exact List.length_eq_zero.mp (by rw [hdlen, ht0])
    · rfl
    · simp [Cursor.served, hprelen]; omega
    · have : c.d.length = (chainBytes data (ids.take q)).length + 0 := by rw [hbytes1]; omega
      simp only [Cursor.served, hsaved, List.nil_append]
      rw [hall, this, List.drop_append, List.drop_zero]
  · -- the request ends inside a sector
    have hqlt : q < ids.length := by
      by_contra hge
      have : ids.length = q := by omega
      rw [this] at hav
      omega
    obtain ⟨id, rest, hdrop⟩ : ∃ id rest, ids.drop q = id :: rest := by
      cases h : ids.drop q with
      | nil =>
        have := congrArg List.length h
        simp at this
        omega
      | cons id rest => exact ⟨id, rest, rfl⟩
    rw [hdrop] at hf2 hlen2 hall
    obtain ⟨hcur, hid, nxt, hnxt, hrest⟩ := hf2
    have hidmem : id ∈ ids := by
      rw [hsplit, hdrop]; simp
    have hdata : (data id).length = c.sr.sectorSize := hlen id hidmem
    have htail := tailSector_ok data (c.served data (ids.take q) mid) id nxt
      (by rw [hdlen]; exact htpos) (by rw [hdlen]; simpa [Cursor.served] using ht)
      (by simpa [Cursor.served] using hbuf)
      (by rw [hdlen]; simp [Cursor.served, hprelen]; omega)
      (by simp [Cursor.served]; omega)
      (by simpa [Cursor.served] using hcur) hid (by simpa [Cursor.served] using hnxt)
      (by simpa [Cursor.served] using hread id hidmem)
      (by simpa [Cursor.served] using hdata)
    refine ⟨_, ids.take q ++ [id], rest, htail, ?_, ?_, ?_, rfl, ?_, ?_, rfl, rfl, rfl, ?_,
      hrest, ?_⟩
    · rw [List.append_assoc, List.singleton_append, ← hdrop]; exact hsplit
    · simp only [Cursor.tailServed, hdlen]
      simp [Cursor.served, hprelen]; omega
    · have : c.d.length = (chainBytes data (ids.take q)).length + t := by rw [hbytes1]; omega
      simp only [Cursor.tailServed, hdlen]
      simp only [Cursor.served]
      rw [hall, this, List.take_append, chainBytes,
        List.take_append_of_le_length (by omega), List.append_assoc]
    · simp [Cursor.tailServed, Cursor.served, hcur]
    · simp only [Cursor.tailServed, hdlen]
      simp [Cursor.served, hprelen]; omega
    · simpa [Cursor.tailServed, Cursor.served] using hdata
    · have : c.d.length = (chainBytes data (ids.take q)).length + t := by rw [hbytes1]; omega
      simp only [Cursor.tailServed, hdlen]
      rw [hall, this, List.drop_append, chainBytes,
        List.drop_append_of_le_length (by omega)]

/-- The loop over whole sectors followed by the tail block, when the chain
ends at a negative id before the buffer is full: every sector of the chain
is handed out and the error "unexpected end to stream" is returned. -/
theorem sectors_short (data : SecID → List Byte) (last : SecID) (ids : List SecID) (c : Cursor)
    (hs : 1 ≤ c.sr.sectorSize)
    (hrem : c.d.length ≤ c.sr.remaining) (hr32 : c.sr.remaining < 4294967296)
    (hfol : Follows c.sr.sat c.sr.nextSector ids last)
    (hread : ∀ id ∈ ids, ∀ b : List Byte, b.length = c.sr.sectorSize →
      c.sr.readSector id b = (data id, none))
    (hlen : ∀ id ∈ ids, (data id).length = c.sr.sectorSize)
    (hneg : last < 0) (hav : c.sr.sectorSize * ids.length < c.d.length) :
    (wholeSectors (c.d.length + 1) c).andThen tailSector
      = .ret (c.served data ids last) (some .unexpectedEnd) := by
  have hqle : ids.length ≤ c.d.length := by
    calc ids.length = 1 * ids.length := (Nat.one_mul _).symm
      _ ≤ c.sr.sectorSize * ids.length := Nat.mul_le_mul_right _ hs
      _ ≤ c.d.length := by omega
  have hfuel : c.d.length + 1 = (c.d.length - ids.length + 1) + ids.length := by omega
  have hsteps := wholeSectors_steps data last ids (c.d.length - ids.length + 1) c hrem hr32 hfol
    hread hlen (by omega)
  have hdlen : (c.served data ids last).d.length = c.d.length - c.sr.sectorSize * ids.length := by
    simp [Cursor.served]
  rw [hfuel, hsteps]
  by_cases hbig : c.sr.sectorSize ≤ c.d.length - c.sr.sectorSize * ids.length
  · rw [wholeSectors_end _ _ (by rw [hdlen]; simpa [Cursor.served] using hbig)
      (by simpa [Cursor.served] using hneg)]
    rfl
  · rw [wholeSectors_stop _ _ (by rw [hdlen]; simpa [Cursor.served] using hbig)]
    simp only [Flow.andThen]
    exact tailSector_end _ (by rw [hdlen]; omega) (by simpa [Cursor.served] using hneg)

/-- The block that serves saved bytes takes `min(len(d), len(saved))`
bytes. -/
theorem savedPhase_eq (c : Cursor) (hrem : c.d.length ≤ c.sr.remaining)
    (hr32 : c.sr.remaining < 4294967296) :
    savedPhase c =
      { sr := { c.sr with saved := c.sr.saved.drop (min c.d.length c.sr.saved.length),
                          remaining := c.sr.remaining - min c.d.length c.sr.saved.length },
        copied := c.copied + min c.d.length c.sr.saved.length,
        out := c.out ++ c.sr.saved.take (min c.d.length c.sr.saved.length),
        d := c.d.drop (min c.d.length c.sr.saved.length),
        fetched := c.fetched } := by
  unfold savedPhase
  by_cases h0 : 0 < c.sr.saved.length
  · rw [if_pos h0]
    have hn : (if c.d.length < c.sr.saved.length then c.d.length else c.sr.saved.length)
        = min c.d.length c.sr.saved.length := by
      split <;> omega
    simp only [hn]
    rw [subU32_eq (by omega) hr32]
  · rw [if_neg h0]
    have hnil : c.sr.saved = [] := List.length_eq_zero.mp (by omega)
    rcases c with ⟨⟨_, _, _, _, _, _, saved⟩, _, _, _, _⟩
    simp only at hnil
    subst hnil
    simp

theorem Read_unfold (sr : streamReader) (d : List Byte) (hr : sr.remaining ≠ 0)
    (hd : d.length ≠ 0) :
    Read sr d = finish (d.drop (min d.length sr.remaining))
      ((wholeSectors
          ((savedPhase ⟨sr, 0, [], d.take (min d.length sr.remaining), []⟩).d.length + 1)
          (savedPhase ⟨sr, 0, [], d.take (min d.length sr.remaining), []⟩)).andThen
        tailSector) := by
  have hlim : (if sr.remaining < d.length then sr.remaining else d.length)
      = min d.length sr.remaining := by
    split <;> omega
  rw [Read, if_neg hr, if_neg hd]
  simp only [hlim]

/-- One `Read` call on a sound reader whose saved bytes and chain hold at
least the requested bytes: it returns `min(len(d), remaining)` bytes, the
next bytes of the stream, without error, and leaves a sound reader on the
rest of the stream. -/
theorem Read_ok (data : SecID → List Byte) (last : SecID) (ids : List SecID)
    (sr : streamReader) (d : List Byte) (hinv : Sound data sr ids last)
    (hr : sr.remaining ≠ 0) (hd : d.length ≠ 0)
    (hav : min d.length sr.remaining ≤ sr.saved.length + sr.sectorSize * ids.length) :
    ∃ pre ids' : List SecID, ids = pre ++ ids' ∧
      (Read sr d).ending = .returned (min d.length sr.remaining) none ∧
      (Read sr d).d = (sr.saved ++ chainBytes data ids).take (min d.length sr.remaining)
        ++ d.drop (min d.length sr.remaining) ∧
      (Read sr d).fetched = pre.map (fun id => (id, none)) ∧
      (Read sr d).sr.remaining = sr.remaining - min d.length sr.remaining ∧
      (Read sr d).sr.sat = sr.sat ∧ (Read sr d).sr.sectorSize = sr.sectorSize ∧
      (Read sr d).sr.readSector = sr.readSector ∧
      Sound data (Read sr d).sr ids' last ∧
      (Read sr d).sr.saved ++ chainBytes data ids'
        = (sr.saved ++ chainBytes data ids).drop (min d.length sr.remaining) := by
  obtain ⟨hs, hbuf, hr32, hfol, hread, hlen⟩ := hinv
  generalize hw : min d.length sr.remaining = want at hav
  have hwpos : 0 < want := by omega
  have hwd : want ≤ d.length := by omega
  have hwr : want ≤ sr.remaining := by omega
  have htake : (d.take want).length = want := by simp [List.length_take, hwd]
  rw [Read_unfold sr d hr hd, hw,
    savedPhase_eq _ (by simpa [htake] using hwr) (by simpa using hr32)]
  simp only [htake, List.nil_append, Nat.zero_add]
  by_cases hcase : want ≤ sr.saved.length
  · -- the whole request is served from the saved bytes
    have hmin : min want sr.saved.length = want := by omega
    have hdnil : (d.take want).drop want = [] :=
      List.drop_of_length_le (by rw [htake])
    simp only [hmin, hdnil]
    rw [show ([] : List Byte).length + 1 = 0 + 1 from rfl,
      wholeSectors_stop _ _ (by simpa using hs)]
    simp only [Flow.andThen]
    rw [tailSector_nil _ (by rfl)]
    refine ⟨[], ids, rfl, rfl, ?_, rfl, rfl, rfl, rfl, rfl,
      ⟨hs, hbuf, ?_, hfol, hread, hlen⟩, ?_⟩
    · simp [finish, List.take_append_of_le_length hcase]
    · simp only [finish]; omega
    · simp [finish, List.drop_append_of_le_length hcase]
  · -- the saved bytes are used up and sectors are read
    have hmin : min want sr.saved.length = sr.saved.length := by omega
    have hsnil : sr.saved.drop sr.saved.length = [] := List.drop_of_length_le (le_refl _)
    simp only [hmin, hsnil, List.take_length]
    obtain ⟨c', pre, ids', hflow, hsplit, hcop, hout, hdn, hfet, hrem', hsat, hsz, hrs, hbl,
        hfol', hcont⟩ :=
      sectors_ok data last ids
        ⟨{ sr with saved := [], remaining := sr.remaining - sr.saved.length }, sr.saved.length,
          sr.saved, (d.take want).drop sr.saved.length, []⟩
        hs hbuf (by simp [htake]; omega) (by simp; omega) rfl hfol hread hlen
        (by simp [htake]; omega)
    simp only [List.length_drop, htake] at hflow hcop hout hfet hrem' hcont
    dsimp only at hsat hsz hrs hbl hfol' hcont hrem' hout hcop hfet
    simp only [List.length_drop, htake, hflow, finish]
    refine ⟨pre, ids', hsplit, ?_, ?_, ?_, ?_, hsat, hsz, hrs,
      ⟨by rw [hsz]; exact hs, hbl.trans hsz.symm, ?_, by rw [hsat]; exact hfol', ?_, ?_⟩, ?_⟩
    · simp only [hcop]
      congr 1
      omega
    · simp only [hout, hdn, List.append_nil]
      rw [List.take_append_eq_append_take, List.take_of_length_le (l := sr.saved) (by omega)]
    · simpa using hfet
    · simp only [hrem']; omega
    · simp only [hrem']; omega
    · intro id hi b hb
      simp only [hrs]
      exact hread id (by rw [hsplit]; exact List.mem_append_right _ hi) b
        (by simpa [hsz] using hb)
    · intro id hi
      simp only [hsz]
      exact hlen id (by rw [hsplit]; exact List.mem_append_right _ hi)
    · simp only [hcont]
      rw [List.drop_append_eq_append_drop, List.drop_of_length_le (l := sr.saved) (by omega),
        List.nil_append]

/-- One `Read` call on a sound reader whose chain ends at a negative id
before the request is satisfied: everything that is left is handed out
together with the error "unexpected end to stream". -/
theorem Read_short (data : SecID → List Byte) (last : SecID) (ids : List SecID)
    (sr : streamReader) (d : List Byte) (hinv : Sound data sr ids last)
    (hr : sr.remaining ≠ 0) (hd : d.length ≠ 0) (hneg : last < 0)
    (hav : sr.saved.length + sr.sectorSize * ids.length < min d.length sr.remaining) :
    (Read sr d).ending
        = .returned (sr.saved.length + sr.sectorSize * ids.length) (some .unexpectedEnd) ∧
      (Read sr d).d.take (sr.saved.length + sr.sectorSize * ids.length)
        = sr.saved ++ chainBytes data ids ∧
      (Read sr d).fetched = ids.map (fun id => (id, none)) ∧
      (Read sr d).sr.nextSector = last ∧
      (Read sr d).sr.remaining
        = sr.remaining - (sr.saved.length + sr.sectorSize * ids.length) := by
  obtain ⟨hs, hbuf, hr32, hfol, hread, hlen⟩ := hinv
  generalize hw : min d.length sr.remaining = want at hav
  have hwd : want ≤ d.length := by omega
  have hwr : want ≤ sr.remaining := by omega
  have htake : (d.take want).length = want := by simp [List.length_take, hwd]
  have hmin : min want sr.saved.length = sr.saved.length := by omega
  have hsnil : sr.saved.drop sr.saved.length = [] := List.drop_of_length_le (le_refl _)
  have hbytes := chainBytes_length data sr.sectorSize ids hlen
  rw [Read_unfold sr d hr hd, hw,
    savedPhase_eq _ (by simpa [htake] using hwr) (by simpa using hr32)]
  simp only [htake, List.nil_append, Nat.zero_add, hmin, hsnil, List.take_length]
  rw [sectors_short data last ids
    ⟨{ sr with saved := [], remaining := sr.remaining - sr.saved.length }, sr.saved.length,
      sr.saved, (d.take want).drop sr.saved.length, []⟩
    hs (by simp [htake]; omega) (by simp; omega) hfol hread hlen hneg
    (by simp [htake]; omega)]
  simp only [finish, Cursor.served, List.nil_append]
  refine ⟨trivial, ?_, trivial, trivial, ?_⟩
  · rw [List.append_assoc, List.take_append_of_le_length (by simp [hbytes]),
      List.take_of_length_le (by simp [hbytes])]
  · omega

theorem Read_eof (sr : streamReader) (d : List Byte) (hr : sr.remaining = 0) :
    Read sr d = ⟨.returned 0 (some .EOF), d, sr, []⟩ := by
  rw [Read, if_pos hr]

theorem readAll_eof (sr : streamReader) (d : List Byte) (ds : List (List Byte))
    (hr : sr.remaining = 0) :
    readAll sr (d :: ds) = ⟨[], .error .EOF, sr, []⟩ := by
  simp [readAll, Read_eof sr d hr]

/-- A sequence of `Read` calls on a sound reader whose chain is long
enough delivers the next `remaining` bytes of the stream and ends with
`io.EOF`. -/
theorem readAll_ok (data : SecID → List Byte) (last : SecID) (b : List Byte) :
    ∀ (bufs : List (List Byte)) (sr : streamReader) (ids : List SecID),
      Sound data sr ids last →
      sr.remaining ≤ sr.saved.length + sr.sectorSize * ids.length →
      (∀ d ∈ bufs, d ≠ []) →
      sr.remaining ≤ (bufs.map List.length).sum →
      (readAll sr (bufs ++ [b])).data = (sr.saved ++ chainBytes data ids).take sr.remaining ∧
        (readAll sr (bufs ++ [b])).stop = .error .EOF
  | [], sr, ids, _, _, _, hsum => by
    have hr : sr.remaining = 0 := by simpa using hsum
    simp [readAll_eof sr b [] hr, hr]
  | d :: ds, sr, ids, hinv, hav, hne, hsum => by
    by_cases hr : sr.remaining = 0
    · rw [List.cons_append, readAll_eof sr d _ hr]
      simp [hr]
    · have hd : d.length ≠ 0 := by
        have := hne d (List.mem_cons_self _ _)
        simpa using this
      obtain ⟨pre, ids', hsplit, hend, hbuf, -, hrem, -, hsz, -, hinv', hcont⟩ :=
        Read_ok data last ids sr d hinv hr hd (by omega)
      have hlen1 := chainBytes_length data sr.sectorSize ids hinv.data_len
      have hlen2 := chainBytes_length data (Read sr d).sr.sectorSize ids' hinv'.data_len
      have hclen := congrArg List.length hcont
      simp only [List.length_append, List.length_drop, hlen1, hlen2] at hclen
      simp only [List.map_cons, List.sum_cons] at hsum
      obtain ⟨ih1, ih2⟩ := readAll_ok data last b ds (Read sr d).sr ids' hinv'
        (by rw [hrem]; omega) (fun x hx => hne x (List.mem_cons_of_mem _ hx))
        (by rw [hrem]; omega)
      rw [List.cons_append]
      simp only [readAll, hend]
      refine ⟨?_, ih2⟩
      rw [ih1, hcont, hrem, hbuf,
        List.take_append_of_le_length (by simp [List.length_take, hlen1]; omega),
        List.take_take, Nat.min_self, ← List.take_add]
      congr 1
      omega

/-- A sequence of `Read` calls on a sound reader whose chain ends too
early delivers the requested bytes as long as the chain has them and then
stops with "unexpected end to stream". -/
theorem readAll_short (data : SecID → List Byte) (last : SecID) (hneg : last < 0) :
    ∀ (bufs : List (List Byte)) (sr : streamReader) (ids : List SecID),
      Sound data sr ids last →
      sr.saved.length + sr.sectorSize * ids.length < sr.remaining →
      (∀ d ∈ bufs, d ≠ []) →
      (readAll sr bufs).data = (sr.saved ++ chainBytes data ids).take (bufs.map List.length).sum ∧
        (readAll sr bufs).stop =
          if sr.saved.length + sr.sectorSize * ids.length < (bufs.map List.length).sum
          then .error .unexpectedEnd else .exhausted
  | [], sr, ids, _, _, _ => by simp [readAll]
  | d :: ds, sr, ids, hinv, hav, hne => by
    have hr : sr.remaining ≠ 0 := by omega
    have hd : d.length ≠ 0 := by
      have := hne d (List.mem_cons_self _ _)
      simpa using this
    have hlen1 := chainBytes_length data sr.sectorSize ids hinv.data_len
    simp only [List.map_cons, List.sum_cons]
    by_cases hcase : d.length ≤ sr.saved.length + sr.sectorSize * ids.length
    · have hmin : min d.length sr.remaining = d.length := by omega
      obtain ⟨pre, ids', hsplit, hend, hbuf, -, hrem, -, hsz, -, hinv', hcont⟩ :=
        Read_ok data last ids sr d hinv hr hd (by omega)
      rw [hmin] at hend hbuf hrem hcont
      have hlen2 := chainBytes_length data (Read sr d).sr.sectorSize ids' hinv'.data_len
      have hclen := congrArg List.length hcont
      simp only [List.length_append, List.length_drop, hlen1, hlen2] at hclen
      obtain ⟨ih1, ih2⟩ := readAll_short data last hneg ds (Read sr d).sr ids' hinv'
        (by rw [hrem]; omega) (fun x hx => hne x (List.mem_cons_of_mem _ hx))
      simp only [readAll, hend]
      constructor
      · rw [ih1, hcont, hbuf,
          List.take_append_of_le_length (by simp [List.length_take, hlen1]; omega),
          List.take_take, Nat.min_self, ← List.take_add]
      · rw [ih2, hclen]
        by_cases h2 : sr.saved.length + sr.sectorSize * ids.length
            < d.length + (ds.map List.length).sum
        · rw [if_pos h2, if_pos (by omega)]
        · rw [if_neg h2, if_neg (by omega)]
    · obtain ⟨hend, hbuf, -, -, -⟩ :=
        Read_short data last ids sr d hinv hr hd hneg (by omega)
      simp only [readAll, hend]
      constructor
      · rw [hbuf, List.take_of_length_le (by simp [hlen1]; omega)]
      · rw [if_pos (by omega)]

/-! ## The writer -/

theorem tableOf_storeBack {σ : Type} (r : ComDoc σ) (short : Bool) (sat : List SecID)
    (m : Medium σ) : tableOf (storeBack r short sat m) short = sat := by
  cases short <;> simp [tableOf, storeBack]

theorem setSat_ok (sat : List SecID) (i v : SecID) (h0 : 0 ≤ i) (h1 : i.toNat < sat.length) :
    setSat sat i v = some (sat.set i.toNat v) := by
  rw [setSat, if_pos ⟨h0, h1⟩]

theorem take_min_length (s : Nat) (l : List Byte) :
    l.take (if l.length < s then l.length else s) = l.take s := by
  split
  · rw [List.take_of_length_le (le_refl _), List.take_of_length_le (by omega)]
  · rfl

theorem drop_min_length (s : Nat) (l : List Byte) :
    l.drop (if l.length < s then l.length else s) = l.drop s := by
  split
  · rw [List.drop_of_length_le (le_refl _), List.drop_of_length_le (by omega)]
  · rfl

theorem linked_length (eoc : SecID) :
    ∀ (ids : List SecID) (sat : List SecID) (prev : SecID),
      (linked eoc sat prev ids).length = sat.length
  | [], sat, prev => by simp [linked]
  | i :: ids, sat, prev => by
    rw [linked, linked_length eoc ids]
    simp

/-- The loop of `addStream` from its second iteration on (`previous` is an
allocated id), with ids inside the table and writes that succeed: the
table it leaves becomes `linked` by the assignment after the loop, and the
writes are the slices of the contents. -/
theorem linkSectors_ok {σ : Type} (eoc : SecID) (write : σ → SecID → List Byte → σ × Option Error)
    (s : Nat) (hw : ∀ f id bs, (write f id bs).2 = none) (heoc : eoc < 0) :
    ∀ (ids : List SecID) (w : Writer σ), 0 ≤ w.previous → w.previous.toNat < w.sat.length →
      (∀ id ∈ ids, 0 ≤ id ∧ id.toNat < w.sat.length) →
      ∃ w', linkSectors eoc write s ids w = .go w' ∧
        setSat w'.sat w'.previous eoc = some (linked eoc w.sat w.previous ids) ∧
        w'.first = w.first ∧
        w'.contents = w.contents.drop (s * ids.length) ∧
        w'.writes = w.writes ++
          List.zipWith (fun id c => (id, c, none)) ids (chunks s ids.length w.contents)
  | [], w, h0, h1, _ => ⟨w, rfl, setSat_ok _ _ _ h0 h1, rfl, by simp, by simp [chunks]⟩
  | i :: ids, w, h0, h1, hin => by
    have hne : w.previous ≠ eoc := by
      intro h
      rw [h] at h0
      exact absurd h0 (not_le.mpr heoc)
    obtain ⟨hi0, hi1⟩ := hin i (List.mem_cons_self _ _)
    rw [linkSectors, if_neg hne, setSat_ok _ _ _ h0 h1]
    simp only [Option.map_some', hw, take_min_length, drop_min_length]
    obtain ⟨w', hgo, hset, hfirst, hcont, hwr⟩ := linkSectors_ok eoc write s hw heoc ids
      { sat := w.sat.set w.previous.toNat i, file := (write w.file i (w.contents.take s)).1,
        first := w.first, previous := i, contents := w.contents.drop s,
        writes := w.writes ++ [(i, w.contents.take s, (none : Option Error))] }
      hi0 (by simpa using hi1)
      (fun id hid => by simpa using hin id (List.mem_cons_of_mem _ hid))
    refine ⟨w', hgo, ?_, hfirst, ?_, ?_⟩
    · rw [hset]; rfl
    · rw [hcont]
      simp [List.drop_drop, Nat.mul_succ, Nat.add_comm]
    · rw [hwr]
      simp [chunks]

theorem toNat_ne {a b : SecID} (ha : 0 ≤ a) (hb : 0 ≤ b) (h : a ≠ b) : a.toNat ≠ b.toNat := by
  intro e
  apply h
  rw [← Int.toNat_of_nonneg ha, ← Int.toNat_of_nonneg hb, e]

theorem linked_get_other (eoc : SecID) (x : Nat) :
    ∀ (ids : List SecID) (sat : List SecID) (prev : SecID),
      prev.toNat ≠ x → (∀ id ∈ ids, id.toNat ≠ x) →
      (linked eoc sat prev ids).get? x = sat.get? x
  | [], sat, prev, hp, _ => by
    simp [linked, List.getElem?_set_ne hp]
  | i :: ids, sat, prev, hp, hin => by
    rw [linked, linked_get_other eoc x ids _ i (hin i (List.mem_cons_self _ _))
      (fun id hid => hin id (List.mem_cons_of_mem _ hid))]
    simp [List.getElem?_set_ne hp]

/-- In the table `linked`, the ids are met in allocation order and the last
one leads to the terminator. -/
theorem Follows_linked (eoc : SecID) :
    ∀ (ids : List SecID) (sat : List SecID) (prev : SecID),
      0 ≤ prev → prev.toNat < sat.length →
      (∀ id ∈ ids, 0 ≤ id ∧ id.toNat < sat.length) → (prev :: ids).Nodup →
      Follows (linked eoc sat prev ids) prev (prev :: ids) eoc
  | [], sat, prev, h0, h1, _, _ => by
    refine ⟨rfl, h0, eoc, ?_, rfl⟩
    simp [linked, h1]
  | i :: ids, sat, prev, h0, h1, hin, hnd => by
    obtain ⟨hi0, hi1⟩ := hin i (List.mem_cons_self _ _)
    have hnd' : (i :: ids).Nodup := (List.nodup_cons.mp hnd).2
    have hpi : prev ≠ i := fun h => (List.nodup_cons.mp hnd).1 (h ▸ List.mem_cons_self _ _)
    refine ⟨rfl, h0, i, ?_, ?_⟩
    · rw [linked, linked_get_other eoc prev.toNat ids _ i (toNat_ne hi0 h0 (Ne.symm hpi))
        (fun id hid => by
          have hidp : id ≠ prev := fun h =>
            (List.nodup_cons.mp hnd).1 (h ▸ List.mem_cons_of_mem _ hid)
          exact toNat_ne (hin id (List.mem_cons_of_mem _ hid)).1 h0 hidp)]
      simp [h1]
    · rw [linked]
      exact Follows_linked eoc ids _ i hi0 (by simpa using hi1)
        (fun id hid => by simpa using hin id (List.mem_cons_of_mem _ hid)) hnd'

/-- A chain in the sense of `Follows` that ends at the terminator is what
`chain` computes. -/
theorem chain_of_Follows (sat : List SecID) (eoc : SecID) (heoc : eoc < 0) :
    ∀ (ids : List SecID) (cur : SecID) (fuel : Nat), Follows sat cur ids eoc →
      ids.length < fuel → chain sat eoc fuel cur = some ids
  | [], cur, fuel, h, hf => by
    obtain ⟨fuel, rfl⟩ : ∃ k, fuel = k + 1 := ⟨fuel - 1, by omega⟩
    have hc : cur = eoc := h
    rw [chain, if_pos hc]
  | id :: ids, cur, fuel, h, hf => by
    obtain ⟨fuel, rfl⟩ : ∃ k, fuel = k + 1 := ⟨fuel - 1, by omega⟩
    obtain ⟨hcur, hid, nxt, hnxt, hrest⟩ := h
    have hne : cur ≠ eoc := by
      intro e
      rw [hcur] at e
      rw [e] at hid
      exact absurd hid (not_le.mpr heoc)
    have hnn : ¬ cur < 0 := by rw [hcur]; exact not_lt.mpr hid
    rw [chain, if_neg hne, if_neg hnn, hcur, hnxt]
    simp only [List.length_cons] at hf
    simp only [chain_of_Follows sat eoc heoc ids nxt fuel hrest (by omega), Option.map_some']

/-- What `addStream` does when the allocator returns enough ids inside the
table and every write succeeds. -/
theorem addStream_ok {σ : Type} (ext : Externals σ) (eoc : SecID) (r : ComDoc σ)
    (contents : List Byte) (short : Bool) (s : Nat) (alloc : ComDoc σ × List SecID)
    (f0 : SecID) (rest : List SecID)
    (hsdef : s = if short then r.ShortSectorSize else r.SectorSize)
    (hadef : ext.makeFreeSectors r ((contents.length + s - 1) / s) short = alloc)
    (heoc : eoc < 0) (hs : 1 ≤ s)
    (hfree : alloc.2 = f0 :: rest)
    (hin : ∀ id ∈ f0 :: rest, 0 ≤ id ∧ id.toNat < (tableOf alloc.1 short).length)
    (hw : ∀ f id bs, ((if short then ext.writeShortSector else ext.writeSector) f id bs).2 = none)
    (hlen : contents.length ≤ s * (f0 :: rest).length) :
    (addStream ext eoc r contents short).ending = .returned f0 none ∧
      (∃ m, (addStream ext eoc r contents short).r
        = storeBack alloc.1 short (linked eoc (tableOf alloc.1 short) f0 rest) m) ∧
      (addStream ext eoc r contents short).writes
        = List.zipWith (fun id c => (id, c, none)) (f0 :: rest)
            (chunks s (f0 :: rest).length contents) := by
  obtain ⟨h00, h01⟩ := hin f0 (List.mem_cons_self _ _)
  obtain ⟨w', hgo, hset, hfirst, hcont, hwr⟩ := linkSectors_ok eoc
    (if short then ext.writeShortSector else ext.writeSector) s hw heoc rest
    { sat := tableOf alloc.1 short, file := (((if short then ext.writeShortSector
        else ext.writeSector) (mediumOf alloc.1 short) f0 (contents.take s)).1), first := f0,
      previous := f0,
      contents := contents.drop s,
      writes := [(f0, contents.take s, (none : Option Error))] }
    h00 h01 (fun id hid => hin id (List.mem_cons_of_mem _ hid))
  have hloop : linkSectors eoc (if short then ext.writeShortSector else ext.writeSector) s
      alloc.2 ⟨tableOf alloc.1 short, mediumOf alloc.1 short, eoc, eoc, contents, []⟩ = .go w' := by
    rw [hfree, linkSectors, if_pos rfl]
    simp only [hw, take_min_length, drop_min_length, List.nil_append]
    exact hgo
  have hnil : w'.contents = [] := by
    rw [hcont]
    apply List.drop_of_length_le
    simp only [List.length_drop, List.length_cons] at *
    rw [Nat.mul_succ] at hlen
    omega
  have hs0 : s ≠ 0 := by omega
  unfold addStream
  simp only [← hsdef, hadef, if_neg hs0]
  have htab : (if short then alloc.1.SSAT else alloc.1.SAT) = tableOf alloc.1 short := rfl
  rw [htab, hloop]
  simp only [hset, hnil, List.length_nil, Nat.lt_irrefl, if_false]
  refine ⟨by rw [hfirst], ⟨w'.file, rfl⟩, ?_⟩
  rw [hwr]
  simp [chunks]

/-! ## Opening a reader, failures of the sector store, termination -/

/-- The reader returned by `ReadStream`. -/
theorem ReadStream_fields {σ : Type} {ext : Externals σ} {DirStream : Nat} {r : ComDoc σ}
    {e : DirEnt} {sr : streamReader} (h : ReadStream ext DirStream r e = .ok sr) :
    e.Type_ = DirStream ∧ sr.remaining = e.StreamSize ∧ sr.nextSector = e.NextSector ∧
      sr.saved = [] ∧ sr.buf.length = sr.sectorSize := by
  unfold ReadStream at h
  by_cases ht : e.Type_ = DirStream
  · rw [if_neg (not_not.mpr ht)] at h
    split at h <;>
    · cases h
      simp [ht]
  · rw [if_pos ht] at h
    cases h

theorem Sound_open {σ : Type} {ext : Externals σ} {DirStream : Nat} {r : ComDoc σ}
    {e : DirEnt} {sr : streamReader} (hopen : ReadStream ext DirStream r e = .ok sr)
    (ids : List SecID) (last : SecID) (data : SecID → List Byte)
    (hs : 1 ≤ sr.sectorSize) (h32 : e.StreamSize < 4294967296)
    (hchain : Follows sr.sat e.NextSector ids last)
    (hread : ∀ id ∈ ids, ∀ buf : List Byte, buf.length = sr.sectorSize →
      sr.readSector id buf = (data id, none))
    (hdata : ∀ id ∈ ids, (data id).length = sr.sectorSize) :
    Sound data sr ids last := by
  obtain ⟨-, hrem, hnext, -, hbuf⟩ := ReadStream_fields hopen
  exact ⟨hs, hbuf, by rw [hrem]; exact h32, by rw [hnext]; exact hchain, hread, hdata⟩

theorem ReadStream_stream {σ : Type} (ext : Externals σ) (DirStream : Nat) (r : ComDoc σ)
    (size : Nat) (start : SecID) (short : Bool)
    (hshort : short = decide (size < r.MinStdStreamSize)) :
    ReadStream ext DirStream r ⟨DirStream, size, start⟩ = .ok
      { remaining := size, nextSector := start,
        sectorSize := if short then r.ShortSectorSize else r.SectorSize,
        sat := tableOf r short,
        readSector := (if short then ext.readShortSector else ext.readSector) r.File,
        buf := List.replicate (if short then r.ShortSectorSize else r.SectorSize) 0,
        saved := [] } := by
  unfold ReadStream
  by_cases h : size < r.MinStdStreamSize
  · simp [h, hshort, tableOf]
  · simp [h, hshort, tableOf]

theorem chunks_length (s : Nat) : ∀ (k : Nat) (l : List Byte), (chunks s k l).length = k
  | 0, _ => rfl
  | k + 1, l => by simp [chunks, chunks_length s k]

theorem exists_zip_of_mem {α β : Type} (a : α) :
    ∀ (l1 : List α) (l2 : List β), l1.length = l2.length → a ∈ l1 → ∃ b, (a, b) ∈ l1.zip l2
  | [], _, _, h => by simp at h
  | x :: xs, [], hl, _ => by simp at hl
  | x :: xs, y :: ys, hl, h => by
    rcases List.mem_cons.mp h with rfl | h'
    · exact ⟨y, by simp⟩
    · obtain ⟨b, hb⟩ := exists_zip_of_mem a xs ys (by simpa using hl) h'
      exact ⟨b, by simp [hb]⟩

/-- The sectors written by `addStream`, each holding a slice of `P` padded
to `s` bytes, start with `P`. -/
theorem chainBytes_chunks (data pad : SecID → List Byte) (s : Nat) :
    ∀ (ids : List SecID) (P : List Byte),
      (∀ p ∈ ids.zip (chunks s ids.length P),
        data p.1 = p.2 ++ pad p.1 ∧ (p.2 ++ pad p.1).length = s) →
      P.length ≤ s * ids.length →
      (chainBytes data ids).take P.length = P
  | [], P, _, hlen => by
    have : P = [] := List.length_eq_zero.mp (by simpa using hlen)
    simp [this]
  | id :: ids, P, h, hlen => by
    obtain ⟨hd, hl⟩ := h (id, P.take s) (by simp [chunks])
    simp only at hd hl
    have ih := chainBytes_chunks data pad s ids (P.drop s)
      (fun p hp => h p (by simp only [List.length_cons, chunks, List.zip_cons_cons]
                           exact List.mem_cons_of_mem _ hp))
      (by simp only [List.length_drop, List.length_cons, Nat.mul_succ] at *; omega)
    rw [chainBytes, hd]
    by_cases hc : P.length ≤ s
    · rw [List.take_of_length_le hc, List.append_assoc,
        List.take_append_of_le_length (le_refl _), List.take_length]
    · have hts : (P.take s).length = s := by simp [List.length_take]; omega
      have hpad : pad id = [] := by
        apply List.length_eq_zero.mp
        simp only [List.length_append, hts] at hl
        omega
      rw [hpad, List.append_nil, List.take_append_eq_append_take, hts,
        List.take_of_length_le (by rw [hts]; omega)]
      have : P.length - s = (P.drop s).length := by simp
      rw [this, ih, List.take_append_drop]

theorem ceil_mul_ge (n s : Nat) (hs : 1 ≤ s) : n ≤ s * ((n + s - 1) / s) := by
  have h1 := Nat.div_add_mod (n + s - 1) s
  have h2 : (n + s - 1) % s < s := Nat.mod_lt _ (by omega)
  omega

theorem storeBack_fields {σ : Type} (r : ComDoc σ) (short : Bool) (sat : List SecID)
    (m : Medium σ) :
    (storeBack r short sat m).MinStdStreamSize = r.MinStdStreamSize ∧
      (storeBack r short sat m).SectorSize = r.SectorSize ∧
      (storeBack r short sat m).ShortSectorSize = r.ShortSectorSize ∧
      (storeBack r short sat m).File = m.File := by
  cases short <;> simp [storeBack]

/-- Reading the whole stream with the reader that `ReadStream` returns. -/
theorem readAll_open {σ : Type} (ext : Externals σ) (DirStream : Nat)
    (r : ComDoc σ) (e : DirEnt) (sr : streamReader) (ids : List SecID) (last : SecID)
    (data : SecID → List Byte) (bufs : List (List Byte)) (b : List Byte)
    (hopen : ReadStream ext DirStream r e = .ok sr)
    (hs : 1 ≤ sr.sectorSize) (h32 : e.StreamSize < 4294967296)
    (hchain : Follows sr.sat e.NextSector ids last)
    (hcount : e.StreamSize ≤ sr.sectorSize * ids.length)
    (hread : ∀ id ∈ ids, ∀ buf : List Byte, buf.length = sr.sectorSize →
      sr.readSector id buf = (data id, none))
    (hdata : ∀ id ∈ ids, (data id).length = sr.sectorSize)
    (hne : ∀ d ∈ bufs, d ≠ [])
    (hsum : e.StreamSize ≤ (bufs.map List.length).sum) :
    (readAll sr (bufs ++ [b])).data = (chainBytes data ids).take e.StreamSize ∧
      (readAll sr (bufs ++ [b])).stop = .error .EOF := by
  obtain ⟨-, hrem, -, hsaved, -⟩ := ReadStream_fields hopen
  have hinv := Sound_open hopen ids last data hs h32 hchain hread hdata
  have := readAll_ok data last b bufs sr ids hinv (by rw [hrem, hsaved]; simpa using hcount) hne
    (by rw [hrem]; exact hsum)
  rw [hrem, hsaved] at this
  simpa using this

theorem mem_zipWith_of_mem_zip {α β γ : Type} (f : α → β → γ) (a : α) (b : β) :
    ∀ (l1 : List α) (l2 : List β), (a, b) ∈ l1.zip l2 → f a b ∈ List.zipWith f l1 l2
  | [], _, h => by simp at h
  | _ :: _, [], h => by simp at h
  | x :: xs, y :: ys, h => by
    simp only [List.zip_cons_cons, List.mem_cons, Prod.mk.injEq] at h
    rcases h with ⟨rfl, rfl⟩ | h
    · simp
    · simp only [List.zipWith_cons_cons, List.mem_cons]
      exact Or.inr (mem_zipWith_of_mem_zip f a b xs ys h)

theorem Clean_nil : Clean [] := fun _ h => by simp at h

theorem Clean_append {a b : List (SecID × Option Error)} (ha : Clean a) (hb : Clean b) :
    Clean (a ++ b) := fun x hx => by
  rcases List.mem_append.mp hx with h | h
  · exact ha x h
  · exact hb x h

theorem Clean_single (id : SecID) : Clean [(id, none)] := fun x hx => by
  simp at hx
  simp [hx]

/-- The log of sector reads of the loop over whole sectors, whatever the
sector store does: a failed read is the last one. -/
theorem wholeSectors_traced :
    ∀ (fuel : Nat) (c : Cursor), c.d.length ≤ c.sr.remaining → c.sr.remaining < 4294967296 →
      Traced c (wholeSectors fuel c)
  | 0, c, _, _ => ⟨[], by simp, Clean_nil⟩
  | fuel + 1, c, hrem, h32 => by
    rw [wholeSectors]
    by_cases hsd : c.sr.sectorSize ≤ c.d.length
    · rw [if_pos hsd]
      by_cases hneg : c.sr.nextSector < 0
      · rw [if_pos hneg]
        exact Or.inl ⟨rfl, [], by simp, Clean_nil⟩
      · rw [if_neg hneg]
        cases hres : (callSector c.sr.readSector c.sr.nextSector
            (c.d.take c.sr.sectorSize)).2 with
        | some e =>
          simp only [hres]
          exact Or.inr ⟨e, rfl, [], by simp, Clean_nil, by simp, rfl⟩
        | none =>
          simp only [hres]
          have hsub : subU32 c.sr.remaining c.sr.sectorSize
              = c.sr.remaining - c.sr.sectorSize := subU32_eq (by omega) h32
          cases hnxt : c.sr.sat.get? c.sr.nextSector.toNat with
          | none =>
            simp only [hnxt]
            exact ⟨[(c.sr.nextSector, none)], rfl, Clean_single _⟩
          | some nxt =>
            simp only [hnxt]
            have ih := wholeSectors_traced fuel
              { sr := { c.sr with remaining := subU32 c.sr.remaining c.sr.sectorSize,
                                  nextSector := nxt },
                copied := c.copied + c.sr.sectorSize,
                out := c.out ++ (callSector c.sr.readSector c.sr.nextSector
                  (c.d.take c.sr.sectorSize)).1,
                d := c.d.drop c.sr.sectorSize,
                fetched := c.fetched ++ [(c.sr.nextSector, none)] }
              (by simp [hsub]; omega) (by simp [hsub]; omega)
            revert ih
            generalize wholeSectors fuel _ = flow
            intro ih
            cases flow with
            | go c' =>
              obtain ⟨hsz, hr', h32', hacc, new, hf, hcl, hcop⟩ := ih
              simp only [hsub] at hacc hf hcop hsz
              refine ⟨hsz, hr', h32', by omega, (c.sr.nextSector, none) :: new,
                by simp [hf], Clean_append (Clean_single _) hcl, ?_⟩
              rw [hcop]
              simp [Nat.mul_succ]
              omega
            | ret c' err =>
              rcases ih with ⟨he, new, hf, hcl⟩ | ⟨e, he, new, hf, hcl, hcop, hacc⟩
              · exact Or.inl ⟨he, (c.sr.nextSector, none) :: new, by simp [hf],
                  Clean_append (Clean_single _) hcl⟩
              · simp only [hsub] at hacc hf hcop
                refine Or.inr ⟨e, he, (c.sr.nextSector, none) :: new, by simp [hf],
                  Clean_append (Clean_single _) hcl, ?_, by omega⟩
                rw [hcop]
                simp [Nat.mul_succ]
                omega
            | panic c' p =>
              obtain ⟨new, hf, hcl⟩ := ih
              exact ⟨(c.sr.nextSector, none) :: new, by simp [hf],
                Clean_append (Clean_single _) hcl⟩
            | outOfFuel c' =>
              obtain ⟨new, hf, hcl⟩ := ih
              exact ⟨(c.sr.nextSector, none) :: new, by simp [hf],
                Clean_append (Clean_single _) hcl⟩
    · rw [if_neg hsd]
      exact ⟨rfl, hrem, h32, rfl, [], by simp, Clean_nil, by simp⟩

theorem Progress_refl (c : Cursor) : Progress c c := ⟨[], by simp, Clean_nil⟩

theorem tailSector_traced (c : Cursor) : TracedTail c (tailSector c) := by
  rw [tailSector]
  by_cases hpos : 0 < c.d.length
  · rw [if_pos hpos]
    by_cases hneg : c.sr.nextSector < 0
    · rw [if_pos hneg]
      exact Or.inl ⟨rfl, Progress_refl c⟩
    · rw [if_neg hneg]
      cases hres : (callSector c.sr.readSector c.sr.nextSector c.sr.buf).2 with
      | some e =>
        simp only [hres]
        exact Or.inr ⟨e, rfl, rfl, rfl, rfl⟩
      | none =>
        simp only [hres]
        by_cases hsl : (callSector c.sr.readSector c.sr.nextSector c.sr.buf).1.length
            < c.d.length
        · rw [if_pos hsl]
          exact ⟨[(c.sr.nextSector, none)], rfl, Clean_single _⟩
        · rw [if_neg hsl]
          cases hnxt : c.sr.sat.get? c.sr.nextSector.toNat with
          | none =>
            simp only [hnxt]
            exact ⟨[(c.sr.nextSector, none)], rfl, Clean_single _⟩
          | some nxt =>
            simp only [hnxt]
            exact ⟨[(c.sr.nextSector, none)], rfl, Clean_single _⟩
  · rw [if_neg hpos]
    exact Progress_refl c

theorem not_mem_Clean {log : List (SecID × Option Error)} (h : Clean log) (id : SecID)
    (e : Error) : (id, some e) ∉ log := fun hm => by
  have := h _ hm
  simp at this

theorem phases_failure (c1 : Cursor) (rest : List Byte) (hf : c1.fetched = [])
    (hd : c1.d.length ≤ c1.sr.remaining) (h32 : c1.sr.remaining < 4294967296)
    (id : SecID) (e : Error)
    (hmem : (id, some e)
      ∈ (finish rest ((wholeSectors (c1.d.length + 1) c1).andThen tailSector)).fetched) :
    ∃ pre, (finish rest ((wholeSectors (c1.d.length + 1) c1).andThen tailSector)).fetched
        = pre ++ [(id, some e)] ∧ Clean pre ∧
      (finish rest ((wholeSectors (c1.d.length + 1) c1).andThen tailSector)).ending
        = .returned (c1.copied + c1.sr.sectorSize * pre.length) (some e) ∧
      (finish rest ((wholeSectors (c1.d.length + 1) c1).andThen tailSector)).sr.nextSector = id ∧
      (finish rest ((wholeSectors (c1.d.length + 1) c1).andThen tailSector)).sr.remaining
        + (c1.copied + c1.sr.sectorSize * pre.length) = c1.copied + c1.sr.remaining := by
  have htr := wholeSectors_traced (c1.d.length + 1) c1 hd h32
  revert htr hmem
  generalize wholeSectors (c1.d.length + 1) c1 = flow
  intro hmem htr
  cases flow with
  | go c2 =>
    obtain ⟨hsz, -, -, hacc, new, hf2, hcl, hcop⟩ := htr
    have htt := tailSector_traced c2
    simp only [Flow.andThen] at hmem ⊢
    revert htt hmem
    generalize tailSector c2 = flow2
    intro hmem htt
    cases flow2 with
    | go c3 =>
      obtain ⟨new3, hf3, hcl3⟩ := htt
      simp only [finish, hf3, hf2, hf, List.nil_append] at hmem
      exact absurd hmem (not_mem_Clean (Clean_append hcl hcl3) id e)
    | ret c3 err =>
      rcases htt with ⟨-, new3, hf3, hcl3⟩ | ⟨e3, he3, hf3, hc3, hr3⟩
      · simp only [finish, hf3, hf2, hf, List.nil_append] at hmem
        exact absurd hmem (not_mem_Clean (Clean_append hcl hcl3) id e)
      · simp only [finish, hf3, hf2, hf, List.nil_append] at hmem ⊢
        rw [List.mem_append] at hmem
        rcases hmem with hm | hm
        · exact absurd hm (not_mem_Clean hcl id e)
        · simp only [List.mem_singleton, Prod.mk.injEq, Option.some.injEq] at hm
          obtain ⟨hid, hee⟩ := hm
          refine ⟨new, by rw [hid, hee], hcl, by rw [he3, hc3, hcop, hee], hid.symm, ?_⟩
          rw [hr3, ← hcop]; omega
    | panic c3 p =>
      obtain ⟨new3, hf3, hcl3⟩ := htt
      simp only [finish, hf3, hf2, hf, List.nil_append] at hmem
      exact absurd hmem (not_mem_Clean (Clean_append hcl hcl3) id e)
    | outOfFuel c3 =>
      obtain ⟨new3, hf3, hcl3⟩ := htt
      simp only [finish, hf3, hf2, hf, List.nil_append] at hmem
      exact absurd hmem (not_mem_Clean (Clean_append hcl hcl3) id e)
  | ret c2 err =>
    rcases htr with ⟨-, new, hf2, hcl⟩ | ⟨e2, he2, new, hf2, hcl, hcop, hacc⟩
    · simp only [Flow.andThen, finish, hf2, hf, List.nil_append] at hmem
      exact absurd hmem (not_mem_Clean hcl id e)
    · simp only [Flow.andThen, finish, hf2, hf, List.nil_append] at hmem ⊢
      rw [List.mem_append] at hmem
      rcases hmem with hm | hm
      · exact absurd hm (not_mem_Clean hcl id e)
      · simp only [List.mem_singleton, Prod.mk.injEq, Option.some.injEq] at hm
        obtain ⟨hid, hee⟩ := hm
        refine ⟨new, by rw [hid, hee], hcl, by rw [he2, hcop, hee], hid.symm, ?_⟩
        rw [← hcop]; omega
  | panic c2 p =>
    obtain ⟨new, hf2, hcl⟩ := htr
    simp only [Flow.andThen, finish, hf2, hf, List.nil_append] at hmem
    exact absurd hmem (not_mem_Clean hcl id e)
  | outOfFuel c2 =>
    obtain ⟨new, hf2, hcl⟩ := htr
    simp only [Flow.andThen, finish, hf2, hf, List.nil_append] at hmem
    exact absurd hmem (not_mem_Clean hcl id e)

/-- A failed sector read ends the `Read` call. -/
theorem Read_failure (sr : streamReader) (d : List Byte) (h32 : sr.remaining < 4294967296)
    (id : SecID) (e : Error) (hmem : (id, some e) ∈ (Read sr d).fetched) :
    ∃ pre, (Read sr d).fetched = pre ++ [(id, some e)] ∧ Clean pre ∧
      (Read sr d).ending = .returned
        (min (min d.length sr.remaining) sr.saved.length + sr.sectorSize * pre.length) (some e) ∧
      (Read sr d).sr.nextSector = id ∧
      (Read sr d).sr.remaining + (min (min d.length sr.remaining) sr.saved.length
        + sr.sectorSize * pre.length) = sr.remaining := by
  by_cases hr : sr.remaining = 0
  · rw [Read_eof sr d hr] at hmem
    simp at hmem
  by_cases hd : d.length = 0
  · rw [Read, if_neg hr, if_pos hd] at hmem
    simp at hmem
  have hwd : min d.length sr.remaining ≤ d.length := Nat.min_le_left _ _
  have hwr : min d.length sr.remaining ≤ sr.remaining := Nat.min_le_right _ _
  generalize hw : min d.length sr.remaining = want at hwd hwr
  have htake : (d.take want).length = want := by simp [List.length_take, hwd]
  rw [Read_unfold sr d hr hd, hw,
    savedPhase_eq _ (by simpa [htake] using hwr) (by simpa using h32)] at hmem ⊢
  simp only [htake, List.nil_append, Nat.zero_add] at hmem ⊢
  obtain ⟨pre, h1, h2, h3, h4, h5⟩ := phases_failure _ _ rfl
    (by simp [htake]; omega) (by simp; omega) id e hmem
  refine ⟨pre, h1, h2, h3, h4, ?_⟩
  simp only at h5 ⊢
  omega

theorem CleanW_nil : CleanW [] := fun _ h => by simp at h

theorem CleanW_cons (id : SecID) (bs : List Byte)
    {log : List (SecID × List Byte × Option Error)} (h : CleanW log) :
    CleanW ((id, bs, none) :: log) := fun x hx => by
  rcases List.mem_cons.mp hx with rfl | hx
  · rfl
  · exact h x hx

theorem linkSectors_traced {σ : Type} (eoc : SecID)
    (write : σ → SecID → List Byte → σ × Option Error) (s : Nat) :
    ∀ (ids : List SecID) (w : Writer σ), WTraced w (linkSectors eoc write s ids w)
  | [], w => ⟨[], by simp, CleanW_nil⟩
  | i :: ids, w => by
    rw [linkSectors]
    generalize hl : (if w.previous = eoc then some { w with first := i }
      else (setSat w.sat w.previous i).map (fun sat => { w with sat := sat })) = linked
    have hwr : ∀ w1, linked = some w1 → w1.writes = w.writes ∧ True := by
      intro w1 h1
      rw [← hl] at h1
      split at h1
      · cases h1; exact ⟨rfl, trivial⟩
      · cases hs : setSat w.sat w.previous i with
        | none => rw [hs] at h1; cases h1
        | some sat => rw [hs] at h1; cases h1; exact ⟨rfl, trivial⟩
    cases linked with
    | none => exact ⟨[], by simp, CleanW_nil⟩
    | some w1 =>
      obtain ⟨hw1, -⟩ := hwr w1 rfl
      simp only
      cases hres : (write w1.file i (w1.contents.take
          (if w1.contents.length < s then w1.contents.length else s))).2 with
      | some e =>
        simp only
        exact ⟨[], i, (w1.contents.take (if w1.contents.length < s then w1.contents.length else s)), by simp [hw1], CleanW_nil⟩
      | none =>
        simp only
        have ih := linkSectors_traced eoc write s ids
          { sat := w1.sat, file := (write w1.file i (w1.contents.take
              (if w1.contents.length < s then w1.contents.length else s))).1,
            first := w1.first, previous := i,
            contents := w1.contents.drop
              (if w1.contents.length < s then w1.contents.length else s),
            writes := w1.writes ++ [(i, w1.contents.take
              (if w1.contents.length < s then w1.contents.length else s), none)] }
        revert ih
        generalize linkSectors eoc write s ids _ = flow
        intro ih
        cases flow with
        | go w' =>
          obtain ⟨new, hf, hcl⟩ := ih
          exact ⟨(i, (w1.contents.take (if w1.contents.length < s then w1.contents.length else s)), none) :: new, by simp [hf, hw1],
            CleanW_cons _ _ hcl⟩
        | panic w' p =>
          obtain ⟨new, hf, hcl⟩ := ih
          exact ⟨(i, (w1.contents.take (if w1.contents.length < s then w1.contents.length else s)), none) :: new, by simp [hf, hw1],
            CleanW_cons _ _ hcl⟩
        | ret w' e =>
          obtain ⟨new, id, bs, hf, hcl⟩ := ih
          exact ⟨(i, (w1.contents.take (if w1.contents.length < s then w1.contents.length else s)), none) :: new, id, bs,
            by simp [hf, hw1], CleanW_cons _ _ hcl⟩

theorem not_mem_CleanW {log : List (SecID × List Byte × Option Error)} (h : CleanW log)
    (id : SecID) (bs : List Byte) (e : Error) : (id, bs, some e) ∉ log := fun hm => by
  have := h _ hm
  simp at this

/-- A failed sector write ends `addStream`. -/
theorem addStream_failure {σ : Type} (ext : Externals σ) (eoc : SecID) (r : ComDoc σ)
    (contents : List Byte) (short : Bool) (id : SecID) (bs : List Byte) (e : Error)
    (hmem : (id, bs, some e) ∈ (addStream ext eoc r contents short).writes) :
    (addStream ext eoc r contents short).ending = .returned 0 (some e) ∧
      ∃ pre, (addStream ext eoc r contents short).writes = pre ++ [(id, bs, some e)] ∧
        CleanW pre := by
  unfold addStream at hmem ⊢
  by_cases hs0 : (if short then r.ShortSectorSize else r.SectorSize) = 0
  · simp only [hs0, if_true] at hmem
    simp at hmem
  simp only [if_neg hs0] at hmem ⊢
  have htr := linkSectors_traced eoc (if short then ext.writeShortSector else ext.writeSector)
    (if short then r.ShortSectorSize else r.SectorSize)
    (ext.makeFreeSectors r ((contents.length + (if short then r.ShortSectorSize
      else r.SectorSize) - 1) / (if short then r.ShortSectorSize else r.SectorSize)) short).2
    ⟨if short then (ext.makeFreeSectors r ((contents.length + (if short then r.ShortSectorSize
      else r.SectorSize) - 1) / (if short then r.ShortSectorSize else r.SectorSize)) short).1.SSAT
      else (ext.makeFreeSectors r ((contents.length + (if short then r.ShortSectorSize
      else r.SectorSize) - 1) / (if short then r.ShortSectorSize else r.SectorSize)) short).1.SAT,
      mediumOf (ext.makeFreeSectors r ((contents.length + (if short then r.ShortSectorSize
      else r.SectorSize) - 1) / (if short then r.ShortSectorSize else r.SectorSize)) short).1
        short,
      eoc, eoc, contents, []⟩
  revert htr hmem
  generalize linkSectors eoc _ _ _ _ = flow
  intro hmem htr
  cases flow with
  | go w =>
    obtain ⟨new, hf, hcl⟩ := htr
    simp only [List.nil_append] at hf
    simp only at hmem
    have : (id, bs, some e) ∈ w.writes := by
      revert hmem
      cases setSat w.sat w.previous eoc with
      | none => exact fun h => h
      | some sat1 =>
        simp only
        split <;> exact fun h => h
    rw [hf] at this
    exact absurd this (not_mem_CleanW hcl id bs e)
  | panic w p =>
    obtain ⟨new, hf, hcl⟩ := htr
    simp only [List.nil_append] at hf
    simp only [hf] at hmem
    exact absurd hmem (not_mem_CleanW hcl id bs e)
  | ret w e' =>
    obtain ⟨new, id', bs', hf, hcl⟩ := htr
    simp only [List.nil_append] at hf
    simp only [hf] at hmem ⊢
    rw [List.mem_append] at hmem
    rcases hmem with hm | hm
    · exact absurd hm (not_mem_CleanW hcl id bs e)
    · simp only [List.mem_singleton, Prod.mk.injEq, Option.some.injEq] at hm
      obtain ⟨h1, h2, h3⟩ := hm
      exact ⟨by rw [h3], new, by rw [h1, h2, h3], hcl⟩

theorem wholeSectors_fuel :
    ∀ (fuel : Nat) (c : Cursor), 1 ≤ c.sr.sectorSize → c.d.length < fuel →
      ∀ c', wholeSectors fuel c ≠ .outOfFuel c'
  | 0, _, _, hf => by omega
  | fuel + 1, c, hs, hf => by
    intro c'
    rw [wholeSectors]
    by_cases hsd : c.sr.sectorSize ≤ c.d.length
    · rw [if_pos hsd]
      by_cases hneg : c.sr.nextSector < 0
      · rw [if_pos hneg]; simp
      · rw [if_neg hneg]
        cases hres : (callSector c.sr.readSector c.sr.nextSector
            (c.d.take c.sr.sectorSize)).2 with
        | some e => simp only [hres]; simp
        | none =>
          simp only [hres]
          cases hnxt : c.sr.sat.get? c.sr.nextSector.toNat with
          | none => simp only [hnxt]; simp
          | some nxt =>
            simp only [hnxt]
            exact wholeSectors_fuel fuel _ (by simpa using hs) (by simp; omega) c'
    · rw [if_neg hsd]; simp

theorem tailSector_fuel (c c' : Cursor) : tailSector c ≠ .outOfFuel c' := by
  rw [tailSector]
  by_cases hpos : 0 < c.d.length
  · rw [if_pos hpos]
    by_cases hneg : c.sr.nextSector < 0
    · rw [if_pos hneg]; simp
    · rw [if_neg hneg]
      cases hres : (callSector c.sr.readSector c.sr.nextSector c.sr.buf).2 with
      | some e => simp only [hres]; simp
      | none =>
        simp only [hres]
        by_cases hsl : (callSector c.sr.readSector c.sr.nextSector c.sr.buf).1.length
            < c.d.length
        · rw [if_pos hsl]; simp
        · rw [if_neg hsl]
          cases hnxt : c.sr.sat.get? c.sr.nextSector.toNat with
          | none => simp only [hnxt]; simp
          | some nxt => simp only [hnxt]; simp
  · rw [if_neg hpos]; simp

/-- The iteration bound of the embedding is never reached when the sector
size is at least one: `Read` returns or panics. -/
theorem Read_returns_or_panics (sr : streamReader) (d : List Byte) (hs : 1 ≤ sr.sectorSize) :
    (Read sr d).ending ≠ .outOfFuel := by
  unfold Read
  split
  · simp
  · split
    · simp
    · simp only
      have hsz : ∀ c : Cursor, (savedPhase c).sr.sectorSize = c.sr.sectorSize := by
        intro c
        unfold savedPhase
        split <;> rfl
      have := wholeSectors_fuel
        ((savedPhase ⟨sr, 0, [], d.take (if sr.remaining < d.length then sr.remaining
          else d.length), []⟩).d.length + 1)
        (savedPhase ⟨sr, 0, [], d.take (if sr.remaining < d.length then sr.remaining
          else d.length), []⟩) (by rw [hsz]; exact hs) (Nat.lt_succ_self _)
      revert this
      generalize wholeSectors _ _ = flow
      intro this
      cases flow with
      | go c =>
        simp only [Flow.andThen]
        have ht := tailSector_fuel c
        revert ht
        generalize tailSector c = flow2
        intro ht
        cases flow2 with
        | go c2 => simp [finish]
        | ret c2 err => simp [finish]
        | panic c2 p => simp [finish]
        | outOfFuel c2 => exact absurd rfl (ht c2)
      | ret c err => simp [Flow.andThen, finish]
      | panic c p => simp [Flow.andThen, finish]
      | outOfFuel c => exact absurd rfl (this c)

theorem mul_lt_of_lt_ceil (n s k : Nat) (hs : 1 ≤ s) (h : k < (n + s - 1) / s) : s * k < n := by
  by_contra hge
  have h1 : n + s - 1 < (k + 1) * s := by
    rw [Nat.add_mul, Nat.one_mul, Nat.mul_comm]
    omega
  have h2 : (n + s - 1) / s < k + 1 := (Nat.div_lt_iff_lt_mul (by omega)).mpr h1
  omega

theorem le_mul_of_ceil_le (n s k : Nat) (hs : 1 ≤ s) (h : (n + s - 1) / s ≤ k) : n ≤ s * k :=
  le_trans (ceil_mul_ge n s hs) (Nat.mul_le_mul_left s h)

/-- `Read` with a chain pointer that is not an index of the table. -/
theorem Read_out_of_range (sr : streamReader) (d : List Byte)
    (hbuf : sr.buf.length = sr.sectorSize)
    (hrem : 0 < sr.remaining) (h32 : sr.remaining < 4294967296) (hsaved : sr.saved = [])
    (hd : d ≠ []) (h0 : 0 ≤ sr.nextSector) (hout : sr.sat.length ≤ sr.nextSector.toNat) :
    ((∀ b, (sr.readSector sr.nextSector b).2 = none) →
        (Read sr d).ending = .panicked .indexOutOfRange) ∧
      (((Read sr d).ending = .panicked .indexOutOfRange ∧
          (Read sr d).fetched = [(sr.nextSector, none)]) ∨
        ∃ e, (Read sr d).ending = .returned 0 (some e) ∧
          (Read sr d).fetched = [(sr.nextSector, some e)]) := by
  have hr : sr.remaining ≠ 0 := by omega
  have hdl : d.length ≠ 0 := by
    intro h; exact hd (List.length_eq_zero.mp h)
  have hwd : min d.length sr.remaining ≤ d.length := Nat.min_le_left _ _
  have hwr : min d.length sr.remaining ≤ sr.remaining := Nat.min_le_right _ _
  have hwpos : 0 < min d.length sr.remaining := by omega
  generalize hw : min d.length sr.remaining = want at hwd hwr hwpos
  have htake : (d.take want).length = want := by simp [List.length_take, hwd]
  have hneg : ¬ sr.nextSector < 0 := not_lt.mpr h0
  have hget : sr.sat.get? sr.nextSector.toNat = none := by
    rw [List.get?_eq_getElem?]
    exact List.getElem?_eq_none hout
  rw [Read_unfold sr d hr hdl, hw,
    savedPhase_eq _ (by simpa [htake] using hwr) (by simpa using h32)]
  simp only [htake, List.nil_append, Nat.zero_add, hsaved, List.length_nil, Nat.min_zero,
    List.drop_zero, List.take_nil, List.drop_nil, Nat.sub_zero]
  by_cases hsd : sr.sectorSize ≤ want
  · rw [wholeSectors, if_pos (by simpa [htake] using hsd), if_neg hneg]
    simp only [hget]
    cases hres : (callSector sr.readSector sr.nextSector ((d.take want).take sr.sectorSize)).2 with
    | some e =>
      simp only [Flow.andThen, finish, List.nil_append]
      refine ⟨fun hall => ?_, Or.inr ⟨e, rfl, rfl⟩⟩
      have := hall ((d.take want).take sr.sectorSize)
      simp only [callSector] at hres
      rw [this] at hres
      cases hres
    | none =>
      simp only [Flow.andThen, finish, List.nil_append]
      refine ⟨fun _ => ?_, Or.inl ⟨?_, ?_⟩⟩ <;> first | rfl | trivial
  · rw [wholeSectors_stop _ _ (by simpa [htake] using hsd)]
    simp only [Flow.andThen]
    rw [tailSector, if_pos (by simpa [htake] using hwpos), if_neg hneg]
    simp only [hget]
    have hlen : (callSector sr.readSector sr.nextSector sr.buf).1.length = sr.sectorSize := by
      simp [callSector, hbuf]
      omega
    cases hres : (callSector sr.readSector sr.nextSector sr.buf).2 with
    | some e =>
      simp only [finish, List.nil_append]
      refine ⟨fun hall => ?_, Or.inr ⟨e, rfl, rfl⟩⟩
      have := hall sr.buf
      simp only [callSector] at hres
      rw [this] at hres
      cases hres
    | none =>
      simp only [htake, hlen]
      rw [if_neg (by omega)]
      simp only [finish, List.nil_append]
      refine ⟨fun _ => ?_, Or.inl ⟨?_, ?_⟩⟩ <;> first | rfl | trivial

theorem SameReader_refl (a : streamReader) : SameReader a a := ⟨rfl, rfl, rfl, rfl, rfl⟩

theorem wholeSectors_swept :
    ∀ (fuel : Nat) (c : Cursor), 1 ≤ c.sr.sectorSize → c.d.length < fuel →
      c.d.length ≤ c.sr.remaining → c.sr.remaining < 4294967296 →
      Swept c (wholeSectors fuel c)
  | 0, c, _, hf, _, _ => by omega
  | fuel + 1, c, hs, hf, hrem, h32 => by
    rw [wholeSectors]
    by_cases hsd : c.sr.sectorSize ≤ c.d.length
    · rw [if_pos hsd]
      by_cases hneg : c.sr.nextSector < 0
      · rw [if_pos hneg]
        exact ⟨[], rfl, by simpa using hsd, by simp, by simp, SameReader_refl _,
          Or.inl ⟨rfl, hneg, by simp⟩⟩
      · rw [if_neg hneg]
        have h0 : 0 ≤ c.sr.nextSector := not_lt.mp hneg
        cases hres : (callSector c.sr.readSector c.sr.nextSector
            (c.d.take c.sr.sectorSize)).2 with
        | some e =>
          simp only [hres]
          exact ⟨[], rfl, by simpa using hsd, by simp, by simp, SameReader_refl _,
            Or.inr ⟨e, rfl, h0, by simp⟩⟩
        | none =>
          simp only [hres]
          have hsub : subU32 c.sr.remaining c.sr.sectorSize
              = c.sr.remaining - c.sr.sectorSize := subU32_eq (by omega) h32
          cases hnxt : c.sr.sat.get? c.sr.nextSector.toNat with
          | none =>
            simp only [hnxt]
            exact ⟨[], c.sr.nextSector, rfl, h0, rfl, by simpa using hsd, by simp,
              by simp [hsub], SameReader_refl _⟩
          | some nxt =>
            simp only [hnxt]
            have ih := wholeSectors_swept fuel
              { sr := { c.sr with remaining := subU32 c.sr.remaining c.sr.sectorSize,
                                  nextSector := nxt },
                copied := c.copied + c.sr.sectorSize,
                out := c.out ++ (callSector c.sr.readSector c.sr.nextSector
                  (c.d.take c.sr.sectorSize)).1,
                d := c.d.drop c.sr.sectorSize,
                fetched := c.fetched ++ [(c.sr.nextSector, none)] }
              (by simpa using hs) (by simp; omega) (by simp [hsub]; omega)
              (by simp [hsub]; omega)
            revert ih
            generalize wholeSectors fuel _ = flow
            intro ih
            cases flow with
            | go c' =>
              obtain ⟨ids, hf', hfol, hd, hlt, hcop, hr, hsame⟩ := ih
              simp only [hsub, List.length_drop] at hf' hfol hd hlt hcop hr hsame
              refine ⟨c.sr.nextSector :: ids, by simp [hf'], ⟨rfl, h0, nxt, hnxt, hfol⟩, ?_, hlt,
                ?_, ?_, hsame⟩
              · simp only [List.length_cons, Nat.mul_succ]; omega
              · simp only [List.length_cons, Nat.mul_succ]; omega
              · simp only [List.length_cons, Nat.mul_succ]; omega
            | ret c' err =>
              obtain ⟨ids, hfol, hd, hcop, hr, hsame, hcase⟩ := ih
              simp only [hsub, List.length_drop] at hfol hd hcop hr hsame hcase
              refine ⟨c.sr.nextSector :: ids, ⟨rfl, h0, nxt, hnxt, hfol⟩, ?_, ?_, ?_, hsame, ?_⟩
              · simp only [List.length_cons, Nat.mul_succ]; omega
              · simp only [List.length_cons, Nat.mul_succ]; omega
              · simp only [List.length_cons, Nat.mul_succ]; omega
              · rcases hcase with ⟨he, hn, hf'⟩ | ⟨e, he, hn, hf'⟩
                · exact Or.inl ⟨he, hn, by simp [hf']⟩
                · exact Or.inr ⟨e, he, hn, by simp [hf']⟩
            | panic c' p =>
              obtain ⟨pre, x, hfol, hx, hnx, hd, hf', hr, hsame⟩ := ih
              simp only [hsub, List.length_drop] at hfol hd hf' hr hsame
              refine ⟨c.sr.nextSector :: pre, x, ⟨rfl, h0, nxt, hnxt, hfol⟩, hx, hnx, ?_,
                by simp [hf'], by omega, hsame⟩
              simp only [List.length_cons, Nat.mul_succ]; omega
            | outOfFuel c' => exact ih
    · rw [if_neg hsd]
      exact ⟨[], by simp, rfl, by simp, by omega, by simp, by simp, SameReader_refl _⟩

theorem Follows_snoc (sat : List SecID) (x nxt : SecID) (hx : 0 ≤ x)
    (hnxt : sat.get? x.toNat = some nxt) :
    ∀ (ids : List SecID) (cur : SecID), Follows sat cur ids x → Follows sat cur (ids ++ [x]) nxt
  | [], cur, h => ⟨h, hx, nxt, hnxt, rfl⟩
  | id :: ids, cur, h => by
    obtain ⟨hcur, hid, n, hn, hrest⟩ := h
    exact ⟨hcur, hid, n, hn, Follows_snoc sat x nxt hx hnxt ids n hrest⟩

theorem phases_facts (c1 : Cursor) (rest : List Byte) (hs : 1 ≤ c1.sr.sectorSize)
    (hf : c1.fetched = []) (hd : c1.d.length ≤ c1.sr.remaining)
    (h32 : c1.sr.remaining < 4294967296) :
    ∃ ids tail,
      (phases rest c1).fetched = ids.map (fun id => (id, none)) ++ tail ∧
      (phases rest c1).sr.sat = c1.sr.sat ∧
      (phases rest c1).sr.sectorSize = c1.sr.sectorSize ∧
      (phases rest c1).sr.readSector = c1.sr.readSector ∧
      (phases rest c1).sr.buf.length = c1.sr.buf.length ∧
      (phases rest c1).sr.remaining ≤ c1.sr.remaining ∧
      (∀ n, (phases rest c1).ending = .returned n none →
        tail = [] ∧ n = c1.copied + c1.d.length ∧
        (phases rest c1).sr.remaining + c1.d.length = c1.sr.remaining ∧
        Follows c1.sr.sat c1.sr.nextSector ids (phases rest c1).sr.nextSector ∧
        c1.sr.sectorSize * ids.length < c1.d.length + c1.sr.sectorSize ∧
        (c1.sr.buf.length = c1.sr.sectorSize → c1.sr.saved.length = 0 ∨ c1.d.length = 0 →
          (phases rest c1).sr.saved.length + c1.d.length
            = c1.sr.sectorSize * ids.length + c1.sr.saved.length)) ∧
      (∀ n e, (phases rest c1).ending = .returned n (some e) →
        n = c1.copied + c1.sr.sectorSize * ids.length ∧
        (phases rest c1).sr.remaining + c1.sr.sectorSize * ids.length = c1.sr.remaining ∧
        Follows c1.sr.sat c1.sr.nextSector ids (phases rest c1).sr.nextSector ∧
        c1.sr.sectorSize * ids.length < c1.d.length ∧
        (phases rest c1).sr.saved = c1.sr.saved ∧
        ((tail = [] ∧ e = .unexpectedEnd ∧ (phases rest c1).sr.nextSector < 0) ∨
          (tail = [((phases rest c1).sr.nextSector, some e)] ∧
            0 ≤ (phases rest c1).sr.nextSector))) ∧
      (∀ p, (phases rest c1).ending = .panicked p →
        tail = [] ∧ ∃ pre x, ids = pre ++ [x] ∧ Follows c1.sr.sat c1.sr.nextSector pre x ∧
          0 ≤ x ∧ (phases rest c1).sr.nextSector = x ∧
          c1.sr.sectorSize * pre.length < c1.d.length) ∧
      (phases rest c1).ending ≠ .outOfFuel := by
  have hsw := wholeSectors_swept (c1.d.length + 1) c1 hs (Nat.lt_succ_self _) hd h32
  unfold phases
  revert hsw
  generalize wholeSectors (c1.d.length + 1) c1 = flow
  intro hsw
  cases flow with
  | go c2 =>
    obtain ⟨ids, hf2, hfol, hd2, hlt, hcop, hrem, hsat, hsz, hrs, hbuf, hsav⟩ := hsw
    rw [hf, List.nil_append] at hf2
    simp only [Flow.andThen]
    rw [tailSector]
    by_cases hpos : 0 < c2.d.length
    · rw [if_pos hpos]
      by_cases hneg : c2.sr.nextSector < 0
      · rw [if_pos hneg]
        simp only [finish]
        refine ⟨ids, [], by simp [hf2], hsat.symm, hsz.symm, hrs.symm, by rw [hbuf],
          by omega, ?_, ?_, ?_, by simp⟩
        · intro n h; simp at h
        · intro n e h
          simp only [Ending.returned.injEq, Option.some.injEq] at h
          obtain ⟨hn, he⟩ := h
          exact ⟨by rw [← hn, hcop], hrem, hfol, by omega, hsav.symm,
            Or.inl ⟨rfl, he.symm, hneg⟩⟩
        · intro p h; simp at h
      · rw [if_neg hneg]
        have h0 : 0 ≤ c2.sr.nextSector := not_lt.mp hneg
        have hlen : (callSector c2.sr.readSector c2.sr.nextSector c2.sr.buf).1.length
            = c2.sr.buf.length := by
          simp [callSector]
          omega
        cases hres : (callSector c2.sr.readSector c2.sr.nextSector c2.sr.buf).2 with
        | some e =>
          simp only [hres]
          simp only [finish]
          refine ⟨ids, [(c2.sr.nextSector, some e)], by simp [hf2], hsat.symm, hsz.symm,
            hrs.symm, by simp only [hlen, hbuf], by omega,
            ?_, ?_, ?_, by simp⟩
          · intro n h; simp at h
          · intro n e' h
            simp only [Ending.returned.injEq, Option.some.injEq] at h
            obtain ⟨hn, he⟩ := h
            exact ⟨by rw [← hn, hcop], hrem, hfol, by omega, hsav.symm,
              Or.inr ⟨by rw [he], h0⟩⟩
          · intro p h; simp at h
        | none =>
          simp only [hres]
          have hsub : subU32 c2.sr.remaining c2.d.length = c2.sr.remaining - c2.d.length :=
            subU32_eq (by omega) (by omega)
          by_cases hsl : (callSector c2.sr.readSector c2.sr.nextSector c2.sr.buf).1.length
              < c2.d.length
          · rw [if_pos hsl]
            simp only [finish]
            refine ⟨ids ++ [c2.sr.nextSector], [], by simp [hf2], hsat.symm, hsz.symm,
              hrs.symm, by simp only [hlen, hbuf],
              by simp only [hsub]; omega, ?_, ?_, ?_, by simp⟩
            · intro n h; simp at h
            · intro n e h; simp at h
            · intro p _
              exact ⟨rfl, ids, c2.sr.nextSector, rfl, hfol, h0, rfl, by omega⟩
          · rw [if_neg hsl]
            cases hnxt : c2.sr.sat.get? c2.sr.nextSector.toNat with
            | none =>
              simp only [hnxt]
              simp only [finish]
              refine ⟨ids ++ [c2.sr.nextSector], [], by simp [hf2], hsat.symm,
                hsz.symm, hrs.symm, by simp only [hlen, hbuf],
                by simp only [hsub]; omega, ?_, ?_, ?_, by simp⟩
              · intro n h; simp at h
              · intro n e h; simp at h
              · intro p _
                exact ⟨rfl, ids, c2.sr.nextSector, rfl, hfol, h0, rfl, by omega⟩
            | some nxt =>
              simp only [hnxt]
              simp only [finish]
              refine ⟨ids ++ [c2.sr.nextSector], [], by simp [hf2], hsat.symm,
                hsz.symm, hrs.symm, by simp only [hlen, hbuf],
                by simp only [hsub]; omega, ?_, ?_, ?_, by simp⟩
              · intro n h
                simp only [Ending.returned.injEq, and_true] at h
                refine ⟨rfl, by rw [← h, hcop]; omega, by simp only [hsub]; omega,
                  Follows_snoc _ _ _ h0 (by rw [hsat]; exact hnxt) _ _ hfol, ?_, ?_⟩
                · simp only [List.length_append, List.length_singleton, Nat.mul_succ]; omega
                · intro hb hcase
                  simp only [List.length_drop, hlen, List.length_append,
                    List.length_singleton, Nat.mul_succ]
                  rw [← hbuf, ← hsz] at *
                  omega
              · intro n e h; simp at h
              · intro p h; simp at h
    · rw [if_neg hpos]
      have hz : c2.d.length = 0 := by omega
      simp only [finish]
      refine ⟨ids, [], by simp [hf2], hsat.symm, hsz.symm, hrs.symm, by rw [hbuf],
        by omega, ?_, ?_, ?_, by simp⟩
      · intro n h
        simp only [Ending.returned.injEq, and_true] at h
        refine ⟨rfl, by rw [← h, hcop]; omega, by omega, hfol, by omega, ?_⟩
        intro _ _
        simp only [← hsav]
        omega
      · intro n e h; simp at h
      · intro p h; simp at h
  | ret c2 err =>
    obtain ⟨ids, hfol, hd2, hcop, hrem, ⟨hsat, hsz, hrs, hbuf, hsav⟩, hcase⟩ := hsw
    rw [hf, List.nil_append] at hcase
    simp only [Flow.andThen]
    rcases hcase with ⟨he, hn, hf2⟩ | ⟨e, he, hn, hf2⟩
    · simp only [finish]
      refine ⟨ids, [], by simp [hf2], hsat.symm, hsz.symm, hrs.symm, by rw [hbuf],
        by omega, ?_, ?_, ?_, by simp⟩
      · intro n h; simp [he] at h
      · intro n e h
        simp only [he, Ending.returned.injEq, Option.some.injEq] at h
        exact ⟨by rw [← h.1, hcop], hrem, hfol, by omega, hsav.symm, Or.inl ⟨rfl, h.2.symm, hn⟩⟩
      · intro p h; simp at h
    · simp only [finish]
      refine ⟨ids, [(c2.sr.nextSector, some e)], by simp [hf2], hsat.symm, hsz.symm,
        hrs.symm, by rw [hbuf], by omega, ?_, ?_, ?_,
        by simp⟩
      · intro n h; simp [he] at h
      · intro n e' h
        simp only [he, Ending.returned.injEq, Option.some.injEq] at h
        exact ⟨by rw [← h.1, hcop], hrem, hfol, by omega, hsav.symm,
          Or.inr ⟨by rw [h.2], hn⟩⟩
      · intro p h; simp at h
  | panic c2 p =>
    obtain ⟨pre, x, hfol, hx, hnx, hd2, hf2, hrem, hsat, hsz, hrs, hbuf, -⟩ := hsw
    rw [hf, List.nil_append] at hf2
    simp only [Flow.andThen, finish]
    refine ⟨pre ++ [x], [], by simp [hf2], hsat.symm, hsz.symm, hrs.symm, by rw [hbuf], hrem,
      ?_, ?_, ?_, by simp⟩
    · intro n h; simp at h
    · intro n e h; simp at h
    · intro p _
      exact ⟨rfl, pre, x, rfl, hfol, hx, hnx, by omega⟩
  | outOfFuel c2 => exact absurd hsw (fun h => h)

theorem Read_facts (sr : streamReader) (d : List Byte) (hs : 1 ≤ sr.sectorSize)
    (h32 : sr.remaining < 4294967296) (hr : sr.remaining ≠ 0) (hd : d.length ≠ 0) :
    ∃ ids tail, ReadFacts sr d ids tail := by
  have hwd : min d.length sr.remaining ≤ d.length := Nat.min_le_left _ _
  have hwr : min d.length sr.remaining ≤ sr.remaining := Nat.min_le_right _ _
  have hrun : Read sr d = phases (d.drop (min d.length sr.remaining))
      (savedPhase ⟨sr, 0, [], d.take (min d.length sr.remaining), []⟩) :=
    Read_unfold sr d hr hd
  generalize hw : min d.length sr.remaining = lim at hwd hwr hrun
  have htake : (d.take lim).length = lim := by simp [List.length_take, hwd]
  rw [savedPhase_eq _ (by simpa [htake] using hwr) (by simpa using h32)] at hrun
  simp only [htake, List.nil_append, Nat.zero_add] at hrun
  have hsvl : min lim sr.saved.length ≤ lim := Nat.min_le_left _ _
  have hsvs : min lim sr.saved.length ≤ sr.saved.length := Nat.min_le_right _ _
  have hsv : min lim sr.saved.length = lim ∨ min lim sr.saved.length = sr.saved.length := by
    omega
  generalize hsvdef : min lim sr.saved.length = sv at hrun hsvl hsvs hsv
  obtain ⟨ids, tail, h1, h2, h3, h4, h5, h6, hok, herr, hpanic, hfuel⟩ :=
    phases_facts
      { sr := { sr with saved := sr.saved.drop sv, remaining := sr.remaining - sv },
        copied := sv, out := sr.saved.take sv, d := (d.take lim).drop sv, fetched := [] }
      (d.drop lim) hs rfl (by simp [htake]; omega) (by simp; omega)
  rw [← hrun] at h1 h2 h3 h4 h5 h6 hok herr hpanic hfuel
  simp only [List.length_drop, htake] at h1 h2 h3 h4 h5 h6 hok herr hpanic hfuel
  subst hsvdef
  subst hw
  refine ⟨ids, tail, ⟨h1, h2, h3, h4, h5, by omega, ?_, ?_, ?_, hfuel⟩⟩
  · intro n hn
    obtain ⟨a1, a2, a3, a4, a5, a6⟩ := hok n hn
    refine ⟨a1, by omega, by omega, a4, a5, fun hb => ?_⟩
    have := a6 hb (by rcases hsv with h | h <;> omega)
    omega
  · intro n e hn
    obtain ⟨a1, a2, a3, a4, a5, a6⟩ := herr n e hn
    exact ⟨a1, by omega, a3, a4, a5, a6⟩
  · intro p hp
    exact hpanic p hp

theorem successes_ok (ids : List SecID) :
    successes (ids.map (fun id => (id, (none : Option Error)))) = ids.length := by
  induction ids with
  | nil => rfl
  | cons x xs ih =>
    simp only [successes, List.map_cons, List.length_cons] at ih ⊢
    rw [List.countP_cons_of_pos _ _ (by rfl), ih]

theorem successes_append (a b : List (SecID × Option Error)) :
    successes (a ++ b) = successes a + successes b := by
  simp [successes, List.countP_append]

theorem Clean_of_append {a b : List (SecID × Option Error)} (h : Clean (a ++ b)) :
    Clean a ∧ Clean b :=
  ⟨fun x hx => h x (List.mem_append_left _ hx), fun x hx => h x (List.mem_append_right _ hx)⟩

theorem Follows_trans (sat : List SecID) (c : SecID) :
    ∀ (ids1 ids2 : List SecID) (a b : SecID), Follows sat a ids1 b → Follows sat b ids2 c →
      Follows sat a (ids1 ++ ids2) c
  | [], ids2, a, b, h1, h2 => by
    have : a = b := h1
    rw [this]; exact h2
  | x :: ids1, ids2, a, b, h1, h2 => by
    obtain ⟨ha, hx, n, hn, hr⟩ := h1
    exact ⟨ha, hx, n, hn, Follows_trans sat c ids1 ids2 n b hr h2⟩

theorem walk_of_Follows (sat : List SecID) :
    ∀ (ids : List SecID) (cur nxt : SecID), Follows sat cur ids nxt →
      walk sat ids.length cur = ids
  | [], _, _, _ => rfl
  | x :: ids, cur, nxt, h => by
    obtain ⟨ha, hx, n, hn, hr⟩ := h
    rw [List.length_cons, walk, if_neg (by rw [ha]; exact not_lt.mpr hx), ha, hn]
    simp only
    rw [walk_of_Follows sat ids n nxt hr]

theorem walk_of_Follows_snoc (sat : List SecID) (x : SecID) (hx : 0 ≤ x) :
    ∀ (pre : List SecID) (cur : SecID), Follows sat cur pre x →
      walk sat (pre ++ [x]).length cur = pre ++ [x]
  | [], cur, h => by
    have : cur = x := h
    rw [this]
    simp only [List.nil_append, List.length_singleton, walk, if_neg (not_lt.mpr hx)]
    cases sat.get? x.toNat <;> rfl
  | y :: pre, cur, h => by
    obtain ⟨ha, hy, n, hn, hr⟩ := h
    rw [List.cons_append, List.length_cons, walk, if_neg (by rw [ha]; exact not_lt.mpr hy), ha, hn]
    simp only
    rw [walk_of_Follows_snoc sat x hx pre n hr]

/-- One `Read` call in which every sector read succeeds: the sectors read
are the next ones of the chain. -/
theorem Read_trail (sr : streamReader) (d : List Byte) (hs : 1 ≤ sr.sectorSize)
    (h32 : sr.remaining < 4294967296) (hclean : Clean (Read sr d).fetched) :
    ∃ ids, (Read sr d).fetched = ids.map (fun id => (id, none)) ∧
      (Read sr d).sr.sat = sr.sat ∧ (Read sr d).sr.sectorSize = sr.sectorSize ∧
      (Read sr d).sr.remaining ≤ sr.remaining ∧
      (∀ n e, (Read sr d).ending = .returned n e →
        Follows sr.sat sr.nextSector ids (Read sr d).sr.nextSector) ∧
      (∀ p, (Read sr d).ending = .panicked p →
        ∃ pre x, ids = pre ++ [x] ∧ Follows sr.sat sr.nextSector pre x ∧ 0 ≤ x) ∧
      (Read sr d).ending ≠ .outOfFuel := by
  by_cases hr : sr.remaining = 0
  · rw [Read_eof sr d hr]
    exact ⟨[], rfl, rfl, rfl, le_refl _, fun _ _ _ => rfl, fun p h => by simp at h, by simp⟩
  by_cases hd : d.length = 0
  · rw [Read, if_neg hr, if_pos hd]
    exact ⟨[], rfl, rfl, rfl, le_refl _, fun _ _ _ => rfl, fun p h => by simp at h, by simp⟩
  obtain ⟨ids, tail, hf⟩ := Read_facts sr d hs h32 hr hd
  have htail : tail = [] := by
    cases hend : (Read sr d).ending with
    | returned n e =>
      cases e with
      | none => exact (hf.ok n hend).1
      | some e =>
        rcases (hf.err n e hend).2.2.2.2.2 with h | h
        · exact h.1
        · exfalso
          have hm : ((Read sr d).sr.nextSector, some e) ∈ (Read sr d).fetched := by
            rw [hf.fetched_eq, h.1]; simp
          exact not_mem_Clean hclean _ _ hm
    | panicked p => exact (hf.panic p hend).1
    | outOfFuel => exact absurd hend hf.fuel
  refine ⟨ids, by rw [hf.fetched_eq, htail, List.append_nil], hf.sat_eq, hf.size_eq, hf.rem_le,
    ?_, ?_, hf.fuel⟩
  · intro n e hend
    cases e with
    | none => exact (hf.ok n hend).2.2.2.1
    | some e => exact (hf.err n e hend).2.2.1
  · intro p hend
    obtain ⟨-, pre, x, h1, h2, h3, -⟩ := hf.panic p hend
    exact ⟨pre, x, h1, h2, h3⟩

/-- A sequence of `Read` calls in which every sector read succeeds: the
sectors read are consecutive sectors of the chain and the chain pointer
follows them. -/
theorem readEach_trail :
    ∀ (bufs : List (List Byte)) (sr : streamReader), 1 ≤ sr.sectorSize →
      sr.remaining < 4294967296 → Clean (readEach sr bufs).fetched →
      ∃ ids, (readEach sr bufs).fetched = ids.map (fun id => (id, none)) ∧
        (readEach sr bufs).sr.remaining ≤ sr.remaining ∧
        ((readEach sr bufs).panicked = false →
          Follows sr.sat sr.nextSector ids (readEach sr bufs).sr.nextSector) ∧
        ((readEach sr bufs).panicked = true →
          ∃ pre x, ids = pre ++ [x] ∧ Follows sr.sat sr.nextSector pre x ∧ 0 ≤ x)
  | [], sr, _, _, _ => ⟨[], rfl, le_refl _, fun _ => rfl, fun h => by simp [readEach] at h⟩
  | d :: ds, sr, hs, h32, hclean => by
    rw [readEach] at hclean ⊢
    cases hend : (Read sr d).ending with
    | returned n e =>
      simp only [hend] at hclean ⊢
      obtain ⟨hc1, hc2⟩ := Clean_of_append hclean
      obtain ⟨ids1, hf1, hsat, hsz, hrem, hret, -, -⟩ := Read_trail sr d hs h32 hc1
      obtain ⟨ids2, hf2, hrem2, hgo, hpanic⟩ := readEach_trail ds (Read sr d).sr
        (by rw [hsz]; exact hs) (by omega) hc2
      have hfol := hret n e hend
      refine ⟨ids1 ++ ids2, by rw [hf1, hf2, List.map_append], by omega, ?_, ?_⟩
      · intro hp
        have := hgo hp
        rw [hsat] at this
        exact Follows_trans _ _ _ _ _ _ hfol this
      · intro hp
        obtain ⟨pre, x, h1, h2, h3⟩ := hpanic hp
        rw [hsat] at h2
        exact ⟨ids1 ++ pre, x, by rw [h1, List.append_assoc],
          Follows_trans _ _ _ _ _ _ hfol h2, h3⟩
    | panicked p =>
      simp only [hend] at hclean ⊢
      obtain ⟨ids1, hf1, -, -, hrem, -, hpan, -⟩ := Read_trail sr d hs h32 hclean
      exact ⟨ids1, hf1, hrem, fun h => by simp at h, fun _ => hpan p hend⟩
    | outOfFuel =>
      simp only [hend] at hclean ⊢
      obtain ⟨ids1, hf1, -, -, hrem, -, -, hfuel⟩ := Read_trail sr d hs h32 hclean
      exact absurd hend hfuel

theorem succ_le_ceil (m s k : Nat) (hs : 1 ≤ s) (h : s * k < m) : k + 1 ≤ (m + s - 1) / s := by
  rw [Nat.le_div_iff_mul_le (by omega), Nat.add_mul, Nat.one_mul, Nat.mul_comm]
  omega

theorem le_ceil (m s k : Nat) (hs : 1 ≤ s) (h : s * k < m + s) : k ≤ (m + s - 1) / s := by
  rw [Nat.le_div_iff_mul_le (by omega), Nat.mul_comm]
  omega

theorem ceil_drop (M s k : Nat) (hs : 1 ≤ s) (h : s * k < M + s) :
    k + (M - s * k + s - 1) / s ≤ (M + s - 1) / s := by
  by_cases hc : s * k ≤ M
  · have : M + s - 1 = (M - s * k + s - 1) + s * k := by omega
    rw [this, Nat.add_mul_div_left _ _ (by omega)]
    omega
  · have h0 : M - s * k = 0 := by omega
    have h1 : (M - s * k + s - 1) / s = 0 := by
      rw [h0, Nat.zero_add]
      exact Nat.div_eq_of_lt (by omega)
    rw [h1, Nat.add_zero]
    exact le_ceil M s k hs h

/-- One `Read` call issues at most `ceil(min(len(d), remaining) / s)` sector
reads. -/
theorem Read_count (sr : streamReader) (d : List Byte) (hs : 1 ≤ sr.sectorSize)
    (h32 : sr.remaining < 4294967296) :
    (Read sr d).fetched.length
      ≤ (min d.length sr.remaining + sr.sectorSize - 1) / sr.sectorSize := by
  by_cases hr : sr.remaining = 0
  · rw [Read_eof sr d hr]; simp
  by_cases hd : d.length = 0
  · rw [Read, if_neg hr, if_pos hd]; simp
  obtain ⟨ids, tail, hf⟩ := Read_facts sr d hs h32 hr hd
  have hmono : (min d.length sr.remaining - min (min d.length sr.remaining) sr.saved.length
      + sr.sectorSize - 1) / sr.sectorSize
      ≤ (min d.length sr.remaining + sr.sectorSize - 1) / sr.sectorSize :=
    Nat.div_le_div_right (by omega)
  refine le_trans ?_ hmono
  rw [hf.fetched_eq, List.length_append, List.length_map]
  cases hend : (Read sr d).ending with
  | returned n e =>
    cases e with
    | none =>
      obtain ⟨ht, -, -, -, hc, -⟩ := hf.ok n hend
      rw [ht, List.length_nil, Nat.add_zero]
      exact le_ceil _ _ _ hs hc
    | some e =>
      obtain ⟨-, -, -, hc, -, hcase⟩ := hf.err n e hend
      have hsucc := succ_le_ceil _ _ _ hs hc
      rcases hcase with h | h
      · rw [h.1, List.length_nil]; omega
      · rw [h.1, List.length_singleton]; exact hsucc
  | panicked p =>
    obtain ⟨ht, pre, x, hids, -, -, -, hc⟩ := hf.panic p hend
    rw [ht, hids, List.length_nil, Nat.add_zero, List.length_append, List.length_singleton]
    exact succ_le_ceil _ _ _ hs hc
  | outOfFuel => exact absurd hend hf.fuel

/-- One `Read` call reads with success at most as many sectors as the
reader still had to read, and what is left to read goes down by that
number. -/
theorem Read_sectorsLeft (sr : streamReader) (d : List Byte) (hs : 1 ≤ sr.sectorSize)
    (h32 : sr.remaining < 4294967296) (hbuf : sr.buf.length = sr.sectorSize) :
    successes (Read sr d).fetched ≤ sectorsLeft sr ∧
      (Read sr d).sr.sectorSize = sr.sectorSize ∧
      (Read sr d).sr.buf.length = (Read sr d).sr.sectorSize ∧
      (Read sr d).sr.remaining ≤ sr.remaining ∧
      (∀ n e, (Read sr d).ending = .returned n e →
        successes (Read sr d).fetched + sectorsLeft (Read sr d).sr ≤ sectorsLeft sr) := by
  by_cases hr : sr.remaining = 0
  · rw [Read_eof sr d hr]
    exact ⟨by simp [successes], rfl, hbuf, le_refl _, fun _ _ _ => by simp [successes]⟩
  by_cases hd : d.length = 0
  · rw [Read, if_neg hr, if_pos hd]
    exact ⟨by simp [successes], rfl, hbuf, le_refl _, fun _ _ _ => by simp [successes]⟩
  obtain ⟨ids, tail, hf⟩ := Read_facts sr d hs h32 hr hd
  have hwr : min d.length sr.remaining ≤ sr.remaining := Nat.min_le_right _ _
  have hsvl : min (min d.length sr.remaining) sr.saved.length ≤ min d.length sr.remaining :=
    Nat.min_le_left _ _
  have hsvs : min (min d.length sr.remaining) sr.saved.length ≤ sr.saved.length :=
    Nat.min_le_right _ _
  have hsv : min (min d.length sr.remaining) sr.saved.length = min d.length sr.remaining ∨
      min (min d.length sr.remaining) sr.saved.length = sr.saved.length := by omega
  have hfe := hf.fetched_eq
  have hok := hf.ok
  have herr := hf.err
  have hpanic := hf.panic
  have hsz := hf.size_eq
  have hrl := hf.rem_le
  generalize min d.length sr.remaining = lim at hwr hsvl hsvs hsv hok herr hpanic
  generalize min lim sr.saved.length = sv at hsvl hsvs hsv hok herr hpanic
  have hbuf' : (Read sr d).sr.buf.length = sr.sectorSize := by
    rw [hf.buf_len, hbuf]
  have hsuc : ∀ (_t : Nat), tail = [] ∨ (∃ x e, tail = [(x, some e)]) →
      successes (ids.map (fun id => (id, (none : Option Error))) ++ tail) = ids.length := by
    intro _ ht
    rw [successes_append, successes_ok]
    rcases ht with h | ⟨x, e, h⟩ <;> rw [h] <;> simp [successes]
  unfold sectorsLeft
  rw [hsz]
  cases hend : (Read sr d).ending with
  | returned n e =>
    cases e with
    | none =>
      obtain ⟨ht, -, hrem, -, hc, hsav⟩ := hok n hend
      have hsav' := hsav hbuf
      rw [hfe, hsuc 0 (Or.inl ht)]
      have key : ids.length + ((Read sr d).sr.remaining - (Read sr d).sr.saved.length
          + sr.sectorSize - 1) / sr.sectorSize
          ≤ (sr.remaining - sr.saved.length + sr.sectorSize - 1) / sr.sectorSize := by
        rcases hsv with h | h
        · have hl : ids.length = 0 := by
            have : sr.sectorSize * ids.length < sr.sectorSize := by omega
            by_contra hne
            have : sr.sectorSize * 1 ≤ sr.sectorSize * ids.length :=
              Nat.mul_le_mul_left _ (by omega)
            omega
          rw [hl] at hsav' ⊢
          have : (Read sr d).sr.remaining - (Read sr d).sr.saved.length
              = sr.remaining - sr.saved.length := by omega
          rw [this]; omega
        · have : (Read sr d).sr.remaining - (Read sr d).sr.saved.length
              = (sr.remaining - sr.saved.length) - sr.sectorSize * ids.length := by omega
          rw [this]
          exact ceil_drop _ _ _ hs (by omega)
      exact ⟨le_trans (Nat.le_add_right _ _) key, rfl, hbuf', hrl, fun _ _ _ => key⟩
    | some e =>
      obtain ⟨hn, hrem, -, hc, hsav, hcase⟩ := herr n e hend
      have htl : tail = [] ∨ (∃ x e, tail = [(x, some e)]) := by
        rcases hcase with h | h
        · exact Or.inl h.1
        · exact Or.inr ⟨_, _, h.1⟩
      rw [hfe, hsuc 0 htl]
      have hsvEq : sv = sr.saved.length := by omega
      have hsl : (Read sr d).sr.saved.length = 0 := by
        rw [hsav, List.length_drop]; omega
      have key : ids.length + ((Read sr d).sr.remaining - (Read sr d).sr.saved.length
          + sr.sectorSize - 1) / sr.sectorSize
          ≤ (sr.remaining - sr.saved.length + sr.sectorSize - 1) / sr.sectorSize := by
        have : (Read sr d).sr.remaining - (Read sr d).sr.saved.length
            = (sr.remaining - sr.saved.length) - sr.sectorSize * ids.length := by omega
        rw [this]
        exact ceil_drop _ _ _ hs (by omega)
      exact ⟨le_trans (Nat.le_add_right _ _) key, rfl, hbuf', hrl, fun _ _ _ => key⟩
  | panicked p =>
    obtain ⟨ht, pre, x, hids, -, -, -, hc⟩ := hpanic p hend
    rw [hfe, hsuc 0 (Or.inl ht), hids, List.length_append, List.length_singleton]
    refine ⟨?_, rfl, hbuf', hrl, fun n e h => by cases h⟩
    have hsvEq : sv = sr.saved.length := by omega
    exact le_trans (succ_le_ceil _ _ _ hs hc) (Nat.div_le_div_right (by omega))
  | outOfFuel => exact absurd hend hf.fuel

/-- Over any sequence of `Read` calls, the sector reads that succeed are at
most as many as the reader had to read at the start. -/
theorem readEach_sectorsLeft :
    ∀ (bufs : List (List Byte)) (sr : streamReader), 1 ≤ sr.sectorSize →
      sr.remaining < 4294967296 → sr.buf.length = sr.sectorSize →
      successes (readEach sr bufs).fetched ≤ sectorsLeft sr
  | [], sr, _, _, _ => by simp [readEach, successes]
  | d :: ds, sr, hs, h32, hbuf => by
    obtain ⟨h1, hsz, hb, hrem, hret⟩ := Read_sectorsLeft sr d hs h32 hbuf
    rw [readEach]
    cases hend : (Read sr d).ending with
    | returned n e =>
      simp only [hend]
      rw [successes_append]
      have ih := readEach_sectorsLeft ds (Read sr d).sr (by rw [hsz]; exact hs) (by omega) hb
      have := hret n e hend
      omega
    | panicked p => simp only [hend]; exact h1
    | outOfFuel => simp only [hend]; exact h1

/-- Every sector read of one `Read` call, failed ones included, is one of
the sectors that the reader still had to read; a call that returns without
error has no failed sector read. -/
theorem Read_attempts (sr : streamReader) (d : List Byte) (hs : 1 ≤ sr.sectorSize)
    (h32 : sr.remaining < 4294967296) :
    (Read sr d).fetched.length ≤ sectorsLeft sr ∧
      (∀ n, (Read sr d).ending = .returned n none →
        successes (Read sr d).fetched = (Read sr d).fetched.length) := by
  by_cases hr : sr.remaining = 0
  · rw [Read_eof sr d hr]
    exact ⟨by simp, fun _ _ => by simp [successes]⟩
  by_cases hd : d.length = 0
  · rw [Read, if_neg hr, if_pos hd]
    exact ⟨by simp, fun _ _ => by simp [successes]⟩
  obtain ⟨ids, tail, hf⟩ := Read_facts sr d hs h32 hr hd
  have hwr : min d.length sr.remaining ≤ sr.remaining := Nat.min_le_right _ _
  have hsvl : min (min d.length sr.remaining) sr.saved.length ≤ min d.length sr.remaining :=
    Nat.min_le_left _ _
  have hsv : min (min d.length sr.remaining) sr.saved.length = min d.length sr.remaining ∨
      min (min d.length sr.remaining) sr.saved.length = sr.saved.length := by omega
  have hfe := hf.fetched_eq
  have hok := hf.ok
  have herr := hf.err
  have hpanic := hf.panic
  generalize min d.length sr.remaining = lim at hwr hsvl hsv hok herr hpanic
  generalize min lim sr.saved.length = sv at hsvl hsv hok herr hpanic
  unfold sectorsLeft
  rw [hfe, List.length_append, List.length_map]
  cases hend : (Read sr d).ending with
  | returned n e =>
    cases e with
    | none =>
      obtain ⟨ht, -, -, -, hc, -⟩ := hok n hend
      subst ht
      refine ⟨?_, fun _ _ => ?_⟩
      · rw [List.length_nil, Nat.add_zero]
        rcases hsv with h | h
        · have hl : ids.length = 0 := by
            by_contra hne
            have : sr.sectorSize * 1 ≤ sr.sectorSize * ids.length :=
              Nat.mul_le_mul_left _ (by omega)
            omega
          rw [hl]; exact Nat.zero_le _
        · exact le_ceil _ _ _ hs (by omega)
      · rw [successes_append, successes_ok]; simp [successes]
    | some e =>
      obtain ⟨-, -, -, hc, -, hcase⟩ := herr n e hend
      refine ⟨?_, fun m h => by cases h⟩
      have hlen : tail.length ≤ 1 := by
        rcases hcase with h | h <;> rw [h.1] <;> simp
      exact le_trans (Nat.add_le_add_left hlen _) (succ_le_ceil _ _ _ hs (by omega))
  | panicked p =>
    obtain ⟨ht, pre, x, hids, -, -, -, hc⟩ := hpanic p hend
    subst ht
    refine ⟨?_, fun m h => by cases h⟩
    rw [hids, List.length_nil, Nat.add_zero, List.length_append, List.length_singleton]
    exact succ_le_ceil _ _ _ hs (by omega)
  | outOfFuel => exact absurd hend hf.fuel

/-- A caller that stops at the first error issues, failed reads included,
at most as many sector reads as the reader had to read at the start. -/
theorem readAll_attempts :
    ∀ (bufs : List (List Byte)) (sr : streamReader), 1 ≤ sr.sectorSize →
      sr.remaining < 4294967296 → sr.buf.length = sr.sectorSize →
      (readAll sr bufs).fetched.length ≤ sectorsLeft sr
  | [], sr, _, _, _ => by simp [readAll]
  | d :: ds, sr, hs, h32, hbuf => by
    obtain ⟨-, hsz, hb, hrem, hret⟩ := Read_sectorsLeft sr d hs h32 hbuf
    obtain ⟨hall, hsame⟩ := Read_attempts sr d hs h32
    rw [readAll]
    cases hend : (Read sr d).ending with
    | returned n e =>
      cases e with
      | none =>
        simp only [hend]
        rw [List.length_append]
        have ih := readAll_attempts ds (Read sr d).sr (by rw [hsz]; exact hs) (by omega)
          (by rw [hb, hsz])
        have h1 := hret n none hend
        have h2 := hsame n hend
        omega
      | some e => simp only [hend]; exact hall
    | panicked p => simp only [hend]; exact hall
    | outOfFuel => simp only [hend]; exact hall

theorem linkSectors_cons {σ : Type} (eoc : SecID)
    (write : σ → SecID → List Byte → σ × Option Error) (s : Nat) (i : SecID)
    (ids : List SecID) (w : Writer σ) :
    linkSectors eoc write s (i :: ids) w =
      match linkTo eoc w i with
      | none => .panic w .indexOutOfRange
      | some w1 =>
        match (write w1.file i (w1.contents.take s)).2 with
        | some e => .ret ⟨w1.sat, (write w1.file i (w1.contents.take s)).1, w1.first, i,
            w1.contents, w1.writes ++ [(i, w1.contents.take s, some e)]⟩ e
        | none => linkSectors eoc write s ids
            ⟨w1.sat, (write w1.file i (w1.contents.take s)).1, w1.first, i,
              w1.contents.drop s, w1.writes ++ [(i, w1.contents.take s, none)]⟩ := by
  rw [linkSectors]
  simp only [linkTo, take_min_length, drop_min_length]
  cases hl : (if w.previous = eoc then some { w with first := i }
      else (setSat w.sat w.previous i).map (fun sat => { w with sat := sat })) with
  | none => rfl
  | some w1 =>
    simp only
    cases hres : (write w1.file i (w1.contents.take s)).2 with
    | some e => simp only [hres]
    | none => rfl

theorem linkTo_some {σ : Type} (eoc : SecID) (w w1 : Writer σ) (i : SecID)
    (h : linkTo eoc w i = some w1) :
    w1.sat = linkedOpen eoc w.sat w.previous [i] ∧ w1.file = w.file ∧
      w1.contents = w.contents ∧ w1.writes = w.writes ∧
      (w.previous = eoc → w1.first = i) ∧
      (w.previous ≠ eoc → w1.first = w.first ∧ 0 ≤ w.previous ∧
        w.previous.toNat < w.sat.length) := by
  unfold linkTo at h
  by_cases hp : w.previous = eoc
  · rw [if_pos hp] at h
    cases h
    exact ⟨by simp [linkedOpen, hp], rfl, rfl, rfl, fun _ => rfl, fun h => absurd hp h⟩
  · rw [if_neg hp] at h
    unfold setSat at h
    by_cases hr : 0 ≤ w.previous ∧ w.previous.toNat < w.sat.length
    · rw [if_pos hr] at h
      cases h
      exact ⟨by simp [linkedOpen, hp], rfl, rfl, rfl, fun h => absurd h hp,
        fun _ => ⟨rfl, hr.1, hr.2⟩⟩
    · rw [if_neg hr] at h
      cases h

/-- The method `addStream` for a sector size that is not zero, in terms of
the result `alloc` of the allocator. -/
theorem addStream_unfold {σ : Type} (ext : Externals σ) (eoc : SecID) (r : ComDoc σ)
    (contents : List Byte) (short : Bool) (s : Nat) (alloc : ComDoc σ × List SecID)
    (hsdef : s = if short then r.ShortSectorSize else r.SectorSize)
    (hadef : ext.makeFreeSectors r ((contents.length + s - 1) / s) short = alloc)
    (hs : 1 ≤ s) :
    addStream ext eoc r contents short =
      match linkSectors eoc (if short then ext.writeShortSector else ext.writeSector) s alloc.2
          ⟨tableOf alloc.1 short, mediumOf alloc.1 short, eoc, eoc, contents, []⟩ with
      | .panic w p => ⟨.panicked p, storeBack alloc.1 short w.sat w.file, w.writes⟩
      | .ret w e => ⟨.returned 0 (some e), storeBack alloc.1 short w.sat w.file, w.writes⟩
      | .go w =>
        match setSat w.sat w.previous eoc with
        | none => ⟨.panicked .indexOutOfRange, storeBack alloc.1 short w.sat w.file, w.writes⟩
        | some sat1 =>
          if 0 < w.contents.length then
            ⟨.panicked .notEnoughSectors, storeBack alloc.1 short sat1 w.file, w.writes⟩
          else
            ⟨.returned w.first none, storeBack alloc.1 short sat1 w.file, w.writes⟩ := by
  subst hadef
  unfold addStream
  rw [← hsdef]
  rw [if_neg (by omega)]
  rfl

/-- With sector writes that all succeed, the loop of `addStream` either
panics on the table or runs to its end, having taken one slice of `s` bytes
off the contents for every id. -/
theorem linkSectors_clean {σ : Type} (eoc : SecID)
    (write : σ → SecID → List Byte → σ × Option Error) (s : Nat)
    (hw : ∀ f id bs, (write f id bs).2 = none) :
    ∀ (ids : List SecID) (w : Writer σ),
      (∃ w', linkSectors eoc write s ids w = .panic w' .indexOutOfRange) ∨
      (∃ w', linkSectors eoc write s ids w = .go w' ∧
        w'.contents = w.contents.drop (s * ids.length))
  | [], w => Or.inr ⟨w, rfl, by simp⟩
  | i :: ids, w => by
    rw [linkSectors_cons]
    cases hl : linkTo eoc w i with
    | none => exact Or.inl ⟨w, rfl⟩
    | some w1 =>
      obtain ⟨-, -, hc, -, -, -⟩ := linkTo_some eoc w w1 i hl
      simp only [hw]
      rcases linkSectors_clean eoc write s hw ids
        ⟨w1.sat, (write w1.file i (w1.contents.take s)).1, w1.first, i,
          w1.contents.drop s, w1.writes ++ [(i, w1.contents.take s, none)]⟩ with h | ⟨w', h, hd⟩
      · exact Or.inl h
      · refine Or.inr ⟨w', h, ?_⟩
        rw [hd, hc]
        simp [List.drop_drop, Nat.mul_succ, Nat.add_comm]

theorem linkedOpen_snoc (eoc : SecID) :
    ∀ (pre : List SecID) (sat : List SecID) (prev i x : SecID),
      linkedOpen eoc (linkedOpen eoc sat prev [i]) i (pre ++ [x])
        = linkedOpen eoc sat prev ((i :: pre) ++ [x]) := by
  intro pre sat prev i x
  simp [linkedOpen]

/-- A loop of `addStream` that ends on a failed write: the ids before the
failed one were linked and written, the failed one was linked. -/
theorem linkSectors_ret {σ : Type} (eoc : SecID)
    (write : σ → SecID → List Byte → σ × Option Error) (s : Nat) :
    ∀ (ids : List SecID) (w w' : Writer σ) (e : Error),
      linkSectors eoc write s ids w = .ret w' e →
      ∃ pre x post, ids = pre ++ x :: post ∧
        w'.sat = linkedOpen eoc w.sat w.previous (pre ++ [x]) ∧
        w'.writes = w.writes
          ++ List.zipWith (fun id c => (id, c, none)) pre (chunks s pre.length w.contents)
          ++ [(x, (w.contents.drop (s * pre.length)).take s, some e)]
  | [], w, w', e, h => by cases h
  | i :: ids, w, w', e, h => by
    rw [linkSectors_cons] at h
    cases hl : linkTo eoc w i with
    | none => rw [hl] at h; cases h
    | some w1 =>
      obtain ⟨hsat, -, hc, hwr, -, -⟩ := linkTo_some eoc w w1 i hl
      rw [hl] at h
      simp only at h
      cases hres : (write w1.file i (w1.contents.take s)).2 with
      | some e1 =>
        rw [hres] at h
        simp only at h
        cases h
        exact ⟨[], i, ids, rfl, hsat, by simp [chunks, hwr, hc]⟩
      | none =>
        rw [hres] at h
        simp only at h
        obtain ⟨pre, x, post, hids, hs', hw'⟩ := linkSectors_ret eoc write s ids _ w' e h
        refine ⟨i :: pre, x, post, by rw [hids]; rfl, ?_, ?_⟩
        · rw [hs']
          simp only [hsat]
          exact linkedOpen_snoc eoc pre w.sat w.previous i x
        · rw [hw']
          simp [chunks, hwr, hc, List.drop_drop, Nat.mul_succ, Nat.add_comm]

theorem SameOutside_refl (ids : List SecID) (a : List SecID) : SameOutside ids a a :=
  ⟨rfl, fun _ _ => rfl⟩

theorem SameOutside_trans {ids : List SecID} {a b c : List SecID}
    (h1 : SameOutside ids a b) (h2 : SameOutside ids b c) : SameOutside ids a c :=
  ⟨h2.1.trans h1.1, fun j hj => (h2.2 j hj).trans (h1.2 j hj)⟩

theorem SameOutside_set (ids : List SecID) (a : List SecID) (p v : SecID) (h0 : 0 ≤ p)
    (hp : p ∈ ids) : SameOutside ids a (a.set p.toNat v) := by
  refine ⟨by simp, fun j hj => ?_⟩
  have hne : p.toNat ≠ j := by
    intro h
    apply hj
    rw [← h, Int.toNat_of_nonneg h0]
    exact hp
  simp [List.getElem?_set_ne hne]

theorem SameOutside_setSat (ids : List SecID) (a b : List SecID) (p v : SecID)
    (hp : p ∈ ids) (h : setSat a p v = some b) : SameOutside ids a b := by
  unfold setSat at h
  by_cases hr : 0 ≤ p ∧ p.toNat < a.length
  · rw [if_pos hr] at h
    cases h
    exact SameOutside_set ids a p v hr.1 hp
  · rw [if_neg hr] at h
    cases h

/-- The loop of `addStream` writes no table entry other than those of the
allocated ids, however it ends; when it runs to its end over at least one
id, `previous` is an allocated id. -/
theorem linkSectors_frame {σ : Type} (eoc : SecID)
    (write : σ → SecID → List Byte → σ × Option Error) (s : Nat) (all : List SecID) :
    ∀ (ids : List SecID) (w : Writer σ), (∀ i ∈ ids, i ∈ all) →
      (w.previous = eoc ∨ w.previous ∈ all) →
      SameOutside all w.sat (linkSectors eoc write s ids w).writer.sat ∧
        (∀ w', linkSectors eoc write s ids w = .go w' →
          (ids = [] ∧ w' = w) ∨ w'.previous ∈ all)
  | [], w, _, _ => ⟨SameOutside_refl _ _, fun w' h => by cases h; exact Or.inl ⟨rfl, rfl⟩⟩
  | i :: ids, w, hin, hprev => by
    rw [linkSectors_cons]
    have hi : i ∈ all := hin i (List.mem_cons_self _ _)
    cases hl : linkTo eoc w i with
    | none => exact ⟨SameOutside_refl _ _, fun w' h => by cases h⟩
    | some w1 =>
      obtain ⟨hsat, -, -, -, -, hne⟩ := linkTo_some eoc w w1 i hl
      have h1 : SameOutside all w.sat w1.sat := by
        rw [hsat]
        by_cases hp : w.previous = eoc
        · simp only [linkedOpen, if_pos hp]
          exact SameOutside_refl _ _
        · simp only [linkedOpen, if_neg hp]
          exact SameOutside_set all w.sat w.previous i (hne hp).2.1
            (hprev.resolve_left hp)
      simp only
      cases hres : (write w1.file i (w1.contents.take s)).2 with
      | some e => exact ⟨h1, fun w' h => by cases h⟩
      | none =>
        simp only
        obtain ⟨ih1, ih2⟩ := linkSectors_frame eoc write s all ids
          ⟨w1.sat, (write w1.file i (w1.contents.take s)).1, w1.first, i,
            w1.contents.drop s, w1.writes ++ [(i, w1.contents.take s, none)]⟩
          (fun j hj => hin j (List.mem_cons_of_mem _ hj)) (Or.inr hi)
        refine ⟨SameOutside_trans h1 ih1, fun w' h => Or.inr ?_⟩
        rcases ih2 w' h with ⟨-, hw'⟩ | h'
        · rw [hw']; exact hi
        · exact h'

theorem tableOf_storeBack_other {σ : Type} (r : ComDoc σ) (short : Bool) (sat : List SecID)
    (m : Medium σ) : tableOf (storeBack r short sat m) (!short) = m.other := by
  cases short <;> rfl

/-- What the loop of `addStream` leaves of the medium it hands to the sector
writes is what these writes made of it: an observation `g` that no sector
write changes has the same value after the loop, however the loop ends. -/
theorem linkSectors_medium {σ α : Type} (eoc : SecID)
    (write : σ → SecID → List Byte → σ × Option Error) (s : Nat) (g : σ → α)
    (hg : ∀ f id bs, g (write f id bs).1 = g f) :
    ∀ (ids : List SecID) (w : Writer σ),
      g (linkSectors eoc write s ids w).writer.file = g w.file
  | [], _ => rfl
  | i :: ids, w => by
    rw [linkSectors_cons]
    cases hl : linkTo eoc w i with
    | none => rfl
    | some w1 =>
      obtain ⟨-, hfile, -, -, -, -⟩ := linkTo_some eoc w w1 i hl
      simp only
      cases hres : (write w1.file i (w1.contents.take s)).2 with
      | some e =>
        simp only [WFlow.writer]
        rw [hg, hfile]
      | none =>
        simp only
        rw [linkSectors_medium eoc write s g hg ids]
        simp only
        rw [hg, hfile]

/-- Whatever the sector writes do, `addStream` stores back a table that
differs from the one the allocator left only at allocated ids; the table of
the other mode and the backing store are what the sector writes left, so an
observation of them that no sector write changes has the value it had when
the allocator returned. -/
theorem addStream_frame {σ α : Type} (ext : Externals σ) (eoc : SecID) (r : ComDoc σ)
    (contents : List Byte) (short : Bool) (s : Nat) (alloc : ComDoc σ × List SecID)
    (g : Medium σ → α)
    (hsdef : s = if short then r.ShortSectorSize else r.SectorSize)
    (hadef : ext.makeFreeSectors r ((contents.length + s - 1) / s) short = alloc)
    (hs : 1 ≤ s) (hne : alloc.2 ≠ []) :
    ∃ sat m, (addStream ext eoc r contents short).r = storeBack alloc.1 short sat m ∧
      SameOutside alloc.2 (tableOf alloc.1 short) sat ∧
      ((∀ f id bs, g ((if short then ext.writeShortSector else ext.writeSector) f id bs).1
          = g f) → g m = g (mediumOf alloc.1 short)) := by
  rw [addStream_unfold ext eoc r contents short s alloc hsdef hadef hs]
  obtain ⟨h1, h2⟩ := linkSectors_frame eoc
    (if short then ext.writeShortSector else ext.writeSector) s alloc.2 alloc.2
    ⟨tableOf alloc.1 short, mediumOf alloc.1 short, eoc, eoc, contents, []⟩ (fun _ h => h)
    (Or.inl rfl)
  have h4 := fun hg => linkSectors_medium eoc
    (if short then ext.writeShortSector else ext.writeSector) s g hg alloc.2
    ⟨tableOf alloc.1 short, mediumOf alloc.1 short, eoc, eoc, contents, []⟩
  revert h1 h2 h4
  generalize linkSectors eoc (if short then ext.writeShortSector else ext.writeSector) s alloc.2
    ⟨tableOf alloc.1 short, mediumOf alloc.1 short, eoc, eoc, contents, []⟩ = flow
  intro h1 h2 h4
  cases flow with
  | panic w p => exact ⟨w.sat, w.file, rfl, h1, h4⟩
  | ret w e => exact ⟨w.sat, w.file, rfl, h1, h4⟩
  | go w =>
    simp only
    cases hset : setSat w.sat w.previous eoc with
    | none => exact ⟨w.sat, w.file, rfl, h1, h4⟩
    | some sat1 =>
      have hprev : w.previous ∈ alloc.2 := by
        rcases h2 w rfl with ⟨h, -⟩ | h
        · exact absurd h hne
        · exact h
      have h3 := SameOutside_trans h1
        (SameOutside_setSat alloc.2 w.sat sat1 w.previous eoc hprev hset)
      simp only
      split
      · exact ⟨sat1, w.file, rfl, h3, h4⟩
      · exact ⟨sat1, w.file, rfl, h3, h4⟩

theorem Follows_congr (a b : List SecID) :
    ∀ (ids : List SecID) (cur last : SecID),
      (∀ id ∈ ids, b.get? id.toNat = a.get? id.toNat) →
      Follows a cur ids last → Follows b cur ids last
  | [], _, _, _, h => h
  | x :: ids, cur, last, hsame, h => by
    obtain ⟨hc, hx, nxt, hn, hr⟩ := h
    refine ⟨hc, hx, nxt, ?_, Follows_congr a b ids nxt last
      (fun id hid => hsame id (List.mem_cons_of_mem _ hid)) hr⟩
    rw [hsame x (List.mem_cons_self _ _)]
    exact hn

theorem CleanW_zipWith :
    ∀ (ids : List SecID) (cs : List (List Byte)),
      CleanW (List.zipWith (fun id c => (id, c, (none : Option Error))) ids cs)
  | [], _ => by simpa using CleanW_nil
  | _ :: _, [] => by simpa using CleanW_nil
  | i :: ids, c :: cs => by
    simpa using CleanW_cons i c (CleanW_zipWith ids cs)

/-- With ids inside the table and sector writes that succeed, the loop of
`addStream` runs to its end. -/
theorem linkSectors_runs {σ : Type} (eoc : SecID)
    (write : σ → SecID → List Byte → σ × Option Error) (s : Nat)
    (hw : ∀ f id bs, (write f id bs).2 = none) :
    ∀ (ids : List SecID) (w : Writer σ),
      (∀ id ∈ ids, 0 ≤ id ∧ id.toNat < w.sat.length) →
      (w.previous = eoc ∨ (0 ≤ w.previous ∧ w.previous.toNat < w.sat.length)) →
      ∃ w', linkSectors eoc write s ids w = .go w'
  | [], w, _, _ => ⟨w, rfl⟩
  | i :: ids, w, hin, hprev => by
    rw [linkSectors_cons]
    have hlink : ∃ w1, linkTo eoc w i = some w1 ∧ w1.sat.length = w.sat.length := by
      unfold linkTo
      by_cases hp : w.previous = eoc
      · rw [if_pos hp]; exact ⟨_, rfl, rfl⟩
      · rw [if_neg hp]
        obtain ⟨h0, h1⟩ := hprev.resolve_left hp
        rw [setSat_ok _ _ _ h0 h1]
        exact ⟨_, rfl, by simp⟩
    obtain ⟨w1, hl, hlen⟩ := hlink
    rw [hl]
    simp only [hw]
    exact linkSectors_runs eoc write s hw ids _
      (fun id hid => by
        have := hin id (List.mem_cons_of_mem _ hid)
        simpa [hlen] using this)
      (Or.inr (by
        have := hin i (List.mem_cons_self _ _)
        simpa [hlen] using this))

theorem chunks_get (s : Nat) :
    ∀ (k : Nat) (P : List Byte) (j : Nat), j < k →
      (chunks s k P).get? j = some ((P.drop (j * s)).take s)
  | 0, _, _, h => by omega
  | k + 1, P, 0, _ => by simp [chunks]
  | k + 1, P, j + 1, h => by
    simp only [chunks, List.get?_cons_succ]
    rw [chunks_get s k (P.drop s) j (by omega), List.drop_drop]
    congr 3
    rw [Nat.succ_mul]
    omega

theorem chunks_flatten (s : Nat) :
    ∀ (k : Nat) (P : List Byte), (chunks s k P).flatten = P.take (s * k)
  | 0, P => by simp [chunks]
  | k + 1, P => by
    simp only [chunks, List.flatten_cons]
    rw [chunks_flatten s k, Nat.mul_succ, Nat.add_comm, List.take_add]

theorem zipWith_ids {α β : Type} :
    ∀ (ids : List α) (cs : List β), ids.length = cs.length →
      (List.zipWith (fun id c => (id, c, (none : Option Error))) ids cs).map (fun x => x.1) = ids ∧
      (List.zipWith (fun id c => (id, c, (none : Option Error))) ids cs).map (fun x => x.2.1) = cs
  | [], [], _ => ⟨rfl, rfl⟩
  | [], _ :: _, h => by simp at h
  | _ :: _, [], h => by simp at h
  | i :: ids, c :: cs, h => by
    obtain ⟨h1, h2⟩ := zipWith_ids ids cs (by simpa using h)
    simp only [List.zipWith_cons_cons, List.map_cons, h1, h2, and_self]

/-- A loop of `addStream` that runs to its end has written one slice of the
contents to every id, in order. -/
theorem linkSectors_go_writes {σ : Type} (eoc : SecID)
    (write : σ → SecID → List Byte → σ × Option Error) (s : Nat) :
    ∀ (ids : List SecID) (w w' : Writer σ), linkSectors eoc write s ids w = .go w' →
      w'.writes = w.writes
        ++ List.zipWith (fun id c => (id, c, none)) ids (chunks s ids.length w.contents)
  | [], w, w', h => by cases h; simp [chunks]
  | i :: ids, w, w', h => by
    rw [linkSectors_cons] at h
    cases hl : linkTo eoc w i with
    | none => rw [hl] at h; cases h
    | some w1 =>
      obtain ⟨-, -, hc, hwr, -, -⟩ := linkTo_some eoc w w1 i hl
      rw [hl] at h
      simp only at h
      cases hres : (write w1.file i (w1.contents.take s)).2 with
      | some e1 => rw [hres] at h; cases h
      | none =>
        rw [hres] at h
        simp only at h
        rw [linkSectors_go_writes eoc write s ids _ w' h]
        simp [chunks, hwr, hc]

theorem Follows_head (sat : List SecID) :
    ∀ (ids : List SecID) (cur last : SecID), Follows sat cur ids last →
      (ids ++ [last]).get? 0 = some cur
  | [], cur, last, h => by
    have : cur = last := h
    simp [this]
  | x :: ids, cur, last, h => by
    simp [h.1]

/-- In a chain, the table entry of every id is the id that comes next, and
the entry of the last id is `last`. -/
theorem Follows_get (sat : List SecID) :
    ∀ (ids : List SecID) (cur last : SecID), Follows sat cur ids last →
      ∀ (j : Nat) (id : SecID), ids.get? j = some id →
        sat.get? id.toNat = (ids ++ [last]).get? (j + 1)
  | [], _, _, _, j, id, h => by simp at h
  | x :: ids, cur, last, h, 0, id, hj => by
    obtain ⟨-, -, nxt, hn, hr⟩ := h
    simp only [List.get?_cons_zero, Option.some.injEq] at hj
    subst hj
    rw [hn]
    simp only [List.cons_append, List.get?_cons_succ]
    exact (Follows_head sat ids nxt last hr).symm
  | x :: ids, cur, last, h, j + 1, id, hj => by
    obtain ⟨-, -, nxt, hn, hr⟩ := h
    simp only [List.get?_cons_succ] at hj
    simp only [List.cons_append, List.get?_cons_succ]
    exact Follows_get sat ids nxt last hr j id hj

/-! ## The claims -/

/-- C1 (round trip of `addStream` and `ReadStream`/`Read`).  Let `P` be a
non-empty payload whose length fits the `uint32` field `StreamSize`, let
`short` be the flag that `ReadStream` will choose (`len(P) <
MinStdStreamSize`) and `s >= 1` the sector size of that mode.  Suppose the
allocator leaves the sector sizes and the threshold alone and returns
`ceil(len(P)/s)` pairwise distinct ids that are indices of the table of the
mode, every sector write succeeds, and reading a sector that `addStream`
wrote succeeds and yields the bytes written to it followed by padding up to
`s` bytes.  Then `addStream` returns a head `h` without error, `ReadStream`
opens a reader on the entry with `StreamSize = len(P)` and `NextSector = h`,
and reading with any sequence `bufs` of non-empty buffers whose sizes add up
to at least `len(P)`, followed by one more call with buffer `b`, delivers
exactly `P` and ends with `io.EOF`. -/
theorem C1_round_trip {σ : Type} (ext : Externals σ) (DirStream : Nat) (SecIDEndOfChain : SecID)
    (r : ComDoc σ) (P : List Byte) (short : Bool) (s : Nat) (alloc : ComDoc σ × List SecID)
    (pad : SecID → List Byte) (bufs : List (List Byte)) (b : List Byte)
    (heoc : SecIDEndOfChain < 0) (hP : P ≠ []) (hP32 : P.length < 4294967296)
    (hshort : short = decide (P.length < r.MinStdStreamSize))
    (hsdef : s = if short then r.ShortSectorSize else r.SectorSize)
    (hs : 1 ≤ s)
    (hadef : ext.makeFreeSectors r ((P.length + s - 1) / s) short = alloc)
    (hhdr : alloc.1.MinStdStreamSize = r.MinStdStreamSize ∧
      alloc.1.SectorSize = r.SectorSize ∧ alloc.1.ShortSectorSize = r.ShortSectorSize)
    (hcount : alloc.2.length = (P.length + s - 1) / s)
    (hnodup : alloc.2.Nodup)
    (hrange : ∀ id ∈ alloc.2, 0 ≤ id ∧ id.toNat < (tableOf alloc.1 short).length)
    (hwrite : ∀ f id bs,
      ((if short then ext.writeShortSector else ext.writeSector) f id bs).2 = none)
    (hread : ∀ w ∈ (addStream ext SecIDEndOfChain r P short).writes,
      ∀ buf : List Byte, buf.length = s →
        (if short then ext.readShortSector else ext.readSector)
            (addStream ext SecIDEndOfChain r P short).r.File w.1 buf
          = (w.2.1 ++ pad w.1, none) ∧
        (w.2.1 ++ pad w.1).length = s)
    (hne : ∀ d ∈ bufs, d ≠ [])
    (hsum : P.length ≤ (bufs.map List.length).sum) :
    ∃ h sr, (addStream ext SecIDEndOfChain r P short).ending = .returned h none ∧
      ReadStream ext DirStream (addStream ext SecIDEndOfChain r P short).r
        ⟨DirStream, P.length, h⟩ = .ok sr ∧
      (readAll sr (bufs ++ [b])).data = P ∧
      (readAll sr (bufs ++ [b])).stop = .error .EOF := by
  have hge := ceil_mul_ge P.length s hs
  rw [← hcount] at hge
  obtain ⟨f0, rest, hfree⟩ : ∃ f0 rest, alloc.2 = f0 :: rest := by
    cases hf : alloc.2 with
    | nil =>
      rw [hf] at hge
      have : P.length = 0 := by simpa using hge
      exact absurd (List.length_eq_zero.mp this) hP
    | cons f0 rest => exact ⟨f0, rest, rfl⟩
  rw [hfree] at hge hnodup hrange
  obtain ⟨hend, ⟨file, hr⟩, hwrites⟩ :=
    addStream_ok ext SecIDEndOfChain r P short s alloc f0 rest hsdef hadef heoc hs hfree hrange
      hwrite hge
  generalize addStream ext SecIDEndOfChain r P short = run at hread hend hr hwrites ⊢
  obtain ⟨hm, hsz, hssz, hfile⟩ := storeBack_fields alloc.1 short
    (linked SecIDEndOfChain (tableOf alloc.1 short) f0 rest) file
  rw [← hr] at hm hsz hssz hfile
  have hshort' : short = decide (P.length < run.r.MinStdStreamSize) := by
    rw [hm, hhdr.1]; exact hshort
  have hsize : (if short then run.r.ShortSectorSize else run.r.SectorSize) = s := by
    rw [hsz, hssz, hhdr.2.1, hhdr.2.2, hsdef]
  have htab : tableOf run.r short = linked SecIDEndOfChain (tableOf alloc.1 short) f0 rest := by
    rw [hr, tableOf_storeBack]
  have hopen := ReadStream_stream ext DirStream run.r P.length f0 short hshort'
  refine ⟨f0, _, hend, hopen, ?_⟩
  have hfol := Follows_linked SecIDEndOfChain rest (tableOf alloc.1 short) f0
    (hrange f0 (List.mem_cons_self _ _)).1 (hrange f0 (List.mem_cons_self _ _)).2
    (fun id hid => hrange id (List.mem_cons_of_mem _ hid)) hnodup
  have hzip : ∀ p ∈ (f0 :: rest).zip (chunks s (f0 :: rest).length P),
      ∀ buf : List Byte, buf.length = s →
        (if short then ext.readShortSector else ext.readSector) run.r.File p.1 buf
            = (p.2 ++ pad p.1, none) ∧ (p.2 ++ pad p.1).length = s := by
    intro p hp
    exact hread (p.1, p.2, none)
      (by rw [hwrites]
          exact mem_zipWith_of_mem_zip (fun id c => (id, c, (none : Option Error))) p.1 p.2 _ _ hp)
  have hrep : (List.replicate s (0 : Byte)).length = s := List.length_replicate _ _
  have hall := readAll_open ext DirStream run.r ⟨DirStream, P.length, f0⟩ _ (f0 :: rest)
    SecIDEndOfChain
    (fun id => ((if short then ext.readShortSector else ext.readSector) run.r.File id
      (List.replicate s 0)).1) bufs b hopen (by simpa [hsize] using hs) hP32
    (by simpa [htab] using hfol) (by simpa [hsize] using hge)
    (fun id hid buf hbuf => by
      obtain ⟨c, hc⟩ := exists_zip_of_mem id (f0 :: rest) (chunks s (f0 :: rest).length P)
        (by rw [chunks_length]) hid
      simp only [hsize] at hbuf
      simp only [(hzip (id, c) hc buf hbuf).1, (hzip (id, c) hc _ hrep).1])
    (fun id hid => by
      obtain ⟨c, hc⟩ := exists_zip_of_mem id (f0 :: rest) (chunks s (f0 :: rest).length P)
        (by rw [chunks_length]) hid
      simp only [(hzip (id, c) hc _ hrep).1, hsize]
      exact (hzip (id, c) hc _ hrep).2)
    hne hsum
  refine ⟨?_, hall.2⟩
  rw [hall.1]
  exact chainBytes_chunks _ pad s (f0 :: rest) P
    (fun p hp => ⟨by simp only [(hzip p hp _ hrep).1], (hzip p hp _ hrep).2⟩) hge

/-- Witness of C1: ten bytes stored in the sectors 2, 0, 3 of `emptyDoc`
(regular mode, sectors of 4 bytes) and read back in chunks of 3 bytes. -/
theorem C1_round_trip_witness :
    ∃ h sr, (addStream (memExt 4 2 [2, 0, 3]) (-2) emptyDoc tenBytes false).ending
        = .returned h none ∧
      ReadStream (memExt 4 2 [2, 0, 3]) 2
        (addStream (memExt 4 2 [2, 0, 3]) (-2) emptyDoc tenBytes false).r
        ⟨2, tenBytes.length, h⟩ = .ok sr ∧
      (readAll sr ([[0, 0, 0], [0, 0, 0], [0, 0, 0], [0, 0, 0]] ++ [[0]])).data = tenBytes ∧
      (readAll sr ([[0, 0, 0], [0, 0, 0], [0, 0, 0], [0, 0, 0]] ++ [[0]])).stop = .error .EOF :=
  C1_round_trip (memExt 4 2 [2, 0, 3]) 2 (-2) emptyDoc tenBytes false 4 (emptyDoc, [2, 0, 3])
    (fun id => if id = 3 then [0, 0] else [])
    [[0, 0, 0], [0, 0, 0], [0, 0, 0], [0, 0, 0]] [0]
    (by decide) (by decide) (by decide) (by decide) (by decide) (by decide) rfl
    ⟨rfl, rfl, rfl⟩ (by decide) (by decide) (by decide) (fun _ _ _ => rfl)
    (fun w hw buf _ => by
      have hw' : w ∈ [((2 : SecID), ([1, 2, 3, 4] : List Byte), (none : Option Error)),
          (0, [5, 6, 7, 8], none), (3, [9, 10], none)] := hw
      simp only [List.mem_cons, List.mem_singleton, List.not_mem_nil, or_false] at hw'
      rcases hw' with rfl | rfl | rfl <;> exact ⟨rfl, rfl⟩)
    (by decide) (by decide)

/-- Counterexample to C2 as stated: in `offTable` the chain of a stream of 4
bytes has the `ceil(4/2) = 2` sectors 0 and 5 before any negative id and
both sector reads succeed, but reading in chunks of 2 bytes delivers the
bytes of sector 0 only: after sector 5 has been read the table lookup
`sat[5]` panics, 5 not being an index of the table. -/
theorem C2_counterexample :
    ReadStream (memExt 2 1 []) 2 offTable ⟨2, 4, 0⟩ = .ok (regularReader offTable 4 0) ∧
      walk offTable.SAT 2 0 = [0, 5] ∧
      (readAll (regularReader offTable 4 0) [[0, 0], [0, 0], [0]]).fetched
        = [(0, none), (5, none)] ∧
      (readAll (regularReader offTable 4 0) [[0, 0], [0, 0], [0]]).stop
        = .panicked .indexOutOfRange ∧
      (readAll (regularReader offTable 4 0) [[0, 0], [0, 0], [0]]).data = [1, 2] ∧
      (readAll (regularReader offTable 4 0) [[0, 0], [0, 0], [0]]).data ≠ [1, 2, 3, 4] :=
  ⟨rfl, by decide, by decide, by decide, by decide, by decide⟩

/-- C2, amended (`Read` does not depend on how the caller chunks its
requests, on a chain that stays inside the table).  Let `sr` be the reader
that `ReadStream` opens on a stream entry `e`, with sector size at least
one.  Suppose that following the table from the start
sector of `e` meets the ids `ids`, at least `ceil(StreamSize/s)` of them and
every one a non-negative index of the table, and that reading any of them
succeeds and yields the `s` bytes `data id`.  Then for every sequence `bufs`
of non-empty buffers whose sizes add up to at least `StreamSize`, followed
by one more call with buffer `b`, the bytes returned by the successive
`Read` calls are, put together, the first `StreamSize` bytes of the sectors
of the chain in chain order, and the reading ends with `io.EOF`. -/
theorem C2_read_is_chunking_independent {σ : Type} (ext : Externals σ) (DirStream : Nat)
    (r : ComDoc σ) (e : DirEnt) (sr : streamReader) (ids : List SecID) (last : SecID)
    (data : SecID → List Byte) (bufs : List (List Byte)) (b : List Byte)
    (hopen : ReadStream ext DirStream r e = .ok sr)
    (hs : 1 ≤ sr.sectorSize) (h32 : e.StreamSize < 4294967296)
    (hchain : Follows sr.sat e.NextSector ids last)
    (hcount : (e.StreamSize + sr.sectorSize - 1) / sr.sectorSize ≤ ids.length)
    (hread : ∀ id ∈ ids, ∀ buf : List Byte, buf.length = sr.sectorSize →
      sr.readSector id buf = (data id, none))
    (hdata : ∀ id ∈ ids, (data id).length = sr.sectorSize)
    (hne : ∀ d ∈ bufs, d ≠ [])
    (hsum : e.StreamSize ≤ (bufs.map List.length).sum) :
    (readAll sr (bufs ++ [b])).data = (chainBytes data ids).take e.StreamSize ∧
      (readAll sr (bufs ++ [b])).stop = .error .EOF :=
  readAll_open ext DirStream r e sr ids last data bufs b hopen hs h32 hchain
    (le_mul_of_ceil_le _ _ _ hs hcount) hread hdata hne hsum

/-- Witness of C2: a stream of 25 bytes in sectors of 10 bytes (two and a
half sectors), read in chunks of 7 bytes, comes out as the bytes 1..25. -/
theorem C2_read_is_chunking_independent_witness :
    (readAll (regularReader threeSectors 25 1)
        ([List.replicate 7 0, List.replicate 7 0, List.replicate 7 0, List.replicate 7 0]
          ++ [[0]])).data
      = [1, 2, 3, 4, 5, 6, 7, 8, 9, 10, 11, 12, 13, 14, 15, 16, 17, 18, 19, 20,
         21, 22, 23, 24, 25] ∧
    (readAll (regularReader threeSectors 25 1)
        ([List.replicate 7 0, List.replicate 7 0, List.replicate 7 0, List.replicate 7 0]
          ++ [[0]])).stop
      = .error .EOF :=
  C2_read_is_chunking_independent (memExt 10 4 []) 2 threeSectors ⟨2, 25, 1⟩
    (regularReader threeSectors 25 1)
    [1, 2, 0] (-2) (fun id => ((threeSectors.File.lookup id).getD []))
    [List.replicate 7 0, List.replicate 7 0, List.replicate 7 0, List.replicate 7 0] [0]
    rfl (by decide) (by decide)
    ⟨rfl, by decide, 2, rfl, rfl, by decide, 0, rfl, rfl, by decide, -2, rfl, rfl⟩
    (by decide)
    (fun id hid buf _ => by
      simp only [List.mem_cons, List.mem_singleton, List.not_mem_nil, or_false] at hid
      rcases hid with rfl | rfl | rfl <;> rfl)
    (by decide) (by decide) (by decide)

/-- C3 (threshold boundary in `ReadStream`).  For every container and every
entry of stream type, the reader that `ReadStream` returns uses the short
sector size, the SSAT and `readShortSector` exactly when `StreamSize <
MinStdStreamSize`, and the regular sector size, the SAT and `readSector`
otherwise.  In particular a stream of `MinStdStreamSize - 1` bytes is routed
to the short chain and one of exactly `MinStdStreamSize` bytes to the
regular chain. -/
theorem C3_threshold_boundary {σ : Type} (ext : Externals σ) (DirStream : Nat) (r : ComDoc σ)
    (e : DirEnt) (ht : e.Type_ = DirStream) :
    ∃ sr, ReadStream ext DirStream r e = .ok sr ∧
      (e.StreamSize < r.MinStdStreamSize →
        sr.sectorSize = r.ShortSectorSize ∧ sr.sat = r.SSAT ∧
          sr.readSector = ext.readShortSector r.File) ∧
      (¬ e.StreamSize < r.MinStdStreamSize →
        sr.sectorSize = r.SectorSize ∧ sr.sat = r.SAT ∧ sr.readSector = ext.readSector r.File) ∧
      (e.StreamSize + 1 = r.MinStdStreamSize →
        sr.sectorSize = r.ShortSectorSize ∧ sr.sat = r.SSAT ∧
          sr.readSector = ext.readShortSector r.File) ∧
      (e.StreamSize = r.MinStdStreamSize →
        sr.sectorSize = r.SectorSize ∧ sr.sat = r.SAT ∧
          sr.readSector = ext.readSector r.File) := by
  unfold ReadStream
  rw [if_neg (not_not.mpr ht)]
  by_cases h : e.StreamSize < r.MinStdStreamSize
  · rw [if_pos h]
    exact ⟨_, rfl, fun _ => ⟨rfl, rfl, rfl⟩, fun hn => absurd h hn, fun _ => ⟨rfl, rfl, rfl⟩,
      fun he => absurd h (by omega)⟩
  · rw [if_neg h]
    exact ⟨_, rfl, fun hp => absurd hp h, fun _ => ⟨rfl, rfl, rfl⟩, fun he => absurd (by omega) h,
      fun _ => ⟨rfl, rfl, rfl⟩⟩

/-- Witness of C3: in `emptyDoc` (threshold 8) a stream of 7 bytes gets the
short sector size 2 and the three-entry SSAT. -/
theorem C3_threshold_boundary_witness :
    ∃ sr, ReadStream (memExt 4 2 []) 2 emptyDoc ⟨2, 7, 0⟩ = .ok sr ∧
      sr.sectorSize = 2 ∧ sr.sat = [-1, -1, -1] :=
  match C3_threshold_boundary (memExt 4 2 []) 2 emptyDoc ⟨2, 7, 0⟩ rfl with
  | ⟨sr, hopen, _, _, hshort, _⟩ => ⟨sr, hopen, (hshort rfl).1, (hshort rfl).2.1⟩

/-- C4 (zero-length stream), as the code behaves: when the allocator is
asked for no sector and returns the empty list, `previous` still holds
`SecIDEndOfChain` after the loop and the statement `sat[previous] =
SecIDEndOfChain` indexes the table with this negative value, so `addStream`
panics with an index out of range, in both modes, instead of returning a
head.  The reader half of the claim holds: a reader opened on an entry of
size 0 answers every `Read` with 0 bytes and `io.EOF`. -/
theorem C4_addStream_empty_panics {σ : Type} (ext : Externals σ) (DirStream : Nat)
    (SecIDEndOfChain : SecID) (r : ComDoc σ) (short : Bool)
    (heoc : SecIDEndOfChain < 0)
    (hs : 1 ≤ (if short then r.ShortSectorSize else r.SectorSize))
    (hfree : (ext.makeFreeSectors r 0 short).2 = []) :
    (addStream ext SecIDEndOfChain r [] short).ending = .panicked .indexOutOfRange ∧
      ∀ (r' : ComDoc σ) (h : SecID) (sr : streamReader) (d : List Byte),
        ReadStream ext DirStream r' ⟨DirStream, 0, h⟩ = .ok sr →
          (Read sr d).ending = .returned 0 (some .EOF) := by
  constructor
  · have hneed : (([] : List Byte).length + (if short then r.ShortSectorSize else r.SectorSize)
        - 1) / (if short then r.ShortSectorSize else r.SectorSize) = 0 := by
      simp only [List.length_nil, Nat.zero_add]
      exact Nat.div_eq_of_lt (by omega)
    have hset : ∀ sat : List SecID, setSat sat SecIDEndOfChain SecIDEndOfChain = none := by
      intro sat
      rw [setSat, if_neg (fun h => absurd h.1 (not_le.mpr heoc))]
    unfold addStream
    simp only [if_neg (show (if short then r.ShortSectorSize else r.SectorSize) ≠ 0 by omega),
      hneed, hfree, linkSectors, hset]
  · intro r' h sr d hopen
    obtain ⟨-, hrem, -, -, -⟩ := ReadStream_fields hopen
    rw [Read_eof sr d (by rw [hrem])]

/-- Witness of C4: on `emptyDoc` with an allocator that returns no sector,
`addStream` of the empty payload panics in regular mode. -/
theorem C4_addStream_empty_panics_witness :
    (addStream (memExt 4 2 []) (-2) emptyDoc [] false).ending = .panicked .indexOutOfRange :=
  (C4_addStream_empty_panics (memExt 4 2 []) 2 (-2) emptyDoc false (by decide) (by decide) rfl).1

/-- C5 (chain length invariant).  For a non-empty payload `P`, a mode with
sector size `s >= 1`, an allocator that returns `ceil(len(P)/s)` pairwise
distinct ids that are indices of the table of the mode, and sector writes
that all succeed, `addStream` returns a head from which the table of the
mode leads to `SecIDEndOfChain` after exactly `ceil(len(P)/s)` sectors,
none of them visited twice. -/
theorem C5_chain_length {σ : Type} (ext : Externals σ) (SecIDEndOfChain : SecID)
    (r : ComDoc σ) (P : List Byte) (short : Bool) (s : Nat) (alloc : ComDoc σ × List SecID)
    (heoc : SecIDEndOfChain < 0) (hP : P ≠ [])
    (hsdef : s = if short then r.ShortSectorSize else r.SectorSize)
    (hs : 1 ≤ s)
    (hadef : ext.makeFreeSectors r ((P.length + s - 1) / s) short = alloc)
    (hcount : alloc.2.length = (P.length + s - 1) / s)
    (hnodup : alloc.2.Nodup)
    (hrange : ∀ id ∈ alloc.2, 0 ≤ id ∧ id.toNat < (tableOf alloc.1 short).length)
    (hwrite : ∀ f id bs,
      ((if short then ext.writeShortSector else ext.writeSector) f id bs).2 = none) :
    ∃ h ids, (addStream ext SecIDEndOfChain r P short).ending = .returned h none ∧
      (∀ fuel, (P.length + s - 1) / s < fuel →
        chain (tableOf (addStream ext SecIDEndOfChain r P short).r short) SecIDEndOfChain fuel h
          = some ids) ∧
      ids.length = (P.length + s - 1) / s ∧ ids.Nodup := by
  have hge := ceil_mul_ge P.length s hs
  rw [← hcount] at hge
  obtain ⟨f0, rest, hfree⟩ : ∃ f0 rest, alloc.2 = f0 :: rest := by
    cases hf : alloc.2 with
    | nil =>
      rw [hf] at hge
      have : P.length = 0 := by simpa using hge
      exact absurd (List.length_eq_zero.mp this) hP
    | cons f0 rest => exact ⟨f0, rest, rfl⟩
  rw [hfree] at hge hnodup hrange hcount
  obtain ⟨hend, ⟨file, hr⟩, -⟩ :=
    addStream_ok ext SecIDEndOfChain r P short s alloc f0 rest hsdef hadef heoc hs hfree hrange
      hwrite hge
  have hfol := Follows_linked SecIDEndOfChain rest (tableOf alloc.1 short) f0
    (hrange f0 (List.mem_cons_self _ _)).1 (hrange f0 (List.mem_cons_self _ _)).2
    (fun id hid => hrange id (List.mem_cons_of_mem _ hid)) hnodup
  refine ⟨f0, f0 :: rest, hend, fun fuel hfuel => ?_, hcount, hnodup⟩
  rw [hr, tableOf_storeBack]
  exact chain_of_Follows _ _ heoc _ _ fuel hfol (by rw [hcount]; exact hfuel)

/-- Witness of C5: three bytes stored in short mode (short sectors of 2
bytes) in the sectors 1, 0 of `emptyDoc` give a chain of two sectors. -/
theorem C5_chain_length_witness :
    ∃ h ids, (addStream (memExt 4 2 [1, 0]) (-2) emptyDoc [7, 8, 9] true).ending
        = .returned h none ∧
      (∀ fuel, (([7, 8, 9] : List Byte).length + 2 - 1) / 2 < fuel →
        chain (tableOf (addStream (memExt 4 2 [1, 0]) (-2) emptyDoc [7, 8, 9] true).r true) (-2)
          fuel h = some ids) ∧
      ids.length = (([7, 8, 9] : List Byte).length + 2 - 1) / 2 ∧ ids.Nodup :=
  C5_chain_length (memExt 4 2 [1, 0]) (-2) emptyDoc [7, 8, 9] true 2 (emptyDoc, [1, 0])
    (by decide) (by decide) rfl (by decide) rfl (by decide) (by decide) (by decide)
    (fun _ _ _ => rfl)

/-- Counterexample to C6 as stated: in `shortFile` the chain of a stream of
declared size 12 reaches the terminator after 2 sectors, fewer than
`ceil(12/4) = 3`, and the file answers `io.EOF` for sector 1: a `Read` of 12
bytes delivers the 4 bytes of sector 0 and reports `io.EOF`, so the reading
ends with end-of-stream after fewer than 12 bytes. -/
theorem C6_counterexample :
    ReadStream { memExt 4 2 [] with readSector := memReadEOF } 2 shortFile ⟨2, 12, 0⟩
        = .ok { regularReader shortFile 12 0 with readSector := memReadEOF shortFile.File } ∧
      walk shortFile.SAT 3 0 = [0, 1] ∧
      (readAll { regularReader shortFile 12 0 with readSector := memReadEOF shortFile.File }
        [List.replicate 12 0]).data = [1, 2, 3, 4] ∧
      (readAll { regularReader shortFile 12 0 with readSector := memReadEOF shortFile.File }
        [List.replicate 12 0]).stop = .error .EOF :=
  ⟨rfl, by decide, by decide, by decide⟩

/-- C6, amended (a premature end of the chain is detected when the sectors
of the chain can be read).  Let `sr` be the reader that `ReadStream` opens
on a stream entry `e`, with sector size `s >= 1`.
Suppose that following the table from the start sector of `e` meets the ids
`ids`, fewer than `ceil(StreamSize/s)` of them, and then a negative id
`last`, and that reading any of `ids` succeeds and yields the `s` bytes
`data id`.  Then for every sequence `bufs` of non-empty buffers: the bytes
delivered are the requested bytes of the sectors of the chain, never more
than the chain holds and so fewer than `StreamSize`; as soon as the requests
add up to more than the chain holds, the reading ends in a `Read` that
returns the error "unexpected end to stream"; before that point every call
returns all the bytes it was asked for; and no call reports `io.EOF`. -/
theorem C6_premature_end_detected {σ : Type} (ext : Externals σ) (DirStream : Nat)
    (r : ComDoc σ) (e : DirEnt) (sr : streamReader) (ids : List SecID) (last : SecID)
    (data : SecID → List Byte) (bufs : List (List Byte))
    (hopen : ReadStream ext DirStream r e = .ok sr)
    (hs : 1 ≤ sr.sectorSize) (h32 : e.StreamSize < 4294967296)
    (hchain : Follows sr.sat e.NextSector ids last) (hneg : last < 0)
    (hfew : ids.length < (e.StreamSize + sr.sectorSize - 1) / sr.sectorSize)
    (hread : ∀ id ∈ ids, ∀ buf : List Byte, buf.length = sr.sectorSize →
      sr.readSector id buf = (data id, none))
    (hdata : ∀ id ∈ ids, (data id).length = sr.sectorSize)
    (hne : ∀ d ∈ bufs, d ≠ []) :
    (readAll sr bufs).data = (chainBytes data ids).take (bufs.map List.length).sum ∧
      (readAll sr bufs).stop =
        (if sr.sectorSize * ids.length < (bufs.map List.length).sum
         then .error .unexpectedEnd else .exhausted) ∧
      (readAll sr bufs).stop ≠ .error .EOF ∧
      (readAll sr bufs).data.length < e.StreamSize := by
  obtain ⟨-, hrem, -, hsaved, -⟩ := ReadStream_fields hopen
  have hinv := Sound_open hopen ids last data hs h32 hchain hread hdata
  have hlt := mul_lt_of_lt_ceil _ _ _ hs hfew
  obtain ⟨h1, h2⟩ := readAll_short data last hneg bufs sr ids hinv
    (by rw [hrem, hsaved]; simpa using hlt) hne
  rw [hsaved] at h1 h2
  simp only [List.nil_append, List.length_nil, Nat.zero_add] at h1 h2
  refine ⟨h1, h2, ?_, ?_⟩
  · rw [h2]
    split <;> simp
  · rw [h1, List.length_take, chainBytes_length data sr.sectorSize ids hdata]
    omega

/-- Witness of C6: in `oneSector` the chain of a stream of declared size 10
ends after one sector of 4 bytes; reading with two buffers of 3 bytes
delivers the 4 bytes and ends with "unexpected end to stream". -/
theorem C6_premature_end_detected_witness :
    (readAll (regularReader oneSector 10 0) [[0, 0, 0], [0, 0, 0]]).data = [1, 2, 3, 4] ∧
      (readAll (regularReader oneSector 10 0) [[0, 0, 0], [0, 0, 0]]).stop
        = .error .unexpectedEnd :=
  have h := C6_premature_end_detected (memExt 4 2 []) 2 oneSector ⟨2, 10, 0⟩
    (regularReader oneSector 10 0) [0] (-2) (fun id => ((oneSector.File.lookup id).getD []))
    [[0, 0, 0], [0, 0, 0]] rfl (by decide) (by decide)
    ⟨rfl, by decide, -2, rfl, rfl⟩ (by decide) (by decide)
    (fun id hid buf _ => by
      simp only [List.mem_singleton] at hid
      subst hid
      rfl)
    (by decide) (by decide)
  ⟨h.1, h.2.1⟩

/-- C7 (`ReadStream` fails exactly on entries that are not streams).
`ReadStream` returns an error if and only if the type of the entry is not
`DirStream`, and the error is then "not a stream"; for every entry of
stream type it returns a reader whose remaining byte count is
`e.StreamSize`, whose chain pointer is `e.NextSector` and which holds no
buffered bytes. -/
theorem C7_ReadStream_fails_iff_not_stream {σ : Type} (ext : Externals σ) (DirStream : Nat)
    (r : ComDoc σ) (e : DirEnt) :
    ((∃ err, ReadStream ext DirStream r e = .error err) ↔ e.Type_ ≠ DirStream) ∧
      (ReadStream ext DirStream r e = .error .notAStream ↔ e.Type_ ≠ DirStream) ∧
      (e.Type_ = DirStream →
        ∃ sr, ReadStream ext DirStream r e = .ok sr ∧ sr.remaining = e.StreamSize ∧
          sr.nextSector = e.NextSector ∧ sr.saved = []) := by
  unfold ReadStream
  by_cases ht : e.Type_ = DirStream
  · rw [if_neg (not_not.mpr ht)]
    by_cases h : e.StreamSize < r.MinStdStreamSize
    · rw [if_pos h]
      refine ⟨⟨fun ⟨_, he⟩ => (by cases he), fun hn => absurd ht hn⟩,
        ⟨fun he => (by cases he), fun hn => absurd ht hn⟩, fun _ => ⟨_, rfl, rfl, rfl, rfl⟩⟩
    · rw [if_neg h]
      refine ⟨⟨fun ⟨_, he⟩ => (by cases he), fun hn => absurd ht hn⟩,
        ⟨fun he => (by cases he), fun hn => absurd ht hn⟩, fun _ => ⟨_, rfl, rfl, rfl, rfl⟩⟩
  · rw [if_pos ht]
    exact ⟨⟨fun _ => ht, fun _ => ⟨_, rfl⟩⟩, ⟨fun _ => ht, fun _ => rfl⟩, fun h => absurd h ht⟩

/-- Instance of C7: with `DirStream = 2`, an entry of type 1 is refused and
an entry of type 2 is opened. -/
theorem C7_ReadStream_fails_iff_not_stream_witness :
    ReadStream (memExt 4 2 []) 2 emptyDoc ⟨1, 7, 0⟩ = .error .notAStream ∧
      ∃ sr, ReadStream (memExt 4 2 []) 2 emptyDoc ⟨2, 7, 0⟩ = .ok sr ∧ sr.remaining = 7 ∧
        sr.nextSector = 0 ∧ sr.saved = [] :=
  ⟨(C7_ReadStream_fails_iff_not_stream (memExt 4 2 []) 2 emptyDoc ⟨1, 7, 0⟩).2.1.mpr (by decide),
   (C7_ReadStream_fails_iff_not_stream (memExt 4 2 []) 2 emptyDoc ⟨2, 7, 0⟩).2.2 rfl⟩

/-- Counterexample to C8: in `oneSector` the table has one entry and the
backing store holds a sector 5.  A reader whose chain pointer is 5, with 4
bytes remaining and nothing buffered, reads sector 5 successfully and then
panics on the table lookup `sat[5]`; no error is returned to the caller. -/
theorem C8_counterexample :
    0 < (regularReader oneSector 4 5).remaining ∧
      (regularReader oneSector 4 5).saved = [] ∧
      0 ≤ (regularReader oneSector 4 5).nextSector ∧
      (regularReader oneSector 4 5).sat.length ≤ (regularReader oneSector 4 5).nextSector.toNat ∧
      (Read (regularReader oneSector 4 5) [0, 0, 0, 0]).ending = .panicked .indexOutOfRange ∧
      (Read (regularReader oneSector 4 5) [0, 0, 0, 0]).fetched = [(5, none)] ∧
      ¬ ∃ n err, (Read (regularReader oneSector 4 5) [0, 0, 0, 0]).ending
          = .returned n (some err) := by
  refine ⟨by decide, rfl, by decide, by decide, by decide, by decide, ?_⟩
  rintro ⟨n, err, h⟩
  have h2 : (Read (regularReader oneSector 4 5) [0, 0, 0, 0]).ending
      = .panicked .indexOutOfRange := by decide
  rw [h2] at h
  cases h

/-- C8 as amended (a chain pointer outside the table).  For every reader
with a buffer of `sectorSize` bytes, `remaining > 0`, no buffered bytes and
a chain pointer that is non-negative but not an index of its table, `Read`
on a non-empty buffer issues exactly one sector read, of that sector, and
never reports success: when the sector read fails with `err`, `Read` returns
0 bytes and `err`; when it succeeds, `Read` panics on the table lookup
(index out of range).  In particular it panics whenever the store can read
that sector. -/
theorem C8_out_of_range_sector (sr : streamReader) (d : List Byte)
    (hbuf : sr.buf.length = sr.sectorSize)
    (hrem : 0 < sr.remaining) (h32 : sr.remaining < 4294967296) (hsaved : sr.saved = [])
    (hd : d ≠ []) (h0 : 0 ≤ sr.nextSector) (hout : sr.sat.length ≤ sr.nextSector.toNat) :
    ((∀ b, (sr.readSector sr.nextSector b).2 = none) →
        (Read sr d).ending = .panicked .indexOutOfRange) ∧
      (((Read sr d).ending = .panicked .indexOutOfRange ∧
          (Read sr d).fetched = [(sr.nextSector, none)]) ∨
        ∃ err, (Read sr d).ending = .returned 0 (some err) ∧
          (Read sr d).fetched = [(sr.nextSector, some err)]) :=
  Read_out_of_range sr d hbuf hrem h32 hsaved hd h0 hout

/-- Witness of C8 as amended: the reader of `C8_counterexample` panics,
and a reader whose chain pointer 7 names a sector that the store cannot
read gets the error of the store. -/
theorem C8_out_of_range_sector_witness :
    (Read (regularReader oneSector 4 5) [0, 0, 0, 0]).ending = .panicked .indexOutOfRange ∧
      (Read (regularReader oneSector 4 7) [0, 0, 0, 0]).ending
        = .returned 0 (some (.sector 1)) :=
  ⟨(C8_out_of_range_sector (regularReader oneSector 4 5) [0, 0, 0, 0] rfl (by decide)
      (by decide) rfl (by decide) (by decide) (by decide)).1 (fun _ => rfl),
   by
    rcases (C8_out_of_range_sector (regularReader oneSector 4 7) [0, 0, 0, 0] rfl (by decide)
      (by decide) rfl (by decide) (by decide) (by decide)).2 with h | ⟨err, h, _⟩
    · exact absurd h.2 (by decide)
    · exact (by decide : (Read (regularReader oneSector 4 7) [0, 0, 0, 0]).ending
        = .returned 0 (some (.sector 1)))⟩

/-- Counterexample to C9: in `selfLoop` the entry of sector 0 is 0, so the
chain of a stream of 4 bytes (two sectors of 2 bytes) revisits sector 0
before the declared size is reached.  Reading the stream delivers 4 bytes,
the contents of sector 0 twice, and then `io.EOF`; no error is reported. -/
theorem C9_counterexample :
    selfLoop.SAT.get? 0 = some 0 ∧
      ReadStream (memExt 2 1 []) 2 selfLoop ⟨2, 4, 0⟩ = .ok (regularReader selfLoop 4 0) ∧
      (readAll (regularReader selfLoop 4 0) [[0, 0, 0, 0], [0]]).data = [1, 2, 1, 2] ∧
      (readAll (regularReader selfLoop 4 0) [[0, 0, 0, 0], [0]]).stop = .error .EOF ∧
      (readAll (regularReader selfLoop 4 0) [[0, 0, 0, 0], [0]]).fetched
        = [(0, none), (0, none)] := by
  refine ⟨rfl, rfl, by decide, by decide, by decide⟩

/-- C9 as amended (a cyclic chain is not detected).  Let `sr` be the reader
that `ReadStream` opens on a stream entry `e`, with sector size at least
one.  Suppose that following the table from the start sector of `e` meets
the ids `ids`, at least `ceil(StreamSize/s)` of them and every one a
non-negative index of the table, that some id occurs twice among them, and
that reading any of them succeeds and yields the `s` bytes `data id`.  Then
reading the stream up to its declared size reports no corruption: it
delivers exactly `StreamSize` bytes, the sectors in the order in which the
table yields them, repeated sectors included, and ends with `io.EOF`. -/
theorem C9_cycle_not_detected {σ : Type} (ext : Externals σ) (DirStream : Nat)
    (r : ComDoc σ) (e : DirEnt) (sr : streamReader) (ids : List SecID) (last : SecID)
    (data : SecID → List Byte) (bufs : List (List Byte)) (b : List Byte)
    (hopen : ReadStream ext DirStream r e = .ok sr)
    (hs : 1 ≤ sr.sectorSize) (h32 : e.StreamSize < 4294967296)
    (hchain : Follows sr.sat e.NextSector ids last)
    (_hcycle : ¬ ids.Nodup)
    (hcount : (e.StreamSize + sr.sectorSize - 1) / sr.sectorSize = ids.length)
    (hread : ∀ id ∈ ids, ∀ buf : List Byte, buf.length = sr.sectorSize →
      sr.readSector id buf = (data id, none))
    (hdata : ∀ id ∈ ids, (data id).length = sr.sectorSize)
    (hne : ∀ d ∈ bufs, d ≠ [])
    (hsum : e.StreamSize ≤ (bufs.map List.length).sum) :
    (readAll sr (bufs ++ [b])).data = (chainBytes data ids).take e.StreamSize ∧
      (readAll sr (bufs ++ [b])).data.length = e.StreamSize ∧
      (readAll sr (bufs ++ [b])).stop = .error .EOF := by
  have hle := le_mul_of_ceil_le _ _ _ hs (le_of_eq hcount)
  obtain ⟨h1, h2⟩ := readAll_open ext DirStream r e sr ids last data bufs b hopen hs h32 hchain
    hle hread hdata hne hsum
  refine ⟨h1, ?_, h2⟩
  rw [h1, List.length_take, chainBytes_length data sr.sectorSize ids hdata]
  omega

/-- Witness of C9 as amended: the self-loop of `selfLoop`, read with one
buffer of 4 bytes. -/
theorem C9_cycle_not_detected_witness :
    (readAll (regularReader selfLoop 4 0) ([[0, 0, 0, 0]] ++ [[0]])).data = [1, 2, 1, 2] ∧
      (readAll (regularReader selfLoop 4 0) ([[0, 0, 0, 0]] ++ [[0]])).stop = .error .EOF :=
  have h := C9_cycle_not_detected (memExt 2 1 []) 2 selfLoop ⟨2, 4, 0⟩
    (regularReader selfLoop 4 0) [0, 0] 0 (fun _ => [1, 2]) [[0, 0, 0, 0]] [0]
    rfl (by decide) (by decide)
    ⟨rfl, by decide, 0, rfl, rfl, by decide, 0, rfl, rfl⟩ (by decide) (by decide)
    (fun id hid buf _ => by
      simp only [List.mem_cons, List.mem_singleton, List.not_mem_nil, or_false, or_self] at hid
      subst hid
      rfl)
    (by decide) (by decide) (by decide)
  ⟨h.1, h.2.2⟩

/-- C10 (I/O failures are propagated unchanged).  If during a `Read` a
sector read of sector `id` fails with error `err`, then it is the last
sector read of the call and all earlier ones succeeded, `Read` returns
exactly `err` together with the number of bytes copied so far in that call
(the bytes served from the saved buffer plus one sector for each sector
read that succeeded), the chain pointer is left on the failed sector `id`
and `remaining` has been reduced by exactly the returned count.  If during
an `addStream` a sector write fails with error `err`, then `addStream`
returns exactly `err` (with head 0) and the failed write is the last sector
write it issues. -/
theorem C10_io_failures_propagated :
    (∀ (sr : streamReader) (d : List Byte) (id : SecID) (err : Error),
      sr.remaining < 4294967296 → (id, some err) ∈ (Read sr d).fetched →
      ∃ pre, (Read sr d).fetched = pre ++ [(id, some err)] ∧ Clean pre ∧
        (Read sr d).ending = .returned
          (min (min d.length sr.remaining) sr.saved.length + sr.sectorSize * pre.length)
          (some err) ∧
        (Read sr d).sr.nextSector = id ∧
        (Read sr d).sr.remaining + (min (min d.length sr.remaining) sr.saved.length
          + sr.sectorSize * pre.length) = sr.remaining) ∧
    (∀ {σ : Type} (ext : Externals σ) (SecIDEndOfChain : SecID) (r : ComDoc σ)
      (contents : List Byte) (short : Bool) (id : SecID) (bs : List Byte) (err : Error),
      (id, bs, some err) ∈ (addStream ext SecIDEndOfChain r contents short).writes →
      (addStream ext SecIDEndOfChain r contents short).ending = .returned 0 (some err) ∧
        ∃ pre, (addStream ext SecIDEndOfChain r contents short).writes
            = pre ++ [(id, bs, some err)] ∧ CleanW pre) :=
  ⟨fun sr d id err h32 hmem => Read_failure sr d h32 id err hmem,
   fun ext eoc r contents short id bs err hmem =>
    addStream_failure ext eoc r contents short id bs err hmem⟩

/-- Witness of C10: reading 25 bytes from `brokenStore`, whose sector 2
cannot be read, returns the 10 bytes of the first sector and the error of
the store, with the chain pointer on sector 2 and 15 bytes remaining; and
storing `tenBytes` with a store that cannot write sector 0 returns the
error of that write after the writes of the sectors 2 and 0. -/
theorem C10_io_failures_propagated_witness :
    ((Read (regularReader brokenStore 25 1) (List.replicate 25 0)).ending
        = .returned 10 (some (.sector 1)) ∧
      (Read (regularReader brokenStore 25 1) (List.replicate 25 0)).sr.nextSector = 2 ∧
      (Read (regularReader brokenStore 25 1) (List.replicate 25 0)).sr.remaining = 15) ∧
    ((addStream { memExt 4 2 [2, 0, 3] with writeSector := memWriteFailing 0 4 } (-2) emptyDoc
        tenBytes false).ending = .returned 0 (some (.sector 2)) ∧
      (addStream { memExt 4 2 [2, 0, 3] with writeSector := memWriteFailing 0 4 } (-2) emptyDoc
        tenBytes false).writes
        = [(2, [1, 2, 3, 4], none), (0, [5, 6, 7, 8], some (.sector 2))]) := by
  constructor
  · obtain ⟨pre, hf, -, hend, hnext, hrem⟩ := C10_io_failures_propagated.1
      (regularReader brokenStore 25 1) (List.replicate 25 0) 2 (.sector 1) (by decide)
      (by decide)
    have hpre : pre = [(1, none)] := by
      have h2 : (Read (regularReader brokenStore 25 1) (List.replicate 25 0)).fetched
          = [(1, none)] ++ [(2, some (.sector 1))] := by decide
      rw [h2] at hf
      exact (List.append_inj_left' hf rfl).symm
    subst hpre
    exact ⟨hend, hnext, by
      have : (regularReader brokenStore 25 1).remaining = 25 := rfl
      rw [this] at hrem
      have hc : min (min (List.replicate 25 (0 : Byte)).length 25)
          (regularReader brokenStore 25 1).saved.length
          + (regularReader brokenStore 25 1).sectorSize * [((1 : SecID), (none : Option Error))].length
          = 10 := by decide
      rw [hc] at hrem
      omega⟩
  · obtain ⟨hend, -⟩ := C10_io_failures_propagated.2
      { memExt 4 2 [2, 0, 3] with writeSector := memWriteFailing 0 4 } (-2) emptyDoc tenBytes
      false 0 [5, 6, 7, 8] (.sector 2) (by decide)
    exact ⟨hend, by decide⟩

/-- Counterexample to C11 as stated: when the write of the second allocated
sector fails, `addStream` returns the error but the SAT is not the one it
started from: entry 2 holds the link to sector 0 that was made before the
failed write. -/
theorem C11_counterexample :
    (addStream { memExt 4 2 [2, 0, 3] with writeSector := memWriteFailing 0 4 } (-2) emptyDoc
        tenBytes false).ending = .returned 0 (some (.sector 2)) ∧
      (addStream { memExt 4 2 [2, 0, 3] with writeSector := memWriteFailing 0 4 } (-2) emptyDoc
        tenBytes false).r.SAT = [-1, -1, 0, -1] ∧
      (addStream { memExt 4 2 [2, 0, 3] with writeSector := memWriteFailing 0 4 } (-2) emptyDoc
        tenBytes false).r.SAT ≠ emptyDoc.SAT := by
  decide

/-- C11, amended (a failed `addStream` does not undo the links it made).
For every payload, mode and allocator result: if a sector write of
`addStream` fails, on the allocated sector `x`, with error `err`, then
`addStream` returns `err` with head 0; `x` is an allocated id, the ids `pre`
allocated before it were written with success, one slice of the payload
each; the table of the mode is the table that the allocator left with every
id of `pre` linked to the one after it, the last one to `x` (`linkedOpen`),
and the entry of `x` not written; it is the table that the allocator left
when the failed write is the first one (`pre` is empty). -/
theorem C11_failed_addStream_keeps_links {σ : Type} (ext : Externals σ)
    (SecIDEndOfChain : SecID) (r : ComDoc σ) (P : List Byte) (short : Bool) (s : Nat)
    (alloc : ComDoc σ × List SecID) (x : SecID) (bs : List Byte) (err : Error)
    (hsdef : s = if short then r.ShortSectorSize else r.SectorSize)
    (hadef : ext.makeFreeSectors r ((P.length + s - 1) / s) short = alloc)
    (hfail : (x, bs, some err) ∈ (addStream ext SecIDEndOfChain r P short).writes) :
    (addStream ext SecIDEndOfChain r P short).ending = .returned 0 (some err) ∧
    ∃ pre post, alloc.2 = pre ++ x :: post ∧
      (addStream ext SecIDEndOfChain r P short).writes
        = List.zipWith (fun id c => (id, c, none)) pre (chunks s pre.length P)
          ++ [(x, bs, some err)] ∧
      tableOf (addStream ext SecIDEndOfChain r P short).r short
        = linkedOpen SecIDEndOfChain (tableOf alloc.1 short) SecIDEndOfChain (pre ++ [x]) ∧
      (pre = [] →
        tableOf (addStream ext SecIDEndOfChain r P short).r short = tableOf alloc.1 short) := by
  have hs : 1 ≤ s := by
    by_contra h0
    have hz : s = 0 := by omega
    unfold addStream at hfail
    rw [← hsdef, if_pos hz] at hfail
    simp at hfail
  rw [addStream_unfold ext SecIDEndOfChain r P short s alloc hsdef hadef hs] at hfail ⊢
  have htr := linkSectors_traced SecIDEndOfChain
    (if short then ext.writeShortSector else ext.writeSector) s alloc.2
    ⟨tableOf alloc.1 short, mediumOf alloc.1 short, SecIDEndOfChain, SecIDEndOfChain, P, []⟩
  have hret := linkSectors_ret SecIDEndOfChain
    (if short then ext.writeShortSector else ext.writeSector) s alloc.2
    ⟨tableOf alloc.1 short, mediumOf alloc.1 short, SecIDEndOfChain, SecIDEndOfChain, P, []⟩
  revert htr hret hfail
  generalize linkSectors SecIDEndOfChain (if short then ext.writeShortSector
    else ext.writeSector) s alloc.2
    ⟨tableOf alloc.1 short, mediumOf alloc.1 short, SecIDEndOfChain, SecIDEndOfChain, P, []⟩
    = flow
  intro hfail htr hret
  cases flow with
  | panic w p =>
    obtain ⟨new, hnew, hcl⟩ := htr
    simp only [List.nil_append] at hnew
    simp only [hnew] at hfail
    exact absurd hfail (not_mem_CleanW hcl x bs err)
  | go w =>
    obtain ⟨new, hnew, hcl⟩ := htr
    simp only [List.nil_append] at hnew
    have hmem : (x, bs, some err) ∈ w.writes := by
      revert hfail
      simp only
      split
      · exact fun h => h
      · split <;> exact fun h => h
    rw [hnew] at hmem
    exact absurd hmem (not_mem_CleanW hcl x bs err)
  | ret w e =>
    obtain ⟨pre, y, post, hids, hsat, hwr⟩ := hret w e rfl
    simp only [List.nil_append] at hwr
    simp only at hfail ⊢
    rw [hwr] at hfail
    rcases List.mem_append.mp hfail with h | h
    · exact absurd h (not_mem_CleanW (CleanW_zipWith _ _) x bs err)
    · simp only [List.mem_singleton, Prod.mk.injEq, Option.some.injEq] at h
      obtain ⟨hx, hb, he⟩ := h
      subst hx he
      refine ⟨rfl, pre, post, hids, ?_, ?_, ?_⟩
      · rw [hwr, hb]
      · rw [tableOf_storeBack, hsat]
      · intro hp
        rw [tableOf_storeBack, hsat, hp]
        simp [linkedOpen]

/-- Witness of C11: the failed write of sector 0 while storing `tenBytes`
in the sectors 2, 0, 3 of `emptyDoc` leaves sector 2 linked to sector 0 in
the SAT. -/
theorem C11_failed_addStream_keeps_links_witness :
    (addStream { memExt 4 2 [2, 0, 3] with writeSector := memWriteFailing 0 4 } (-2) emptyDoc
        tenBytes false).ending = .returned 0 (some (.sector 2)) ∧
      tableOf (addStream { memExt 4 2 [2, 0, 3] with writeSector := memWriteFailing 0 4 } (-2)
        emptyDoc tenBytes false).r false = [-1, -1, 0, -1] ∧
      linkedOpen (-2) (tableOf emptyDoc false) (-2) [2, 0] = [-1, -1, 0, -1] :=
  ⟨(C11_failed_addStream_keeps_links
      { memExt 4 2 [2, 0, 3] with writeSector := memWriteFailing 0 4 } (-2) emptyDoc tenBytes
      false 4 (emptyDoc, [2, 0, 3]) 0 [5, 6, 7, 8] (.sector 2) rfl rfl (by decide)).1,
    by decide, by decide⟩

/-- C12 (fail-fast invariant of the writer).  For every payload `P`, mode
with sector size `s >= 1` and sector writes that all succeed: if the
allocator returns a non-empty list of at least `ceil(len(P)/s)` ids that are
indices of the table, the loop of `addStream` runs to its end with the
content fully drained, `addStream` returns the head and the panic "didn't
allocate enough sectors" is not raised; if the allocator returns fewer than
`ceil(len(P)/s)` ids, `addStream` ends in a panic and returns no head. -/
theorem C12_fail_fast {σ : Type} (ext : Externals σ) (SecIDEndOfChain : SecID)
    (r : ComDoc σ) (P : List Byte) (short : Bool) (s : Nat) (alloc : ComDoc σ × List SecID)
    (hsdef : s = if short then r.ShortSectorSize else r.SectorSize)
    (hs : 1 ≤ s)
    (hadef : ext.makeFreeSectors r ((P.length + s - 1) / s) short = alloc)
    (hwrite : ∀ f id bs,
      ((if short then ext.writeShortSector else ext.writeSector) f id bs).2 = none) :
    (alloc.2 ≠ [] → (P.length + s - 1) / s ≤ alloc.2.length →
      (∀ id ∈ alloc.2, 0 ≤ id ∧ id.toNat < (tableOf alloc.1 short).length) →
      (∃ w, linkSectors SecIDEndOfChain (if short then ext.writeShortSector else ext.writeSector)
            s alloc.2
            ⟨tableOf alloc.1 short, mediumOf alloc.1 short, SecIDEndOfChain, SecIDEndOfChain, P, []⟩
          = .go w ∧ w.contents = [] ∧
        (addStream ext SecIDEndOfChain r P short).ending = .returned w.first none) ∧
      (addStream ext SecIDEndOfChain r P short).ending ≠ .panicked .notEnoughSectors) ∧
    (alloc.2.length < (P.length + s - 1) / s →
      ∃ p, (addStream ext SecIDEndOfChain r P short).ending = .panicked p) := by
  have hunf := addStream_unfold ext SecIDEndOfChain r P short s alloc hsdef hadef hs
  have hclean := linkSectors_clean SecIDEndOfChain
    (if short then ext.writeShortSector else ext.writeSector) s hwrite alloc.2
    ⟨tableOf alloc.1 short, mediumOf alloc.1 short, SecIDEndOfChain, SecIDEndOfChain, P, []⟩
  constructor
  · intro hne hcount hrange
    obtain ⟨w, hgo⟩ := linkSectors_runs SecIDEndOfChain
      (if short then ext.writeShortSector else ext.writeSector) s hwrite alloc.2
      ⟨tableOf alloc.1 short, mediumOf alloc.1 short, SecIDEndOfChain, SecIDEndOfChain, P, []⟩
      hrange (Or.inl rfl)
    obtain ⟨hsame, hprev⟩ := linkSectors_frame SecIDEndOfChain
      (if short then ext.writeShortSector else ext.writeSector) s alloc.2 alloc.2
      ⟨tableOf alloc.1 short, mediumOf alloc.1 short, SecIDEndOfChain, SecIDEndOfChain, P, []⟩
      (fun _ h => h) (Or.inl rfl)
    rw [hgo] at hsame
    have hp : w.previous ∈ alloc.2 := by
      rcases hprev w hgo with ⟨h, -⟩ | h
      · exact absurd h hne
      · exact h
    have hin := hrange w.previous hp
    have hlen : w.sat.length = (tableOf alloc.1 short).length := hsame.1
    have hnil : w.contents = [] := by
      rcases hclean with ⟨w', h⟩ | ⟨w', h, hd⟩
      · rw [hgo] at h; cases h
      · rw [hgo] at h
        cases h
        rw [hd]
        exact List.drop_of_length_le (le_mul_of_ceil_le _ _ _ hs hcount)
    have hend : (addStream ext SecIDEndOfChain r P short).ending = .returned w.first none := by
      rw [hunf, hgo]
      simp only
      rw [setSat_ok _ _ _ hin.1 (by rw [hlen]; exact hin.2)]
      simp [hnil]
    exact ⟨⟨w, hgo, hnil, hend⟩, by rw [hend]; intro h; cases h⟩
  · intro hfew
    have hlt := mul_lt_of_lt_ceil _ _ _ hs hfew
    rw [hunf]
    rcases hclean with ⟨w', h⟩ | ⟨w', h, hd⟩
    · rw [h]; exact ⟨_, rfl⟩
    · rw [h]
      simp only
      cases hset : setSat w'.sat w'.previous SecIDEndOfChain with
      | none => exact ⟨_, rfl⟩
      | some sat1 =>
        have hpos : 0 < w'.contents.length := by
          rw [hd, List.length_drop]
          exact Nat.sub_pos_of_lt hlt
        simp only [if_pos hpos]
        exact ⟨_, rfl⟩

/-- Witness of C12: `tenBytes` stored in the three sectors 2, 0, 3 of
`emptyDoc` returns the head 2; with the two sectors 2, 0 only, `addStream`
panics. -/
theorem C12_fail_fast_witness :
    (addStream (memExt 4 2 [2, 0, 3]) (-2) emptyDoc tenBytes false).ending
        ≠ .panicked .notEnoughSectors ∧
      (addStream (memExt 4 2 [2, 0, 3]) (-2) emptyDoc tenBytes false).ending = .returned 2 none ∧
      (∃ p, (addStream (memExt 4 2 [2, 0]) (-2) emptyDoc tenBytes false).ending = .panicked p) ∧
      (addStream (memExt 4 2 [2, 0]) (-2) emptyDoc tenBytes false).ending
        = .panicked .notEnoughSectors :=
  ⟨((C12_fail_fast (memExt 4 2 [2, 0, 3]) (-2) emptyDoc tenBytes false 4 (emptyDoc, [2, 0, 3])
      rfl (by decide) rfl (fun _ _ _ => rfl)).1 (by decide) (by decide) (by decide)).2,
    by decide,
    (C12_fail_fast (memExt 4 2 [2, 0]) (-2) emptyDoc tenBytes false 4 (emptyDoc, [2, 0])
      rfl (by decide) rfl (fun _ _ _ => rfl)).2 (by decide),
    by decide⟩

/-- C13 (`Read` clamps to `remaining` and accounts for every byte).  For
every reader state with sector size at least one (and `remaining` a 32-bit
value) and every buffer `d`, `Read` returns or panics, and when it returns
the count `n`, with or without an error: `n` is at most `len(d)` and at
most the value of `remaining` before the call, `remaining` after the call is
its value before minus `n` (the 32-bit counter does not wrap around), and
when no error is returned and `remaining` was positive, `n` is exactly
`min(len(d), remaining)`. -/
theorem C13_read_clamps_and_accounts (sr : streamReader) (d : List Byte)
    (hs : 1 ≤ sr.sectorSize) (h32 : sr.remaining < 4294967296) :
    (Read sr d).ending ≠ .outOfFuel ∧
    ∀ n err, (Read sr d).ending = .returned n err →
      n ≤ d.length ∧ n ≤ sr.remaining ∧
      (Read sr d).sr.remaining = sr.remaining - n ∧
      (Read sr d).sr.remaining + n = sr.remaining ∧
      (err = none → 0 < sr.remaining → n = min d.length sr.remaining) := by
  refine ⟨Read_returns_or_panics sr d hs, fun n err hend => ?_⟩
  by_cases hr : sr.remaining = 0
  · rw [Read_eof sr d hr] at hend ⊢
    cases hend
    exact ⟨Nat.zero_le _, Nat.zero_le _, rfl, rfl, fun h => by cases h⟩
  by_cases hd : d.length = 0
  · rw [Read, if_neg hr, if_pos hd] at hend ⊢
    cases hend
    exact ⟨Nat.zero_le _, Nat.zero_le _, rfl, rfl, fun _ _ => by rw [hd]; simp⟩
  obtain ⟨ids, tail, hf⟩ := Read_facts sr d hs h32 hr hd
  have hl : min d.length sr.remaining ≤ d.length := Nat.min_le_left _ _
  have hrr : min d.length sr.remaining ≤ sr.remaining := Nat.min_le_right _ _
  have hsvl : min (min d.length sr.remaining) sr.saved.length ≤ min d.length sr.remaining :=
    Nat.min_le_left _ _
  cases err with
  | none =>
    obtain ⟨-, hn, hrem, -, -, -⟩ := hf.ok n hend
    exact ⟨by omega, by omega, by omega, by omega, fun _ _ => hn⟩
  | some e =>
    obtain ⟨hn, hrem, -, hc, -, -⟩ := hf.err n e hend
    exact ⟨by omega, by omega, by omega, by omega, fun h => by cases h⟩

/-- Witness of C13: a request of 7 bytes on a reader with 25 bytes
remaining returns 7 and leaves 18; a request of 30 bytes on `brokenStore`,
whose second sector cannot be read, returns 10 with an error and leaves
15. -/
theorem C13_read_clamps_and_accounts_witness :
    ((Read (regularReader threeSectors 25 1) (List.replicate 7 0)).ending = .returned 7 none ∧
      (Read (regularReader threeSectors 25 1) (List.replicate 7 0)).sr.remaining = 25 - 7) ∧
    ((Read (regularReader brokenStore 25 1) (List.replicate 30 0)).ending
        = .returned 10 (some (.sector 1)) ∧
      (Read (regularReader brokenStore 25 1) (List.replicate 30 0)).sr.remaining = 25 - 10) :=
  ⟨⟨by decide,
    ((C13_read_clamps_and_accounts (regularReader threeSectors 25 1) (List.replicate 7 0)
      (by decide) (by decide)).2 7 none (by decide)).2.2.1⟩,
   ⟨by decide,
    ((C13_read_clamps_and_accounts (regularReader brokenStore 25 1) (List.replicate 30 0)
      (by decide) (by decide)).2 10 (some (.sector 1)) (by decide)).2.2.1⟩⟩

/-- C14 (end-of-stream is sticky and free of side effects).  For every
reader whose `remaining` is 0 and every buffer `d`, the empty one included,
`Read` returns 0 and `io.EOF`, reads no sector, leaves the buffer and every
field of the reader as they were, and so does every later `Read`, each
reporting `io.EOF` again; and while `remaining` is positive, a `Read` with
an empty buffer returns 0 and no error, reads no sector and leaves the
reader as it was. -/
theorem C14_eof_is_sticky (sr : streamReader) (d : List Byte) :
    (sr.remaining = 0 →
      Read sr d = ⟨.returned 0 (some .EOF), d, sr, []⟩ ∧
      ∀ bufs : List (List Byte), (readEach sr bufs).sr = sr ∧ (readEach sr bufs).fetched = [] ∧
        ∀ d2, (Read (readEach sr bufs).sr d2).ending = .returned 0 (some .EOF)) ∧
    (sr.remaining ≠ 0 → d = [] → Read sr d = ⟨.returned 0 none, d, sr, []⟩) := by
  refine ⟨fun hr => ⟨Read_eof sr d hr, fun bufs => ?_⟩, fun hr hd => ?_⟩
  · have key : (readEach sr bufs).sr = sr ∧ (readEach sr bufs).fetched = [] := by
      induction bufs with
      | nil => exact ⟨rfl, rfl⟩
      | cons b bs ih =>
        rw [readEach, Read_eof sr b hr]
        simp only [List.nil_append]
        exact ih
    refine ⟨key.1, key.2, fun d2 => ?_⟩
    rw [key.1, Read_eof sr d2 hr]
  · rw [Read, if_neg hr, if_pos (by rw [hd]; rfl)]

/-- Witness of C14: a reader at the end of `threeSectors` reports `io.EOF`
on a buffer of 5 bytes and is left as it was, and a reader with 25 bytes
remaining returns 0 and no error on the empty buffer. -/
theorem C14_eof_is_sticky_witness :
    (Read (regularReader threeSectors 0 1) (List.replicate 5 0)).ending
        = .returned 0 (some .EOF) ∧
      (Read (regularReader threeSectors 0 1) (List.replicate 5 0)).fetched = [] ∧
      (Read (regularReader threeSectors 25 1) []).ending = .returned 0 none :=
  ⟨congrArg ReadRun.ending
      ((C14_eof_is_sticky (regularReader threeSectors 0 1) (List.replicate 5 0)).1 rfl).1,
    congrArg ReadRun.fetched
      ((C14_eof_is_sticky (regularReader threeSectors 0 1) (List.replicate 5 0)).1 rfl).1,
    congrArg ReadRun.ending
      ((C14_eof_is_sticky (regularReader threeSectors 25 1) []).2 (by decide) rfl)⟩

/-- Counterexample to C15 as stated: one allocated id in range and writes
that succeed, but a payload of ten bytes in sectors of four bytes:
`addStream` does not return the head 2, it panics with "didn't allocate
enough sectors". -/
theorem C15_counterexample :
    (addStream (memExt 4 2 [2]) (-2) emptyDoc tenBytes false).ending
        = .panicked .notEnoughSectors ∧
      (addStream (memExt 4 2 [2]) (-2) emptyDoc tenBytes false).ending ≠ .returned 2 none := by
  decide

/-- C15, amended (`addStream` links the allocated ids in allocation
order).  For every payload `P`, mode with sector size `s >= 1` and allocator
result `f0 :: rest` of pairwise distinct ids that are indices of the table,
at least `ceil(len(P)/s)` of them, with a negative end-of-chain terminator
and sector writes that all succeed: `addStream` returns `f0` as the head,
the table entry of every allocated id but the last is the id allocated next,
the entry of the last one is the terminator, and the entry of no allocated
id is `f0`. -/
theorem C15_links_in_allocation_order {σ : Type} (ext : Externals σ) (SecIDEndOfChain : SecID)
    (r : ComDoc σ) (P : List Byte) (short : Bool) (s : Nat) (alloc : ComDoc σ × List SecID)
    (f0 : SecID) (rest : List SecID)
    (heoc : SecIDEndOfChain < 0)
    (hsdef : s = if short then r.ShortSectorSize else r.SectorSize)
    (hs : 1 ≤ s)
    (hadef : ext.makeFreeSectors r ((P.length + s - 1) / s) short = alloc)
    (hfree : alloc.2 = f0 :: rest)
    (hcount : (P.length + s - 1) / s ≤ (f0 :: rest).length)
    (hnodup : (f0 :: rest).Nodup)
    (hrange : ∀ id ∈ f0 :: rest, 0 ≤ id ∧ id.toNat < (tableOf alloc.1 short).length)
    (hwrite : ∀ f id bs,
      ((if short then ext.writeShortSector else ext.writeSector) f id bs).2 = none) :
    (addStream ext SecIDEndOfChain r P short).ending = .returned f0 none ∧
    (∀ (j : Nat) (id : SecID), (f0 :: rest).get? j = some id →
      (tableOf (addStream ext SecIDEndOfChain r P short).r short).get? id.toNat
        = (rest ++ [SecIDEndOfChain]).get? j) ∧
    (∀ id ∈ f0 :: rest,
      (tableOf (addStream ext SecIDEndOfChain r P short).r short).get? id.toNat ≠ some f0) := by
  obtain ⟨hend, ⟨file, hr⟩, -⟩ :=
    addStream_ok ext SecIDEndOfChain r P short s alloc f0 rest hsdef hadef heoc hs hfree hrange
      hwrite (le_mul_of_ceil_le _ _ _ hs hcount)
  have hfol := Follows_linked SecIDEndOfChain rest (tableOf alloc.1 short) f0
    (hrange f0 (List.mem_cons_self _ _)).1 (hrange f0 (List.mem_cons_self _ _)).2
    (fun id hid => hrange id (List.mem_cons_of_mem _ hid)) hnodup
  have hget := Follows_get _ _ _ _ hfol
  rw [hr, tableOf_storeBack]
  have hpoint : ∀ (j : Nat) (id : SecID), (f0 :: rest).get? j = some id →
      (linked SecIDEndOfChain (tableOf alloc.1 short) f0 rest).get? id.toNat
        = (rest ++ [SecIDEndOfChain]).get? j := by
    intro j id hj
    rw [hget j id hj]
    simp
  refine ⟨hend, hpoint, fun id hid hcon => ?_⟩
  obtain ⟨j, hj⟩ := List.mem_iff_get?.mp hid
  rw [hpoint j id hj] at hcon
  have hmem : f0 ∈ rest ++ [SecIDEndOfChain] := List.mem_iff_get?.mpr ⟨j, hcon⟩
  rcases List.mem_append.mp hmem with h | h
  · exact (List.nodup_cons.mp hnodup).1 h
  · have h0 := (hrange f0 (List.mem_cons_self _ _)).1
    rw [List.mem_singleton] at h
    rw [h] at h0
    exact absurd h0 (not_le.mpr heoc)

/-- Witness of C15: `tenBytes` stored in the sectors 2, 0, 3 of `emptyDoc`
returns the head 2 and leaves `SAT[2] = 0`, `SAT[0] = 3` and
`SAT[3] = -2`. -/
theorem C15_links_in_allocation_order_witness :
    (addStream (memExt 4 2 [2, 0, 3]) (-2) emptyDoc tenBytes false).ending = .returned 2 none ∧
      (tableOf (addStream (memExt 4 2 [2, 0, 3]) (-2) emptyDoc tenBytes false).r false).get? 2
        = some 0 ∧
      (tableOf (addStream (memExt 4 2 [2, 0, 3]) (-2) emptyDoc tenBytes false).r false).get? 0
        = some 3 ∧
      (tableOf (addStream (memExt 4 2 [2, 0, 3]) (-2) emptyDoc tenBytes false).r false).get? 3
        = some (-2) :=
  have h := C15_links_in_allocation_order (memExt 4 2 [2, 0, 3]) (-2) emptyDoc tenBytes false 4
    (emptyDoc, [2, 0, 3]) 2 [0, 3] (by decide) rfl (by decide) rfl rfl (by decide) (by decide)
    (by decide) (fun _ _ _ => rfl)
  ⟨h.1, h.2.1 0 2 rfl, h.2.1 1 0 rfl, h.2.1 2 3 rfl⟩

/-- Counterexample to C16 as stated: with `ceil(10/4) = 3` allocated ids
that are not indices of the table and writes that succeed, `addStream`
issues one sector write, not three: it panics on the table when it links
the second id. -/
theorem C16_counterexample :
    (addStream (memExt 4 2 [7, 8, 9]) (-2) emptyDoc tenBytes false).writes
        = [(7, [1, 2, 3, 4], none)] ∧
      (addStream (memExt 4 2 [7, 8, 9]) (-2) emptyDoc tenBytes false).ending
        = .panicked .indexOutOfRange ∧
      (addStream (memExt 4 2 [7, 8, 9]) (-2) emptyDoc tenBytes false).writes.length ≠ 3 := by
  decide

/-- C16, amended (`addStream` writes the content sector by sector).  For
every payload `P`, mode with sector size `s >= 1` and allocator result of
`k = ceil(len(P)/s)` ids that are indices of the table, with sector writes
that all succeed: the sector writes of `addStream` are one per allocated id,
in allocation order; write number `j` carries the bytes
`P[j*s .. min((j+1)*s, len(P)))` and succeeds; no write is longer than `s`
bytes, every write but the last has exactly `s` bytes, and the written
slices put together are `P`. -/
theorem C16_writes_sector_by_sector {σ : Type} (ext : Externals σ) (SecIDEndOfChain : SecID)
    (r : ComDoc σ) (P : List Byte) (short : Bool) (s : Nat) (alloc : ComDoc σ × List SecID)
    (hsdef : s = if short then r.ShortSectorSize else r.SectorSize)
    (hs : 1 ≤ s)
    (hadef : ext.makeFreeSectors r ((P.length + s - 1) / s) short = alloc)
    (hcount : alloc.2.length = (P.length + s - 1) / s)
    (hrange : ∀ id ∈ alloc.2, 0 ≤ id ∧ id.toNat < (tableOf alloc.1 short).length)
    (hwrite : ∀ f id bs,
      ((if short then ext.writeShortSector else ext.writeSector) f id bs).2 = none) :
    (addStream ext SecIDEndOfChain r P short).writes.map (fun x => x.1) = alloc.2 ∧
    (∀ (j : Nat) (x : SecID × List Byte × Option Error),
      (addStream ext SecIDEndOfChain r P short).writes.get? j = some x →
      x.2.1 = (P.drop (j * s)).take s ∧ x.2.2 = none ∧ x.2.1.length ≤ s ∧
        (j + 1 < alloc.2.length → x.2.1.length = s)) ∧
    ((addStream ext SecIDEndOfChain r P short).writes.map (fun x => x.2.1)).flatten = P := by
  obtain ⟨w, hgo⟩ := linkSectors_runs SecIDEndOfChain
    (if short then ext.writeShortSector else ext.writeSector) s hwrite alloc.2
    ⟨tableOf alloc.1 short, mediumOf alloc.1 short, SecIDEndOfChain, SecIDEndOfChain, P, []⟩
    hrange (Or.inl rfl)
  have hwr := linkSectors_go_writes SecIDEndOfChain _ s alloc.2 _ w hgo
  simp only [List.nil_append] at hwr
  have hwrites : (addStream ext SecIDEndOfChain r P short).writes
      = List.zipWith (fun id c => (id, c, none)) alloc.2 (chunks s alloc.2.length P) := by
    rw [addStream_unfold ext SecIDEndOfChain r P short s alloc hsdef hadef hs, hgo, ← hwr]
    simp only
    split
    · rfl
    · split <;> rfl
  obtain ⟨hfst, hsnd⟩ := zipWith_ids alloc.2 (chunks s alloc.2.length P)
    (chunks_length s _ _).symm
  rw [hwrites]
  refine ⟨hfst, fun j x hx => ?_, ?_⟩
  · have hmem : x ∈ List.zipWith (fun id c => (id, c, (none : Option Error))) alloc.2
        (chunks s alloc.2.length P) := List.mem_iff_get?.mpr ⟨j, hx⟩
    have hnone : x.2.2 = none := CleanW_zipWith _ _ x hmem
    have hc : (chunks s alloc.2.length P).get? j = some x.2.1 := by
      rw [← hsnd, List.get?_eq_getElem?, List.getElem?_map, ← List.get?_eq_getElem?, hx]
      rfl
    have hjk : j < alloc.2.length := by
      have := List.get?_eq_some.mp hc
      obtain ⟨h, -⟩ := this
      rw [chunks_length] at h
      exact h
    rw [chunks_get s _ P j hjk] at hc
    have hx2 : x.2.1 = (P.drop (j * s)).take s := (Option.some.inj hc).symm
    refine ⟨hx2, hnone, by rw [hx2, List.length_take]; exact Nat.min_le_left _ _, fun hlast => ?_⟩
    rw [hx2, List.length_take, List.length_drop]
    have hlt : s * (alloc.2.length - 1) < P.length :=
      mul_lt_of_lt_ceil _ _ _ hs (by rw [← hcount]; omega)
    have hle : s * (j + 1) ≤ s * (alloc.2.length - 1) := Nat.mul_le_mul_left _ (by omega)
    rw [Nat.mul_succ, Nat.mul_comm] at hle
    omega
  · rw [hsnd, chunks_flatten, hcount]
    exact List.take_of_length_le (ceil_mul_ge _ _ hs)

/-- Witness of C16: `tenBytes` stored in the sectors 2, 0, 3 of `emptyDoc`
is written as the slices 1..4, 5..8 and 9..10. -/
theorem C16_writes_sector_by_sector_witness :
    (addStream (memExt 4 2 [2, 0, 3]) (-2) emptyDoc tenBytes false).writes
        = [(2, [1, 2, 3, 4], none), (0, [5, 6, 7, 8], none), (3, [9, 10], none)] ∧
      (addStream (memExt 4 2 [2, 0, 3]) (-2) emptyDoc tenBytes false).writes.map (fun x => x.1)
        = [2, 0, 3] ∧
      ((addStream (memExt 4 2 [2, 0, 3]) (-2) emptyDoc tenBytes false).writes.map
        (fun x => x.2.1)).flatten = tenBytes :=
  have h := C16_writes_sector_by_sector (memExt 4 2 [2, 0, 3]) (-2) emptyDoc tenBytes false 4
    (emptyDoc, [2, 0, 3]) rfl (by decide) rfl (by decide) (by decide) (fun _ _ _ => rfl)
  ⟨by decide, h.1, h.2.2⟩

/-- C17 (no sector is read twice, the reader only moves forward).  For
every reader with sector size at least one and every sequence `bufs` of
`Read` calls in which all sector reads succeed: the sector ids read, in
order, are `nextSector`, `sat[nextSector]`, `sat[sat[nextSector]]`, ... (as
many of them as there were reads); unless a call panicked, the table leads
from the first chain pointer through exactly these ids to the chain pointer
at the end, so each read moved the pointer to the table successor of the id
read; `remaining` is never increased, neither by the sequence nor by a
single call; and when the chain repeats no id, no sector id is read more
than once. -/
theorem C17_no_sector_read_twice (sr : streamReader) (bufs : List (List Byte))
    (hs : 1 ≤ sr.sectorSize) (h32 : sr.remaining < 4294967296)
    (hclean : Clean (readEach sr bufs).fetched) :
    (readEach sr bufs).fetched.map Prod.fst
        = walk sr.sat (readEach sr bufs).fetched.length sr.nextSector ∧
      ((readEach sr bufs).panicked = false →
        Follows sr.sat sr.nextSector ((readEach sr bufs).fetched.map Prod.fst)
          (readEach sr bufs).sr.nextSector) ∧
      (readEach sr bufs).sr.remaining ≤ sr.remaining ∧
      (∀ d, (Read sr d).sr.remaining ≤ sr.remaining) ∧
      ((∀ n, (walk sr.sat n sr.nextSector).Nodup) →
        ((readEach sr bufs).fetched.map Prod.fst).Nodup) := by
  obtain ⟨ids, hf, hrem, hok, hpanic⟩ := readEach_trail bufs sr hs h32 hclean
  have hmap : (readEach sr bufs).fetched.map Prod.fst = ids := by
    rw [hf, List.map_map]
    exact List.map_id _
  have hlen : (readEach sr bufs).fetched.length = ids.length := by
    rw [hf, List.length_map]
  have hwalk : (readEach sr bufs).fetched.map Prod.fst
      = walk sr.sat (readEach sr bufs).fetched.length sr.nextSector := by
    rw [hmap, hlen]
    cases hp : (readEach sr bufs).panicked with
    | false => exact (walk_of_Follows sr.sat ids _ _ (hok hp)).symm
    | true =>
      obtain ⟨pre, x, hids, hfol, hx⟩ := hpanic hp
      rw [hids]
      exact (walk_of_Follows_snoc sr.sat x hx pre _ hfol).symm
  refine ⟨hwalk, fun hp => by rw [hmap]; exact hok hp, hrem, fun d => ?_, fun hnd => ?_⟩
  · by_cases hr : sr.remaining = 0
    · rw [Read_eof _ d hr]
    by_cases hd : d.length = 0
    · rw [Read, if_neg hr, if_pos hd]
    · obtain ⟨i, t, hfacts⟩ := Read_facts sr d hs h32 hr hd
      exact hfacts.rem_le
  · rw [hwalk]
    exact hnd _

/-- Witness of C17: the stream of 25 bytes of `threeSectors`, read in four
chunks of 7 bytes, reads the sectors 1, 2, 0 of its chain, each once. -/
theorem C17_no_sector_read_twice_witness :
    (readEach (regularReader threeSectors 25 1)
        [List.replicate 7 0, List.replicate 7 0, List.replicate 7 0, List.replicate 7 0]).fetched
        = [(1, none), (2, none), (0, none)] ∧
      (readEach (regularReader threeSectors 25 1)
        [List.replicate 7 0, List.replicate 7 0, List.replicate 7 0,
          List.replicate 7 0]).fetched.map Prod.fst
        = walk (regularReader threeSectors 25 1).sat
            (readEach (regularReader threeSectors 25 1)
              [List.replicate 7 0, List.replicate 7 0, List.replicate 7 0,
                List.replicate 7 0]).fetched.length
            (regularReader threeSectors 25 1).nextSector :=
  ⟨by decide,
   (C17_no_sector_read_twice (regularReader threeSectors 25 1)
      [List.replicate 7 0, List.replicate 7 0, List.replicate 7 0, List.replicate 7 0]
      (by decide) (by decide) (by unfold Clean; decide)).1⟩

/-- C18 (the traversal is bounded by the declared stream size).  Whatever
the table and the sector store hold, cyclic chains included: one `Read(d)`
on a reader with sector size `s >= 1` issues at most
`ceil(min(len(d), remaining) / s)` sector reads and returns or panics; and
for the reader that `ReadStream` opens on an entry `e`, over every sequence
of `Read` calls the sectors read with success are at most
`ceil(StreamSize / s)`, and so are all sector reads, failed ones included,
of a caller that stops at the first error. -/
theorem C18_traversal_bounded :
    (∀ (sr : streamReader) (d : List Byte), 1 ≤ sr.sectorSize → sr.remaining < 4294967296 →
      (Read sr d).fetched.length
          ≤ (min d.length sr.remaining + sr.sectorSize - 1) / sr.sectorSize ∧
        (Read sr d).ending ≠ .outOfFuel) ∧
    (∀ {σ : Type} (ext : Externals σ) (DirStream : Nat) (r : ComDoc σ) (e : DirEnt)
      (sr : streamReader) (bufs : List (List Byte)),
      ReadStream ext DirStream r e = .ok sr → 1 ≤ sr.sectorSize →
      e.StreamSize < 4294967296 →
      successes (readEach sr bufs).fetched
          ≤ (e.StreamSize + sr.sectorSize - 1) / sr.sectorSize ∧
        (readAll sr bufs).fetched.length
          ≤ (e.StreamSize + sr.sectorSize - 1) / sr.sectorSize) := by
  refine ⟨fun sr d hs h32 => ⟨Read_count sr d hs h32, Read_returns_or_panics sr d hs⟩,
    fun ext DirStream r e sr bufs hopen hs h32 => ?_⟩
  obtain ⟨-, hrem, -, hsaved, hbuf⟩ := ReadStream_fields hopen
  have hleft : sectorsLeft sr = (e.StreamSize + sr.sectorSize - 1) / sr.sectorSize := by
    unfold sectorsLeft
    rw [hrem, hsaved]
    simp
  rw [← hleft]
  exact ⟨readEach_sectorsLeft bufs sr hs (by rw [hrem]; exact h32) hbuf,
    readAll_attempts bufs sr hs (by rw [hrem]; exact h32) hbuf⟩

/-- Witness of C18: on `selfLoop`, whose chain is a cycle, a request of 5
bytes reads 3 sectors of 2 bytes and returns, and reading a stream of 5
bytes in requests of 1, 4 and 9 bytes reads 3 sectors in all. -/
theorem C18_traversal_bounded_witness :
    ((Read (regularReader selfLoop 5 0) (List.replicate 5 0)).fetched.length = 3 ∧
      (Read (regularReader selfLoop 5 0) (List.replicate 5 0)).fetched.length
        ≤ (min (List.replicate 5 (0 : Byte)).length (regularReader selfLoop 5 0).remaining
            + (regularReader selfLoop 5 0).sectorSize - 1)
          / (regularReader selfLoop 5 0).sectorSize) ∧
    (successes (readEach (regularReader selfLoop 5 0)
        [List.replicate 1 0, List.replicate 4 0, List.replicate 9 0]).fetched = 3 ∧
      successes (readEach (regularReader selfLoop 5 0)
        [List.replicate 1 0, List.replicate 4 0, List.replicate 9 0]).fetched
        ≤ (5 + (regularReader selfLoop 5 0).sectorSize - 1)
          / (regularReader selfLoop 5 0).sectorSize) :=
  ⟨⟨by decide,
    (C18_traversal_bounded.1 (regularReader selfLoop 5 0) (List.replicate 5 0) (by decide)
      (by decide)).1⟩,
   ⟨by decide,
    (C18_traversal_bounded.2 (memExt 2 1 []) 2 selfLoop ⟨2, 5, 0⟩ (regularReader selfLoop 5 0)
      [List.replicate 1 0, List.replicate 4 0, List.replicate 9 0] rfl (by decide)
      (by decide)).1⟩⟩

/-- Counterexample to C19 as stated: a short stream of three bytes is
stored in the short sectors 1, 0 of `shortHost` with a short-sector writer
that extends the short-stream container through the SAT.  `addStream`
succeeds, and the table of the other mode, the SAT, is not what it was when
the allocator returned: the sector writes issued by the loop have linked
sector 0 to sector 1 in it. -/
theorem C19_counterexample :
    (addStream { memExt 4 2 [1, 0] with writeShortSector := memWriteShortGrowing 2 } (-2)
        shortHost [7, 8, 9] true).ending = .returned 1 none ∧
      (addStream { memExt 4 2 [1, 0] with writeShortSector := memWriteShortGrowing 2 } (-2)
        shortHost [7, 8, 9] true).r.SAT = [1, -2, -1, -1] ∧
      tableOf (addStream { memExt 4 2 [1, 0] with writeShortSector := memWriteShortGrowing 2 }
        (-2) shortHost [7, 8, 9] true).r (!true) ≠ tableOf shortHost (!true) := by
  decide

/-- C19, amended (`addStream` touches only the entries of the ids it was
allocated).  For every payload, mode with sector size at least one and
non-empty allocator result, and whatever the sector writes do (so also when
`addStream` fails on a write or panics): every entry of the table of the
mode whose index is not an allocated id has the value it had when the
allocator returned, the table has the same length, and a chain of that table
that meets no allocated id is still a chain of it afterwards.  The table of
the other mode is not written by the statements of `addStream`: it is what
the sector writes of the loop left of it, so it is the one the allocator left
whenever no sector write changes it. -/
theorem C19_frame_of_addStream {σ : Type} (ext : Externals σ) (SecIDEndOfChain : SecID)
    (r : ComDoc σ) (P : List Byte) (short : Bool) (s : Nat) (alloc : ComDoc σ × List SecID)
    (hsdef : s = if short then r.ShortSectorSize else r.SectorSize)
    (hs : 1 ≤ s)
    (hadef : ext.makeFreeSectors r ((P.length + s - 1) / s) short = alloc)
    (hne : alloc.2 ≠ []) :
    (∀ j : Nat, (j : SecID) ∉ alloc.2 →
      (tableOf (addStream ext SecIDEndOfChain r P short).r short).get? j
        = (tableOf alloc.1 short).get? j) ∧
    (tableOf (addStream ext SecIDEndOfChain r P short).r short).length
      = (tableOf alloc.1 short).length ∧
    ((∀ m id bs, ((if short then ext.writeShortSector else ext.writeSector) m id bs).1.other
        = m.other) →
      tableOf (addStream ext SecIDEndOfChain r P short).r (!short) = tableOf alloc.1 (!short)) ∧
    (∀ (start last : SecID) (ids : List SecID), (∀ id ∈ ids, id ∉ alloc.2) →
      Follows (tableOf alloc.1 short) start ids last →
      Follows (tableOf (addStream ext SecIDEndOfChain r P short).r short) start ids last) := by
  obtain ⟨sat, m, hr, ⟨hlen, hsame⟩, hother⟩ :=
    addStream_frame ext SecIDEndOfChain r P short s alloc (fun m => m.other) hsdef hadef hs hne
  rw [hr, tableOf_storeBack, tableOf_storeBack_other]
  refine ⟨hsame, hlen, fun hkeep => ?_, fun start last ids hout hfol => ?_⟩
  · rw [hother hkeep]
    cases short <;> rfl
  have hnn : ∀ (ids : List SecID) (cur : SecID), Follows (tableOf alloc.1 short) cur ids last →
      ∀ id ∈ ids, 0 ≤ id := by
    intro ids
    induction ids with
    | nil => intro _ _ id hid; cases hid
    | cons x xs ih =>
      intro cur h id hid
      obtain ⟨-, hx, nxt, -, hr⟩ := h
      rcases List.mem_cons.mp hid with rfl | hid
      · exact hx
      · exact ih nxt hr id hid
  refine Follows_congr _ _ ids start last (fun id hid => hsame id.toNat ?_) hfol
  rw [Int.toNat_of_nonneg (hnn ids start hfol id hid)]
  exact hout id hid

/-- Witness of C19: storing `tenBytes` in the sectors 2, 0, 3 of `emptyDoc`
leaves entry 1 of the SAT as it was, also when the write of sector 0 fails,
and leaves the SSAT as it was, the sector writes of the example not
touching it. -/
theorem C19_frame_of_addStream_witness :
    ((tableOf (addStream (memExt 4 2 [2, 0, 3]) (-2) emptyDoc tenBytes false).r false).get? 1
        = (tableOf emptyDoc false).get? 1 ∧
      (addStream (memExt 4 2 [2, 0, 3]) (-2) emptyDoc tenBytes false).r.SAT = [3, -1, 0, -2] ∧
      tableOf (addStream (memExt 4 2 [2, 0, 3]) (-2) emptyDoc tenBytes false).r (!false)
        = tableOf emptyDoc (!false)) ∧
    ((tableOf (addStream { memExt 4 2 [2, 0, 3] with writeSector := memWriteFailing 0 4 } (-2)
        emptyDoc tenBytes false).r false).get? 1 = (tableOf emptyDoc false).get? 1 ∧
      (addStream { memExt 4 2 [2, 0, 3] with writeSector := memWriteFailing 0 4 } (-2)
        emptyDoc tenBytes false).r.SAT = [-1, -1, 0, -1]) :=
  ⟨⟨(C19_frame_of_addStream (memExt 4 2 [2, 0, 3]) (-2) emptyDoc tenBytes false 4
      (emptyDoc, [2, 0, 3]) rfl (by decide) rfl (by decide)).1 1 (by decide), by decide,
    (C19_frame_of_addStream (memExt 4 2 [2, 0, 3]) (-2) emptyDoc tenBytes false 4
      (emptyDoc, [2, 0, 3]) rfl (by decide) rfl (by decide)).2.2.1 (fun _ _ _ => rfl)⟩,
   ⟨(C19_frame_of_addStream { memExt 4 2 [2, 0, 3] with writeSector := memWriteFailing 0 4 }
      (-2) emptyDoc tenBytes false 4 (emptyDoc, [2, 0, 3]) rfl (by decide) rfl
      (by decide)).1 1 (by decide), by decide⟩⟩

end Comdoc

/-! # Properties of the health check -/

namespace Server

/-- After `n` failed checks in a row the status is lower by `n`, but not
below 0. -/
theorem runChecks_failures (cfg : Config) (hd : cfg.Server.Disabled = false) :
    ∀ (checks : List ((String → Bool) × Int)) (h : Health), 0 ≤ h.healthStatus →
      (∀ c ∈ checks, Fails cfg c) →
      (runChecks cfg checks h).healthStatus = max (h.healthStatus - checks.length) 0
  | [], h, h0, _ => by simp [runChecks, h0]
  | c :: cs, h, h0, hf => by
    have hc : pingTokens c.1 cfg.Keys [] = false := hf c (List.mem_cons_self _ _)
    have hstep : (healthCheck cfg c.1 c.2 h).1.healthStatus
        = if h.healthStatus > 0 then h.healthStatus - 1 else h.healthStatus := by
      simp [healthCheck, hd, hc]
    rw [runChecks, runChecks_failures cfg hd cs _ (by rw [hstep]; split <;> omega)
      (fun c hc => hf c (List.mem_cons_of_mem _ hc)), hstep]
    simp only [List.length_cons, Nat.cast_add, Nat.cast_one]
    split <;> omega

/-- C20 (health status state machine).  With a server that is not disabled
by configuration: the status starts at `HealthCheckMaxFailures = 2`; after
`n` consecutive failed checks from there it is `max (2 - n) 0`, so it is
positive after fewer than two failed checks, 0 after two and never below 0
however many follow; a check in which all pings succeed sets it to
`HealthCheckMaxFailures` whatever it was; and while the last check is not
older than three intervals, `Healthy` reports false exactly when the status
is 0, for every status that the checks can produce. -/
theorem C20_health_status_machine (cfg : Config) (hd : cfg.Server.Disabled = false) :
    startHealth.healthStatus = HealthCheckMaxFailures ∧ HealthCheckMaxFailures = 2 ∧
    (∀ checks : List ((String → Bool) × Int), (∀ c ∈ checks, Fails cfg c) →
      (runChecks cfg checks startHealth).healthStatus
          = max (HealthCheckMaxFailures - checks.length) 0 ∧
        ((runChecks cfg checks startHealth).healthStatus = 0
          ↔ HealthCheckMaxFailures ≤ checks.length) ∧
        0 ≤ (runChecks cfg checks startHealth).healthStatus) ∧
    (∀ (pingOne : String → Bool) (now : Int) (h : Health),
      pingTokens pingOne cfg.Keys [] = true →
      (healthCheck cfg pingOne now h).1.healthStatus = HealthCheckMaxFailures ∧
        (healthCheck cfg pingOne now h).2 = true) ∧
    (∀ (checks : List ((String → Bool) × Int)) (now : Int),
      0 ≤ (runChecks cfg checks startHealth).healthStatus ∧
      (runChecks cfg checks startHealth).healthStatus ≤ HealthCheckMaxFailures ∧
      (now - (runChecks cfg checks startHealth).healthLastPing ≤ 3 * HealthCheckInterval →
        (Healthy now (runChecks cfg checks startHealth) = false
          ↔ (runChecks cfg checks startHealth).healthStatus = 0))) := by
  have hinv : ∀ (checks : List ((String → Bool) × Int)) (h : Health),
      0 ≤ h.healthStatus ∧ h.healthStatus ≤ 2 →
      0 ≤ (runChecks cfg checks h).healthStatus ∧ (runChecks cfg checks h).healthStatus ≤ 2 := by
    intro checks
    induction checks with
    | nil => exact fun h hh => hh
    | cons c cs ih =>
      intro h hh
      rw [runChecks]
      apply ih
      cases hok : pingTokens c.1 cfg.Keys []
      · have hstep : (healthCheck cfg c.1 c.2 h).1.healthStatus
            = if h.healthStatus > 0 then h.healthStatus - 1 else h.healthStatus := by
          simp [healthCheck, hd, hok]
        rw [hstep]
        split <;> omega
      · have hstep : (healthCheck cfg c.1 c.2 h).1.healthStatus = 2 := by
          simp [healthCheck, hd, hok, HealthCheckMaxFailures]
        rw [hstep]
        omega
  refine ⟨rfl, rfl, fun checks hf => ?_, fun pingOne now h hok => ?_, fun checks now => ?_⟩
  · have h := runChecks_failures cfg hd checks startHealth (by decide) hf
    have hs : startHealth.healthStatus = HealthCheckMaxFailures := rfl
    rw [hs] at h
    rw [h]
    have h2 : HealthCheckMaxFailures = 2 := rfl
    rw [h2]
    refine ⟨rfl, ?_, le_max_right _ _⟩
    constructor
    · intro h0
      by_contra hlt
      have : (2 : Int) - checks.length ≤ 0 := by rw [← h0]; exact le_max_left _ _
      omega
    · intro hge
      exact max_eq_right (by omega)
  · simp [healthCheck, hd, hok]
  · have h := hinv checks startHealth (by decide)
    have h2 : HealthCheckMaxFailures = 2 := rfl
    rw [h2]
    refine ⟨h.1, h.2, fun hfresh => ?_⟩
    unfold Healthy
    rw [if_neg (not_lt.mpr hfresh)]
    simp only [decide_eq_false_iff_not, not_lt]
    constructor
    · intro hle; omega
    · intro h0; omega

/-- Witness of C20: with the one key of `oneKey`, two failed checks take
the status from 2 to 0, one failed check leaves it at 1, and a successful
check after two failed ones sets it back to 2. -/
theorem C20_health_status_machine_witness :
    (runChecks oneKey [(fun _ => false, 10), (fun _ => false, 20)] startHealth).healthStatus = 0 ∧
      (runChecks oneKey [(fun _ => false, 10)] startHealth).healthStatus = 1 ∧
      (runChecks oneKey [(fun _ => false, 10), (fun _ => false, 20), (fun _ => true, 30)]
        startHealth).healthStatus = 2 ∧
      ((runChecks oneKey [(fun _ => false, 10), (fun _ => false, 20)] startHealth).healthStatus
          = 0 ↔ HealthCheckMaxFailures ≤ 2) :=
  ⟨by decide, by decide, by decide,
   ((C20_health_status_machine oneKey rfl).2.2.1
      [(fun _ => false, 10), (fun _ => false, 20)]
      (fun c hc => by
        simp only [List.mem_cons, List.mem_singleton, List.not_mem_nil, or_false] at hc
        rcases hc with rfl | rfl <;>
          exact (by decide : pingTokens (fun _ => false) oneKey.Keys [] = false))).2.1⟩

end Server
